import Mathlib

/-! # internal/flex: composite resource identifiers and map diffing

A shallow embedding of `internal/flex/flex.go`.

* A Go `string` is modelled as the list of its characters (`Str`).  The only separator
  the code uses is the one-byte ASCII comma, which never occurs inside a multi-byte
  UTF-8 sequence, so splitting a character list and splitting a byte string agree.
* A Go `int` is modelled as `Int`; the only operations on it are comparisons with `len`.
* A Go `error` built by `fmt.Errorf` is modelled by the message variant together with the
  values handed to the format string.
-/

deriving instance DecidableEq for Except

namespace Flex

/-- A Go string. -/
abbrev Str := List Char

/-- A common separator to be used for creating resource Ids from a combination of
attributes (`ResourceIdSeparator = ","`). -/
def ResourceIdSeparator : Str := [',']

/-! ## The Go standard library functions the codec calls -/

/-- Go `strings.Index(s, sep)`: the offset of the first occurrence of `sep` in `s`,
`none` standing for `-1`. -/
def Index : Str → Str → Option Nat
  | [], sep => if sep.isEmpty then some 0 else none
  | c :: t, sep =>
    if sep.isPrefixOf (c :: t) then some 0 else (Index t sep).map (· + 1)

/-- The loop of Go `strings.Count` for a non-empty `sep`: look the next occurrence up,
count it and continue behind it.  `fuel` bounds the number of iterations. -/
def countLoop (sep : Str) : Nat → Str → Nat
  | 0, _ => 0
  | fuel + 1, s =>
    match Index s sep with
    | none => 0
    | some i => countLoop sep fuel (s.drop (i + sep.length)) + 1

/-- Go `strings.Count(s, sep)`: the number of non-overlapping occurrences of `sep` in `s`,
and `len(s) + 1` (in characters) for the empty `sep`.  An occurrence of a non-empty `sep`
consumes at least one character, so `s.length` iterations are enough. -/
def Count (s sep : Str) : Nat :=
  if sep.isEmpty then s.length + 1 else countLoop sep s.length s

/-- The loop of Go `strings.genSplit` (with `sepSave = 0`): at most `n` times, cut `s` at
the next occurrence of `sep`; what is left is the last part. -/
def genSplitLoop (sep : Str) : Nat → Str → List Str
  | 0, s => [s]
  | n + 1, s =>
    match Index s sep with
    | none => [s]
    | some m => s.take m :: genSplitLoop sep n (s.drop (m + sep.length))

/-- Go `strings.Split(s, sep)`: `s` cut at every occurrence of `sep`.  As in Go the loop
runs `Count(s, sep)` times (Go's clamp of that number to `len(s)` never applies to a
non-empty separator); the empty separator explodes `s` into its characters. -/
def Split (s sep : Str) : List Str :=
  if sep.isEmpty then s.map (fun c => [c]) else genSplitLoop sep (Count s sep) s

/-- Go `strings.Join(elems, sep)`. -/
def Join : List Str → Str → Str
  | [], _ => []
  | [a], _ => a
  | a :: b :: rest, sep => a ++ sep ++ Join (b :: rest) sep

/-! ## Composite resource identifiers -/

/-- The errors of `ExpandResourceId`, each with the arguments of its `fmt.Errorf`. -/
inductive ExpandIdError
  /-- "unexpected format for ID (%v), expected more than one part" -/
  | moreThanOnePart (idParts : List Str)
  /-- "unexpected format for ID (%s), expected (%d) parts separated by (%s)" -/
  | partCount (id : Str) (partCount : Int) (separator : Str)
  /-- "unexpected format for ID (%[1]s), the following id parts indexes are blank (%v)" -/
  | blankParts (id : Str) (emptyParts : List Nat)
  deriving DecidableEq

/-- The errors of `FlattenResourceId`, each with the arguments of its `fmt.Errorf`. -/
inductive FlattenIdError
  /-- "unexpected format for ID parts (%v), expected more than one part" -/
  | moreThanOnePart (idParts : List Str)
  /-- "unexpected format for ID parts (%v), expected (%d) parts" -/
  | partCount (idParts : List Str) (partCount : Int)
  /-- "unexpected format for ID parts (%v), the following id parts indexes are blank (%v)" -/
  | blankParts (idParts : List Str) (emptyParts : List Nat)
  deriving DecidableEq

/-- The loop `for index, part := range idParts { if part == "" { ... } }` shared by both
functions: from position `index` on, with the current values of `emptyPart` and
`emptyParts`, returns their final values. -/
def scanEmptyParts : List Str → Nat → Bool × List Nat → Bool × List Nat
  | [], _, st => st
  | part :: rest, index, (emptyPart, emptyParts) =>
    if part = [] then scanEmptyParts rest (index + 1) (true, emptyParts ++ [index])
    else scanEmptyParts rest (index + 1) (emptyPart, emptyParts)

/-- Takes a string of resource attributes separated by the `ResourceIdSeparator` constant,
an expected number of Id Parts, and a boolean specifying if empty parts are to be allowed.
Returns the list of the resource attribute strings or an error. -/
def ExpandResourceId (id : Str) (partCount : Int) (allowEmptyPart : Bool) :
    Except ExpandIdError (List Str) :=
  let idParts := Split id ResourceIdSeparator
  if (idParts.length : Int) ≤ 1 then
    .error (.moreThanOnePart idParts)
  else if (idParts.length : Int) ≠ partCount then
    .error (.partCount id partCount ResourceIdSeparator)
  else if !allowEmptyPart then
    let (emptyPart, emptyParts) := scanEmptyParts idParts 0 (false, [])
    if emptyPart then .error (.blankParts id emptyParts) else .ok idParts
  else
    .ok idParts

/-- Takes a list of the resource attributes as strings, an expected number of Id Parts, and
a boolean specifying if empty parts are to be allowed.  Returns the attributes separated by
the `ResourceIdSeparator` constant or an error. -/
def FlattenResourceId (idParts : List Str) (partCount : Int) (allowEmptyPart : Bool) :
    Except FlattenIdError Str :=
  if (idParts.length : Int) ≤ 1 then
    .error (.moreThanOnePart idParts)
  else if (idParts.length : Int) ≠ partCount then
    .error (.partCount idParts partCount)
  else if !allowEmptyPart then
    let (emptyPart, emptyParts) := scanEmptyParts idParts 0 (false, [])
    if emptyPart then .error (.blankParts idParts emptyParts) else .ok (Join idParts ResourceIdSeparator)
  else
    .ok (Join idParts ResourceIdSeparator)

/-- Takes a string of resource attributes separated by the `ResourceIdSeparator` constant,
returns the number of parts. -/
def ResourceIdPartCount (id : Str) : Int :=
  ((Split id ResourceIdSeparator).length : Int)

/-! ## Values and maps -/

/-- A Go `interface{}` value, as far as the helpers look at it: they only ask whether it
is a string. -/
inductive GoValue
  | nil
  | string (s : Str)
  | int (n : Int)
  | bool (b : Bool)
  deriving DecidableEq

/-- The type assertion `v.(string)`; `none` stands for the run-time panic of a failed
assertion. -/
def GoValue.assertString : GoValue → Option Str
  | .string s => some s
  | _ => none

/-- A Go `map[string]V`: finitely many entries with pairwise different keys.  The order of
`entries` is the order in which a `range` loop visits them, which Go leaves unspecified;
statements quantified over all maps therefore cover every iteration order. -/
abbrev GoMap (V : Type) := AList (fun _ : Str => V)

/-- The two-value index expression `v, ok := m[k]`: the stored value and `true`, or the zero
value of the value type and `false`. -/
def GoMap.index {V : Type} (m : GoMap V) (zero : V) (k : Str) : V × Bool :=
  match m.lookup k with
  | some v => (v, true)
  | none => (zero, false)

/-- A Go `*string`: `none` is the nil pointer. -/
abbrev StringPtr := Option Str

/-- The SDK helper `aws.String(v)`: a pointer to `v`. -/
def aws.String (v : Str) : StringPtr := some v

/-- The SDK helper `aws.StringValue(p)`: the string pointed to, `""` for nil. -/
def aws.StringValue (p : StringPtr) : Str := p.getD []

/-- The loop of `ApplyToAllValues`: store `f v` under every key of the input. -/
def applyLoop {A B : Type} (f : A → Option B) :
    List (Sigma fun _ : Str => A) → GoMap B → Option (GoMap B)
  | [], out => some out
  | ⟨k, v⟩ :: rest, out =>
    match f v with
    | none => none
    | some b => applyLoop f rest (out.insert k b)

/-- Modelled from the spec: `tfmaps.ApplyToAllValues` lives in `internal/maps`, which is not
among the sources.  From its name, its uses and the spec ("start with `add = copy(new)`")
it returns a new map with the keys of `m` and `f` applied to every value; `f` may panic
(`none`), and then so does the call. -/
def ApplyToAllValues {A B : Type} (m : GoMap A) (f : A → Option B) : Option (GoMap B) :=
  applyLoop f m.entries ∅

/-- Expands a map of string to interface to a map of string to *string. -/
def ExpandStringMap (m : GoMap GoValue) : Option (GoMap StringPtr) :=
  ApplyToAllValues m (fun v => (v.assertString).map aws.String)

/-- ExpandStringValueMap expands a string map of interfaces to a string map of strings. -/
def ExpandStringValueMap (m : GoMap GoValue) : Option (GoMap Str) :=
  ApplyToAllValues m (fun v => v.assertString)

/-! ## Map diffing -/

/-- The three maps a diff works on: `add`, `remove`, `unchanged`. -/
abbrev Diff3 (V : Type) := GoMap V × GoMap V × GoMap V

/-- One iteration of the loop of `DiffStringMaps`, for the entry `k, v` of `oldMap`. -/
def diffStringMapsStep (st : Diff3 StringPtr) (k : Str) (v : GoValue) :
    Option (Diff3 StringPtr) :=
  match v.assertString with
  | none => none
  | some v =>
    let (add, remove, unchanged) := st
    let (old, ok) := add.index none k
    if !ok || aws.StringValue old ≠ v then
      -- Delete it!
      some (add, remove.insert k (aws.String v), unchanged)
    else if ok then
      -- Already present, so remove from new.
      some (add.erase k, remove, unchanged.insert k (aws.String v))
    else
      some (add, remove, unchanged)

/-- The loop `for k, v := range oldMap` of `DiffStringMaps`. -/
def diffStringMapsLoop :
    List (Sigma fun _ : Str => GoValue) → Diff3 StringPtr → Option (Diff3 StringPtr)
  | [], st => some st
  | ⟨k, v⟩ :: rest, st =>
    match diffStringMapsStep st k v with
    | none => none
    | some st' => diffStringMapsLoop rest st'

/-- DiffStringMaps returns the set of keys and values that must be created, the set of keys
and values that must be destroyed, and the set of keys and values that are unchanged.
The result is `(add, remove, unchanged)`; `none` stands for a panic. -/
def DiffStringMaps (oldMap newMap : GoMap GoValue) : Option (Diff3 StringPtr) :=
  -- First, we're creating everything we have.
  match ExpandStringMap newMap with
  | none => none
  | some add => diffStringMapsLoop oldMap.entries (add, ∅, ∅)

/-- One iteration of the loop of `DiffStringValueMaps`, for the entry `k, v` of `oldMap`. -/
def diffStringValueMapsStep (st : Diff3 Str) (k : Str) (v : GoValue) : Option (Diff3 Str) :=
  match v.assertString with
  | none => none
  | some v =>
    let (add, remove, unchanged) := st
    let (old, ok) := add.index [] k
    if !ok || old ≠ v then
      -- Delete it!
      some (add, remove.insert k v, unchanged)
    else if ok then
      -- Already present, so remove from new.
      some (add.erase k, remove, unchanged.insert k v)
    else
      some (add, remove, unchanged)

/-- The loop `for k, v := range oldMap` of `DiffStringValueMaps`. -/
def diffStringValueMapsLoop :
    List (Sigma fun _ : Str => GoValue) → Diff3 Str → Option (Diff3 Str)
  | [], st => some st
  | ⟨k, v⟩ :: rest, st =>
    match diffStringValueMapsStep st k v with
    | none => none
    | some st' => diffStringValueMapsLoop rest st'

/-- DiffStringValueMaps returns the set of keys and values that must be created, the set of
keys and values that must be destroyed, and the set of keys and values that are unchanged.
The result is `(add, remove, unchanged)`; `none` stands for a panic. -/
def DiffStringValueMaps (oldMap newMap : GoMap GoValue) : Option (Diff3 Str) :=
  -- First, we're creating everything we have.
  match ExpandStringValueMap newMap with
  | none => none
  | some add => diffStringValueMapsLoop oldMap.entries (add, ∅, ∅)

/-! ## Reference descriptions used in the statements -/

/-- The map with the same keys whose values are the images under `f`. -/
def GoMap.mapValues {A B : Type} (f : A → B) (m : GoMap A) : GoMap B :=
  ⟨m.entries.map (fun e => ⟨e.1, f e.2⟩), by
    have h := m.nodupKeys
    rw [List.nodupKeys_iff_pairwise] at h ⊢
    exact List.Pairwise.map _ (fun _ _ hab => hab) h⟩

/-- A map with string values seen as a `map[string]interface{}`. -/
def GoMap.toAny (m : GoMap Str) : GoMap GoValue := m.mapValues GoValue.string

/-- A map given by a list of key/value pairs, as a Go map literal: a later entry for a key
replaces an earlier one. -/
def GoMap.ofList {V : Type} : List (Str × V) → GoMap V
  | [] => ∅
  | (k, v) :: rest => (GoMap.ofList rest).insert k v

/-- The entries of the three maps of a diff under the key `k`. -/
def Diff3.at {V : Type} (st : Diff3 V) (k : Str) : Option V × Option V × Option V :=
  (st.1.lookup k, st.2.1.lookup k, st.2.2.lookup k)

/-- What the loop of `DiffStringValueMaps` does to the entries under one key, given the
entry `o` of `oldMap` under that key (if any) and the entries `a`, `r`, `u` of `add`,
`remove` and `unchanged` before the loop. -/
def valueDiffAt (o : Option Str) (aru : Option Str × Option Str × Option Str) :
    Option Str × Option Str × Option Str :=
  match o with
  | none => aru
  | some v => if aru.1 = some v then (none, aru.2.1, some v) else (aru.1, some v, aru.2.2)

/-- What the loop of `DiffStringMaps` does to the entries under one key, given the entry
`o` of `oldMap` under that key (if any) and the entries of `add`, `remove` and `unchanged`
before the loop. -/
def ptrDiffAt (o : Option Str)
    (aru : Option StringPtr × Option StringPtr × Option StringPtr) :
    Option StringPtr × Option StringPtr × Option StringPtr :=
  match o with
  | none => aru
  | some v =>
    match aru.1 with
    | none => (none, some (some v), aru.2.2)
    | some p =>
      if aws.StringValue p = v then (none, aru.2.1, some (some v))
      else (some p, some (some v), aru.2.2)

/-- Reference description of splitting at the character `c`: the maximal runs of characters
between consecutive occurrences of `c` (used to reason about `Split`). -/
def cutAt (c : Char) : Str → List Str
  | [] => [[]]
  | x :: t =>
    if x = c then [] :: cutAt c t
    else
      match cutAt c t with
      | [] => [[x]]
      | p :: ps => (x :: p) :: ps

/-- The indices of the empty parts, as a description: the positions `i` of `parts`, in
ascending order, at which `parts[i]` is the empty string. -/
def blankIndices (parts : List Str) : List Nat :=
  (List.range parts.length).filter (fun i => decide (parts[i]? = some []))


/-- Deleting the keys `ks` from `m`, one `delete(m, k)` after the other. -/
def GoMap.deleteKeys {V : Type} (m : GoMap V) (ks : List Str) : GoMap V :=
  ks.foldl (fun acc k => acc.erase k) m

/-- Setting the entries `es` in `m`, one `m[k] = v` after the other. -/
def GoMap.setEntries {V : Type} (m : GoMap V) (es : List (Sigma fun _ : Str => V)) :
    GoMap V :=
  es.foldl (fun acc e => acc.insert e.1 e.2) m

/-- Reconciling `old` with the result of a diff: delete every key of `remove` from `old`,
then set every entry of `add`. -/
def reconcile (old add remove : GoMap Str) : GoMap Str :=
  (old.deleteKeys remove.keys).setEntries add.entries


/-! ## Maps as objects in a store

Go maps are references: a function that receives a map can change the caller's map.  To
speak about that, the differs are given a second time, on a store of map objects, with
every statement that writes to a map written as a write to the store.  The pure functions
above compute the contents of the results. -/

/-- A map object: a `map[string]interface{}`, a `map[string]string` or a
`map[string]*string`. -/
inductive MapObj
  | ofAny (m : GoMap GoValue)
  | ofString (m : GoMap Str)
  | ofPtr (m : GoMap StringPtr)

/-- The store of map objects.  A Go map value is an address: a position in the store. -/
abbrev Store := List MapObj

/-- A newly made map object: it gets an address no existing map has. -/
def Store.alloc (σ : Store) (o : MapObj) : Store × Nat := (σ ++ [o], σ.length)

/-- The statement `m[k] = v` for a `map[string]string` at address `m`. -/
def Store.setString (σ : Store) (m : Nat) (k v : Str) : Option Store :=
  match σ[m]? with
  | some (.ofString mm) => some (σ.set m (.ofString (mm.insert k v)))
  | _ => none

/-- The statement `delete(m, k)` for a `map[string]string` at address `m`. -/
def Store.deleteString (σ : Store) (m : Nat) (k : Str) : Option Store :=
  match σ[m]? with
  | some (.ofString mm) => some (σ.set m (.ofString (mm.erase k)))
  | _ => none

/-- The statement `m[k] = v` for a `map[string]*string` at address `m`. -/
def Store.setPtr (σ : Store) (m : Nat) (k : Str) (v : StringPtr) : Option Store :=
  match σ[m]? with
  | some (.ofPtr mm) => some (σ.set m (.ofPtr (mm.insert k v)))
  | _ => none

/-- The statement `delete(m, k)` for a `map[string]*string` at address `m`. -/
def Store.deletePtr (σ : Store) (m : Nat) (k : Str) : Option Store :=
  match σ[m]? with
  | some (.ofPtr mm) => some (σ.set m (.ofPtr (mm.erase k)))
  | _ => none

/-- Modelled from the spec: `tfmaps.ApplyToAllValues` (not among the sources) on the store,
as used by `ExpandStringValueMap`: it reads the map at address `m` and returns the address of
a new map ("`add = copy(new)`"); it writes to no existing map. -/
def Store.expandStringValueMap (σ : Store) (m : Nat) : Option (Store × Nat) :=
  match σ[m]? with
  | some (.ofAny mm) =>
    match ExpandStringValueMap mm with
    | none => none
    | some r => some (σ.alloc (.ofString r))
  | _ => none

/-- Modelled from the spec: `tfmaps.ApplyToAllValues` (not among the sources) on the store,
as used by `ExpandStringMap`: it reads the map at address `m` and returns the address of a
new map; it writes to no existing map. -/
def Store.expandStringMap (σ : Store) (m : Nat) : Option (Store × Nat) :=
  match σ[m]? with
  | some (.ofAny mm) =>
    match ExpandStringMap mm with
    | none => none
    | some r => some (σ.alloc (.ofPtr r))
  | _ => none

/-- One iteration of the loop of `DiffStringValueMaps` on the store; `add`, `remove` and
`unchanged` are the addresses held by the three local variables. -/
def storeDiffStringValueMapsStep (σ : Store) (add remove unchanged : Nat) (k : Str)
    (v : GoValue) : Option Store :=
  match v.assertString with
  | none => none
  | some v =>
    match σ[add]? with
    | some (.ofString addM) =>
      let (old, ok) := addM.index [] k
      if !ok || old ≠ v then
        σ.setString remove k v
      else if ok then
        match σ.setString unchanged k v with
        | none => none
        | some σ' => σ'.deleteString add k
      else
        some σ
    | _ => none

/-- The loop `for k, v := range oldMap` of `DiffStringValueMaps` on the store, over the
entries the map at `oldMap` has when the loop starts (the loop does not write to it, see
`storeDiffStringValueMapsLoop_frame`). -/
def storeDiffStringValueMapsLoop (add remove unchanged : Nat) :
    List (Sigma fun _ : Str => GoValue) → Store → Option Store
  | [], σ => some σ
  | ⟨k, v⟩ :: rest, σ =>
    match storeDiffStringValueMapsStep σ add remove unchanged k v with
    | none => none
    | some σ' => storeDiffStringValueMapsLoop add remove unchanged rest σ'

/-- `DiffStringValueMaps` on the store: `oldMap` and `newMap` are addresses of
`map[string]interface{}` objects; the result is the final store and the addresses of `add`,
`remove` and `unchanged`. -/
def storeDiffStringValueMaps (σ : Store) (oldMap newMap : Nat) :
    Option (Store × Nat × Nat × Nat) :=
  match σ.expandStringValueMap newMap with
  | none => none
  | some (σ₁, add) =>
    let (σ₂, remove) := σ₁.alloc (.ofString ∅)
    let (σ₃, unchanged) := σ₂.alloc (.ofString ∅)
    match σ₃[oldMap]? with
    | some (.ofAny oldM) =>
      match storeDiffStringValueMapsLoop add remove unchanged oldM.entries σ₃ with
      | none => none
      | some σ₄ => some (σ₄, add, remove, unchanged)
    | _ => none

/-- One iteration of the loop of `DiffStringMaps` on the store. -/
def storeDiffStringMapsStep (σ : Store) (add remove unchanged : Nat) (k : Str)
    (v : GoValue) : Option Store :=
  match v.assertString with
  | none => none
  | some v =>
    match σ[add]? with
    | some (.ofPtr addM) =>
      let (old, ok) := addM.index none k
      if !ok || aws.StringValue old ≠ v then
        σ.setPtr remove k (aws.String v)
      else if ok then
        match σ.setPtr unchanged k (aws.String v) with
        | none => none
        | some σ' => σ'.deletePtr add k
      else
        some σ
    | _ => none

/-- The loop `for k, v := range oldMap` of `DiffStringMaps` on the store. -/
def storeDiffStringMapsLoop (add remove unchanged : Nat) :
    List (Sigma fun _ : Str => GoValue) → Store → Option Store
  | [], σ => some σ
  | ⟨k, v⟩ :: rest, σ =>
    match storeDiffStringMapsStep σ add remove unchanged k v with
    | none => none
    | some σ' => storeDiffStringMapsLoop add remove unchanged rest σ'

/-- `DiffStringMaps` on the store. -/
def storeDiffStringMaps (σ : Store) (oldMap newMap : Nat) :
    Option (Store × Nat × Nat × Nat) :=
  match σ.expandStringMap newMap with
  | none => none
  | some (σ₁, add) =>
    let (σ₂, remove) := σ₁.alloc (.ofPtr ∅)
    let (σ₃, unchanged) := σ₂.alloc (.ofPtr ∅)
    match σ₃[oldMap]? with
    | some (.ofAny oldM) =>
      match storeDiffStringMapsLoop add remove unchanged oldM.entries σ₃ with
      | none => none
      | some σ₄ => some (σ₄, add, remove, unchanged)
    | _ => none


/-! ## Lists of configured values -/

/-- The checked type assertion `s, ok := v.(string)`: the string and `true`, or `""` and
`false` (for nil and for values of every other type). -/
def GoValue.checkString : GoValue → Str × Bool
  | .string s => (s, true)
  | _ => ([], false)

/-- The loop of `ExpandStringList`; `vs` is the slice built so far. -/
def expandStringListLoop : List GoValue → List StringPtr → List StringPtr
  | [], vs => vs
  | v :: rest, vs =>
    let (v, ok) := v.checkString
    if ok && v ≠ [] then expandStringListLoop rest (vs ++ [aws.String v])
    else expandStringListLoop rest vs

/-- ExpandStringList the result of flatmap.Expand for an array of strings and returns a
`[]*string`.  Empty strings are skipped. -/
def ExpandStringList (configured : List GoValue) : List StringPtr :=
  expandStringListLoop configured []

/-- The loop of `ExpandStringListEmpty`. -/
def expandStringListEmptyLoop : List GoValue → List StringPtr → List StringPtr
  | [], vs => vs
  | v :: rest, vs =>
    let (v, ok) := v.checkString
    if ok then expandStringListEmptyLoop rest (vs ++ [aws.String v])
    else expandStringListEmptyLoop rest (vs ++ [aws.String []])

/-- ExpandStringListEmpty the result of flatmap.Expand for an array of strings and returns
a `[]*string`.  Adds an empty element for every nil or uncastable. -/
def ExpandStringListEmpty (configured : List GoValue) : List StringPtr :=
  expandStringListEmptyLoop configured []

/-- The loop of `ExpandStringyValueList`. -/
def expandStringyValueListLoop : List GoValue → List Str → List Str
  | [], vs => vs
  | v :: rest, vs =>
    let (val, ok) := v.checkString
    if ok && val ≠ [] then expandStringyValueListLoop rest (vs ++ [val])
    else expandStringyValueListLoop rest vs

/-- The generic `ExpandStringyValueList[E ~string]`; a type `E` with underlying type
`string` has the values of `string`, and the conversion `E(val)` changes nothing. -/
def ExpandStringyValueList (configured : List GoValue) : List Str :=
  expandStringyValueListLoop configured []

/-- ExpandStringValueList takes the result of flatmap.Expand for an array of strings and
returns a `[]string`. -/
def ExpandStringValueList (configured : List GoValue) : List Str :=
  ExpandStringyValueList configured

/-- The loop of `ExpandStringyValueListEmpty`. -/
def expandStringyValueListEmptyLoop : List GoValue → List Str → List Str
  | [], vs => vs
  | v :: rest, vs =>
    let (val, ok) := v.checkString
    if ok then expandStringyValueListEmptyLoop rest (vs ++ [val])
    else expandStringyValueListEmptyLoop rest (vs ++ [[]])

/-- The generic `ExpandStringyValueListEmpty[E ~string]`. -/
def ExpandStringyValueListEmpty (configured : List GoValue) : List Str :=
  expandStringyValueListEmptyLoop configured []

/-- ExpandStringValueListEmpty takes the result of flatmap.Expand for an array of strings
and returns a `[]string`, with an empty element for every nil or uncastable. -/
def ExpandStringValueListEmpty (configured : List GoValue) : List Str :=
  ExpandStringyValueListEmpty configured

/-- Whether a configured value is a string other than `""`. -/
def GoValue.isNonEmptyString : GoValue → Bool
  | .string s => !s.isEmpty
  | _ => false

/-- The string a configured value holds, `""` when it holds none. -/
def GoValue.stringOrEmpty : GoValue → Str
  | .string s => s
  | _ => []


/-! ## Scalar conversions and the `strconv` functions they call -/

/-- Go `strconv.FormatBool`. -/
def FormatBool (b : Bool) : Str := if b then "true".toList else "false".toList

/-- StringToBoolValue converts a string pointer to a Go bool value.
Only the string "true" is converted to true, all other values return false. -/
def StringToBoolValue (v : StringPtr) : Bool :=
  decide (aws.StringValue v = FormatBool true)

/-- Go `len(s)` for a string: the number of bytes of its UTF-8 encoding. -/
def byteLen (s : Str) : Nat := (s.map Char.utf8Size).sum

/-- The `strconv` helper `lower(c)`: `c | ('x' - 'X')`, on the code of a character. -/
def lower (c : Nat) : Nat := c ||| 0x20

/-- The error kinds of `strconv.NumError`; `Option NumError` is a Go `error`, `none` being
`nil`. -/
inductive NumError
  | errSyntax
  | errRange
  | errBase
  | errBitSize
  deriving DecidableEq

/-- The size of a Go `int` in bits (`strconv.IntSize`) on the 64-bit platforms the provider
is built for. -/
def IntSize : Nat := 64

/-- The `strconv` function `underscoreOK`, the loop over the number proper; `saw` is the
last character class seen (`'^'`, `'0'`, `'_'` or `'!'`). -/
def underscoreOKLoop (hex : Bool) : Str → Char → Bool
  | [], saw => saw != '_'
  | c :: rest, saw =>
    if ('0'.toNat ≤ c.toNat ∧ c.toNat ≤ '9'.toNat) ∨
        (hex = true ∧ 'a'.toNat ≤ lower c.toNat ∧ lower c.toNat ≤ 'f'.toNat) then
      underscoreOKLoop hex rest '0'
    else if c = '_' then
      if saw != '0' then false else underscoreOKLoop hex rest '_'
    else if saw = '_' then false
    else underscoreOKLoop hex rest '!'

/-- The `strconv` function `underscoreOK`: whether the underscores in `s` are allowed (only
between digits or between a base prefix and a digit). -/
def underscoreOK (s : Str) : Bool :=
  let s :=
    match s with
    | c :: t => if c = '-' ∨ c = '+' then t else s
    | [] => s
  match s with
  | c₀ :: c₁ :: t =>
    if c₀ = '0' ∧ (lower c₁.toNat = 'b'.toNat ∨ lower c₁.toNat = 'o'.toNat ∨
        lower c₁.toNat = 'x'.toNat) then
      underscoreOKLoop (decide (lower c₁.toNat = 'x'.toNat)) t '0'
    else underscoreOKLoop false s '^'
  | _ => underscoreOKLoop false s '^'

/-- The digit loop of `strconv.ParseUint`; the arithmetic is that of `uint64`.  The result
is the number read and whether an underscore was seen, or the value and error of an early
return. -/
def parseUintLoop (base : Nat) (base0 : Bool) (cutoff maxVal : Nat) :
    Str → Nat → Bool → (Nat × Bool) ⊕ (Nat × NumError)
  | [], n, underscores => .inl (n, underscores)
  | ch :: rest, n, underscores =>
    let c := ch.toNat
    if c = '_'.toNat ∧ base0 = true then
      parseUintLoop base base0 cutoff maxVal rest n true
    else
      let digit : Option Nat :=
        if '0'.toNat ≤ c ∧ c ≤ '9'.toNat then some (c - '0'.toNat)
        else if 'a'.toNat ≤ lower c ∧ lower c ≤ 'z'.toNat then
          some (lower c - 'a'.toNat + 10)
        else none
      match digit with
      | none => .inr (0, .errSyntax)
      | some d =>
        if d ≥ base then .inr (0, .errSyntax)
        else if n ≥ cutoff then
          -- n*base overflows
          .inr (maxVal, .errRange)
        else
          let n := (n * base) % 2 ^ 64
          let n1 := (n + d) % 2 ^ 64
          if n1 < n ∨ n1 > maxVal then
            -- n+d overflows
            .inr (maxVal, .errRange)
          else parseUintLoop base base0 cutoff maxVal rest n1 underscores

/-- Go `strconv.ParseUint(s, base, bitSize)`: the value and the error. -/
def ParseUint (s : Str) (base bitSize : Nat) : Nat × Option NumError :=
  if s = [] then (0, some .errSyntax)
  else
    let base0 := decide (base = 0)
    let chosen : Option (Nat × Str) :=
      if 2 ≤ base ∧ base ≤ 36 then some (base, s)
      else if base = 0 then
        -- Look for octal, hex prefix.
        match s with
        | '0' :: c₁ :: rest =>
          if byteLen s ≥ 3 ∧ lower c₁.toNat = 'b'.toNat then some (2, rest)
          else if byteLen s ≥ 3 ∧ lower c₁.toNat = 'o'.toNat then some (8, rest)
          else if byteLen s ≥ 3 ∧ lower c₁.toNat = 'x'.toNat then some (16, rest)
          else some (8, c₁ :: rest)
        | '0' :: rest => some (8, rest)
        | _ => some (10, s)
      else none
    match chosen with
    | none => (0, some .errBase)
    | some (base, digits) =>
      if bitSize > 64 then (0, some .errBitSize)
      else
        let bitSize := if bitSize = 0 then IntSize else bitSize
        let cutoff := (2 ^ 64 - 1) / base + 1
        let maxVal := 2 ^ bitSize - 1
        match parseUintLoop base base0 cutoff maxVal digits 0 false with
        | .inr (v, e) => (v, some e)
        | .inl (n, underscores) =>
          if underscores && !underscoreOK s then (0, some .errSyntax) else (n, none)

/-- Go `strconv.ParseInt(s, base, bitSize)`: the value and the error.  On a range error the
value is the largest, respectively smallest, integer of the size. -/
def ParseInt (s : Str) (base bitSize : Nat) : Int × Option NumError :=
  if s = [] then (0, some .errSyntax)
  else
    -- Pick off leading sign.
    let (neg, s₁) :=
      match s with
      | c :: t => if c = '+' then (false, t) else if c = '-' then (true, t) else (false, s)
      | [] => (false, s)
    -- Convert unsigned and check range.
    let (un, err) := ParseUint s₁ base bitSize
    if err ≠ none ∧ err ≠ some .errRange then (0, err)
    else
      let bitSize := if bitSize = 0 then IntSize else bitSize
      let cutoff := 2 ^ (bitSize - 1)
      if neg = false ∧ un ≥ cutoff then ((cutoff : Int) - 1, some .errRange)
      else if neg = true ∧ un > cutoff then (-(cutoff : Int), some .errRange)
      else (if neg then -(un : Int) else (un : Int), none)

/-- The digit loop of the fast path of `strconv.Atoi`; `none` is its syntax error. -/
def atoiDigits : Str → Nat → Option Nat
  | [], n => some n
  | ch :: rest, n =>
    if '0'.toNat ≤ ch.toNat ∧ ch.toNat ≤ '9'.toNat then
      atoiDigits rest (n * 10 + (ch.toNat - '0'.toNat))
    else none

/-- Go `strconv.Atoi(s)`: the value and the error, for a 64-bit `int`. -/
def Atoi (s : Str) : Int × Option NumError :=
  if 0 < byteLen s ∧ byteLen s < 19 then
    -- Fast path for small integers that fit int type.
    let body : Option Str :=
      match s with
      | c :: t => if c = '-' ∨ c = '+' then (if byteLen t < 1 then none else some t) else some s
      | [] => some s
    match body with
    | none => (0, some .errSyntax)
    | some digits =>
      match atoiDigits digits 0 with
      | none => (0, some .errSyntax)
      | some n => (if s.head? = some '-' then -(n : Int) else (n : Int), none)
  else
    -- Slow path for invalid, big, or underscored integers.
    ParseInt s 10 0

/-- StringToIntValue converts a string pointer to a Go int value.
Invalid integer strings are converted to 0. -/
def StringToIntValue (v : StringPtr) : Int :=
  (Atoi (aws.StringValue v)).1

/-- StringValueToInt64Value converts a string to a Go int64 value.
Invalid integer strings are converted to 0. -/
def StringValueToInt64Value (v : Str) : Int :=
  (ParseInt v 0 64).1

/-- StringValueToInt64 converts a string to a Go int64 pointer.
Invalid integer strings are converted to 0. -/
def StringValueToInt64 (v : Str) : Option Int :=
  some (StringValueToInt64Value v)


/-- A `float64` value: a finite value `mantissa * 2 ^ exponent` (`1.5` is `3 * 2 ^ (-1)`),
an infinity, or NaN.  One value has many such pairs (`3 * 2 ^ (-1)` and `6 * 2 ^ (-2)`),
and the two zeros are not told apart. -/
inductive Float64
  | finite (mantissa exponent : Int)
  | inf (negative : Bool)
  | nan
  deriving DecidableEq

/-- The integer part of the finite value `mantissa * 2 ^ exponent`: the fraction is
discarded (truncation towards zero). -/
def Float64.truncate (mantissa exponent : Int) : Int :=
  if 0 ≤ exponent then mantissa * 2 ^ exponent.toNat
  else Int.tdiv mantissa (2 ^ (-exponent).toNat)

/-- The Go conversion `int(f)` of a floating-point number, for a 64-bit `int`: the fraction
is discarded.  When the result does not fit an `int` (a value out of range, an infinity,
NaN) Go leaves it to the implementation; on amd64, which is modelled here, it is the
smallest `int`. -/
def Float64.toInt : Float64 → Int
  | .finite mantissa exponent =>
    if -2 ^ 63 ≤ Float64.truncate mantissa exponent ∧
        Float64.truncate mantissa exponent < 2 ^ 63 then
      Float64.truncate mantissa exponent
    else -2 ^ 63
  | .inf _ => -2 ^ 63
  | .nan => -2 ^ 63

/-- The SDK helper `aws.Float64Value(p)`: the number pointed to, `0` for nil. -/
def aws.Float64Value (p : Option Float64) : Float64 := p.getD (Float64.finite 0 0)

/-- Modelled from the spec: `tfslices.ApplyToAll` lives in `internal/slices`, which is not
among the sources.  From its name and its uses (the spec's "generic expand/flatten helpers")
it returns the slice of the images of the elements under `f`, in order. -/
def ApplyToAll {A B : Type} (s : List A) (f : A → B) : List B := s.map f

/-- Takes list of pointers to float64s. Expand to an array of raw floats and returns a
`[]interface{}` (the body converts every value with `int(...)`). -/
def FlattenFloat64List (list : List (Option Float64)) : List GoValue :=
  ApplyToAll list (fun v => GoValue.int (aws.Float64Value v).toInt)


/-! ## Sets -/

/-- What Go's constraint `comparable` gives for the element type `T`, as far as a map with
keys of type `T` uses it. -/
class GoComparable (T : Type) where
  /-- The Go comparison `a == b`; it is false whenever a NaN is involved. -/
  eq : T → T → Bool
  /-- Whether the value can be hashed.  It is false for an interface value whose dynamic
  type is not comparable (a slice, a map, a function): using such a value as a map key
  panics. -/
  hashable : T → Bool

/-- Go's `==` is symmetric and transitive on every type; it is reflexive except on values
that involve a NaN. -/
def GoComparable.Lawful (T : Type) [GoComparable T] : Prop :=
  (∀ a b : T, GoComparable.eq a b = GoComparable.eq b a) ∧
  (∀ a b c : T, GoComparable.eq a b = true → GoComparable.eq b c = true →
    GoComparable.eq a c = true)

/-- Strings as elements: `==` is equality and every string can be hashed. -/
instance : GoComparable Str where
  eq a b := decide (a = b)
  hashable _ := true

/-- The comparison `a == b` of two `float64` values: NaN is equal to nothing, itself
included, and finite values are compared by value. -/
def Float64.goEq : Float64 → Float64 → Bool
  | .finite m₁ e₁, .finite m₂ e₂ =>
    decide (m₁ * 2 ^ (e₁ - e₂).toNat = m₂ * 2 ^ (e₂ - e₁).toNat)
  | .inf a, .inf b => decide (a = b)
  | _, _ => false

/-- The `float64` values as elements: every one can be hashed. -/
instance : GoComparable Float64 where
  eq := Float64.goEq
  hashable _ := true

/-- An interface value as an element (`Set[any]`): here it holds an `int` or a `[]int`. -/
inductive AnyElem
  | int (n : Int)
  | slice (xs : List Int)
  deriving DecidableEq

/-- Interface values as elements: a value that holds a slice cannot be hashed. -/
instance : GoComparable AnyElem where
  eq a b := decide (a = b)
  hashable
    | .int _ => true
    | .slice _ => false

/-- The Go type `Set[T comparable] []T`: a slice of values of a comparable type. -/
abbrev Set (T : Type) := List T

/-- The statement `m[v] = struct{}{}` on a `map[T]struct{}` given by the list of its keys:
it panics (`none`) when `v` cannot be hashed, changes nothing when a key `==` to `v` is
there, and adds the key `v` otherwise (so every NaN becomes a key of its own). -/
def mapSetKey {T : Type} [GoComparable T] (m : List T) (v : T) : Option (List T) :=
  if GoComparable.hashable v then
    some (if m.any (fun k => GoComparable.eq k v) then m else m ++ [v])
  else none

/-- The expression `_, ok := m[v]` on a `map[T]struct{}` given by the list of its keys: it
panics (`none`) when `v` cannot be hashed; `ok` is whether a key is `==` to `v`. -/
def mapHasKey {T : Type} [GoComparable T] (m : List T) (v : T) : Option Bool :=
  if GoComparable.hashable v then some (m.any (fun k => GoComparable.eq k v)) else none

/-- The first loop of `Difference`: `m[v] = struct{}{}` for every `v` of `ns`, starting
from the map `m`. -/
def memberMapLoop {T : Type} [GoComparable T] : List T → List T → Option (List T)
  | [], m => some m
  | v :: rest, m =>
    match mapSetKey m v with
    | none => none
    | some m' => memberMapLoop rest m'

/-- The second loop of `Difference`: append to `result` every `v` of `s` that is not a key
of `m`. -/
def differenceLoop {T : Type} [GoComparable T] (m : List T) :
    List T → List T → Option (List T)
  | [], result => some result
  | v :: rest, result =>
    match mapHasKey m v with
    | none => none
    | some true => differenceLoop m rest result
    | some false => differenceLoop m rest (result ++ [v])

/-- Difference find the elements in two sets that are not similar.  The result is `none`
when the call panics. -/
def Set.Difference {T : Type} [GoComparable T] (s ns : Set T) : Option (Set T) :=
  match memberMapLoop ns [] with
  | none => none
  | some m => differenceLoop m s []


/-! ## IoT logging options (`internal/service/iot/logging_options.go`) -/

/-- A Go `error` as far as the handler tells errors apart: an error is an
`*awstypes.InvalidRequestException`, or of another type, or of another type and wraps an
error (`Unwrap`), as the errors of the SDK do. -/
inductive GoError
  | invalidRequestException (message : Str)
  | other (typeName message : Str)
  | wrapped (typeName : Str) (inner : GoError)
  deriving DecidableEq

/-- `errors.As(err, &ire)` for `var ire *awstypes.InvalidRequestException`: whether an error
of that type is found on the chain of `err`. -/
def GoError.asInvalidRequestException : GoError → Bool
  | .invalidRequestException _ => true
  | .other _ _ => false
  | .wrapped _ inner => inner.asInvalidRequestException

/-- A non-nil `*retry.RetryError`, made by `retry.RetryableError(err)` or by
`retry.NonRetryableError(err)` from a non-nil `err`. -/
inductive RetryError
  | retryable (err : GoError)
  | nonRetryable (err : GoError)
  deriving DecidableEq

/-- The `iot.SetV2LoggingOptionsInput` the handler fills in. -/
structure SetV2LoggingOptionsInput where
  DefaultLogLevel : Str
  DisableAllLogs : Bool
  RoleArn : StringPtr
  deriving DecidableEq

/-- The `iot.GetV2LoggingOptionsOutput` the handler reads. -/
structure GetV2LoggingOptionsOutput where
  DefaultLogLevel : Str
  DisableAllLogs : Bool
  RoleArn : StringPtr
  deriving DecidableEq

/-- The remote service behind the client `conn`: the answers it will give to the successive
`SetV2LoggingOptions` calls (success once the list is used up), the inputs it has received,
and its answer to `GetV2LoggingOptions`. -/
structure IoTClient where
  setAnswers : List (Option GoError)
  received : List SetV2LoggingOptionsInput
  getAnswer : Except GoError GetV2LoggingOptionsOutput

/-- The call `_, err = conn.SetV2LoggingOptions(ctx, input)`: the error and the service
after the call. -/
def IoTClient.SetV2LoggingOptions (conn : IoTClient) (input : SetV2LoggingOptionsInput) :
    Option GoError × IoTClient :=
  match conn.setAnswers with
  | [] => (none, { conn with received := conn.received ++ [input] })
  | answer :: rest =>
    (answer, { conn with setAnswers := rest, received := conn.received ++ [input] })

/-- The `*schema.ResourceData` of the resource: its ID and its three attributes; an
attribute is `none` when `d.GetOk` reports it as not set (absent or the zero value). -/
structure ResourceData where
  Id : Str
  default_log_level : Option Str
  disable_all_logs : Option Bool
  role_arn : Option Str
  deriving DecidableEq

/-- An entry of `diag.Diagnostics`: the two errors the handlers append with
`sdkdiag.AppendErrorf`. -/
inductive Diagnostic
  /-- "setting IoT logging options: %s" -/
  | settingLoggingOptions (err : GoError)
  /-- "reading IoT logging options: %s" -/
  | readingLoggingOptions (err : GoError)
  deriving DecidableEq

/-- A function handed to a retrier: it works on the service and returns a `*retry.RetryError`
(`none` is nil). -/
abbrev RetryFunc := IoTClient → Option RetryError × IoTClient

/-- A retrier such as `tfresource.Retry(ctx, timeout, f)`: it runs `f` on the service some
number of times and returns an `error`. -/
abbrev Retrier := RetryFunc → IoTClient → Option GoError × IoTClient

/-- Modelled from the spec: `tfresource.Retry` lives in `internal/tfresource`, which is not
among the sources.  The spec describes it as a "bounded retry against transient-error
classifications": `f` is run, and run again as long as it reports a retryable error and the
timeout, here a number `retries` of further attempts, has not run out.  The result is nil
when `f` returns nil, and otherwise the error of the last attempt. -/
def Retry : (retries : Nat) → Retrier
  | 0, f, conn =>
    match f conn with
    | (none, conn') => (none, conn')
    | (some (.retryable err), conn') => (some err, conn')
    | (some (.nonRetryable err), conn') => (some err, conn')
  | retries + 1, f, conn =>
    match f conn with
    | (none, conn') => (none, conn')
    | (some (.retryable _), conn') => Retry retries f conn'
    | (some (.nonRetryable err), conn') => (some err, conn')

/-- The function literal that `resourceLoggingOptionsPut` hands to `tfresource.Retry`. -/
def resourceLoggingOptionsPutRetryFunc (input : SetV2LoggingOptionsInput) : RetryFunc :=
  fun conn =>
    let (err, conn) := conn.SetV2LoggingOptions input
    match err with
    | some err =>
      if err.asInvalidRequestException then (some (.retryable err), conn)
      else (some (.nonRetryable err), conn)
    | none => (none, conn)

/-- The input `resourceLoggingOptionsPut` builds from the attributes that are set. -/
def resourceLoggingOptionsPutInput (d : ResourceData) : SetV2LoggingOptionsInput :=
  { DefaultLogLevel := d.default_log_level.getD [],
    DisableAllLogs := d.disable_all_logs.getD false,
    RoleArn :=
      match d.role_arn with
      | some v => aws.String v
      | none => none }

/-- The handler `resourceLoggingOptionsRead`: the diagnostics, the resource data and the
service after the call. -/
def resourceLoggingOptionsRead (d : ResourceData) (conn : IoTClient) :
    List Diagnostic × ResourceData × IoTClient :=
  match conn.getAnswer with
  | .error err => ([.readingLoggingOptions err], d, conn)
  | .ok output =>
    ([], { d with
            default_log_level :=
              if output.DefaultLogLevel = [] then none else some output.DefaultLogLevel,
            disable_all_logs := if output.DisableAllLogs then some true else none,
            role_arn :=
              match output.RoleArn with
              | some arn => if arn = [] then none else some arn
              | none => none },
      conn)

/-- The handler `resourceLoggingOptionsPut`, with the retrier it calls as a parameter; `region`
is `meta.(*conns.AWSClient).Region`.  The result is the diagnostics, the resource data and
the service after the call. -/
def resourceLoggingOptionsPut (retry : Retrier) (region : Str) (d : ResourceData)
    (conn : IoTClient) : List Diagnostic × ResourceData × IoTClient :=
  let input := resourceLoggingOptionsPutInput d
  match retry (resourceLoggingOptionsPutRetryFunc input) conn with
  | (some err, conn') => ([.settingLoggingOptions err], d, conn')
  | (none, conn') => resourceLoggingOptionsRead { d with Id := region } conn'

/-- The chain of an error: the error itself and the errors it wraps, outermost first. -/
def GoError.chain : GoError → List GoError
  | .wrapped typeName inner => .wrapped typeName inner :: inner.chain
  | err => [err]

/-- The error is an `InvalidRequestException`: one is found on its chain. -/
def GoError.IsInvalidRequestException (err : GoError) : Prop :=
  ∃ e ∈ err.chain, ∃ message, e = GoError.invalidRequestException message


/-- Example resource data: no ID yet, a log level and a role. -/
def exampleResourceData : ResourceData :=
  { Id := [],
    default_log_level := some "INFO".toList,
    disable_all_logs := none,
    role_arn := some "arn:aws:iam::1:role/r".toList }

/-- Example answer of the service to `GetV2LoggingOptions`. -/
def exampleGetOutput : GetV2LoggingOptionsOutput :=
  { DefaultLogLevel := "INFO".toList,
    DisableAllLogs := false,
    RoleArn := some "arn:aws:iam::1:role/r".toList }

/-- Example service: the first `SetV2LoggingOptions` call fails with an SDK error that wraps
an `InvalidRequestException`, the second succeeds. -/
def exampleClientInvalidRequestThenOk : IoTClient :=
  { setAnswers :=
      [some (GoError.wrapped "OperationError".toList
        (GoError.invalidRequestException "role not usable yet".toList)), none],
    received := [],
    getAnswer := Except.ok exampleGetOutput }

/-- Example service: the first `SetV2LoggingOptions` call fails with an error of another
type. -/
def exampleClientThrottled : IoTClient :=
  { setAnswers := [some (GoError.other "ThrottlingException".toList "slow down".toList)],
    received := [],
    getAnswer := Except.ok exampleGetOutput }

/-! ## Splitting at a one-character separator -/

theorem cutAt_ne_nil (c : Char) (s : Str) : cutAt c s ≠ [] := by
  induction s with
  | nil => simp [cutAt]
  | cons x t ih =>
    unfold cutAt
    split
    · simp
    · split <;> simp

theorem cutAt_of_not_mem (c : Char) (s : Str) (h : c ∉ s) : cutAt c s = [s] := by
  induction s with
  | nil => rfl
  | cons x t ih =>
    have hx : ¬ x = c := fun e => h (by simp [e])
    have ht : c ∉ t := fun e => h (by simp [e])
    simp [cutAt, hx, ih ht]

theorem cutAt_append_sep (c : Char) (p rest : Str) (h : c ∉ p) :
    cutAt c (p ++ c :: rest) = p :: cutAt c rest := by
  induction p with
  | nil => simp [cutAt]
  | cons x t ih =>
    have hx : ¬ x = c := fun e => h (by simp [e])
    have ht : c ∉ t := fun e => h (by simp [e])
    simp [cutAt, hx, ih ht]

theorem cutAt_length (c : Char) (s : Str) : (cutAt c s).length = s.count c + 1 := by
  induction s with
  | nil => rfl
  | cons x t ih =>
    by_cases hx : x = c
    · subst hx
      simp [cutAt, ih]
    · have hne : (x == c) = false := by simpa using hx
      have hcount : (x :: t).count c = t.count c := by
        simp [List.count_cons, hne]
      rw [hcount]
      cases heq : cutAt c t with
      | nil => exact absurd heq (cutAt_ne_nil c t)
      | cons p ps =>
        rw [heq] at ih
        simp only [cutAt, if_neg hx, heq]
        simpa using ih

theorem not_mem_of_mem_cutAt (c : Char) (s : Str) : ∀ p ∈ cutAt c s, c ∉ p := by
  induction s with
  | nil => simp [cutAt]
  | cons x t ih =>
    intro p hp
    by_cases hx : x = c
    · subst hx
      simp only [cutAt, if_true, List.mem_cons] at hp
      rcases hp with rfl | hp
      · simp
      · exact ih p hp
    · unfold cutAt at hp
      rw [if_neg hx] at hp
      split at hp
      · simp only [List.mem_singleton] at hp
        subst hp
        simpa using fun e => hx e.symm
      · rename_i q qs heq
        simp only [List.mem_cons] at hp
        rcases hp with rfl | hp
        · have hq : c ∉ q := ih q (by simp [heq])
          simp only [List.mem_cons, not_or]
          exact ⟨fun e => hx e.symm, hq⟩
        · exact ih p (by simp [heq, hp])

theorem Index_sep_of_not_mem (c : Char) (s : Str) (h : c ∉ s) : Index s [c] = none := by
  induction s with
  | nil => simp [Index]
  | cons x t ih =>
    have hx : ¬ c = x := fun e => h (by simp [e])
    have ht : c ∉ t := fun e => h (by simp [e])
    simp [Index, List.isPrefixOf, hx, ih ht]

theorem Index_sep_of_mem (c : Char) (s : Str) (h : c ∈ s) :
    ∃ m, Index s [c] = some m ∧ m < s.length ∧ c ∉ s.take m ∧
      s = s.take m ++ c :: s.drop (m + 1) := by
  induction s with
  | nil => simp at h
  | cons x t ih =>
    by_cases hx : c = x
    · subst hx
      exact ⟨0, by simp [Index, List.isPrefixOf], by simp, by simp, by simp⟩
    · have ht : c ∈ t := by
        rcases List.mem_cons.mp h with e | e
        · exact absurd e hx
        · exact e
      obtain ⟨m, hm, hlt, hnot, hsplit⟩ := ih ht
      refine ⟨m + 1, by simp [Index, List.isPrefixOf, hx, hm], by simpa using hlt, ?_, ?_⟩
      · simp only [List.take_succ_cons, List.mem_cons, not_or]
        exact ⟨hx, hnot⟩
      · simp only [List.take_succ_cons, List.drop_succ_cons, List.cons_append]
        exact congrArg (x :: ·) hsplit

theorem countLoop_sep (c : Char) : ∀ (fuel : Nat) (s : Str), s.length ≤ fuel →
    countLoop [c] fuel s = s.count c := by
  intro fuel
  induction fuel with
  | zero =>
    intro s hs
    have : s = [] := List.length_eq_zero.mp (Nat.le_zero.mp hs)
    subst this
    rfl
  | succ n ih =>
    intro s hs
    by_cases hc : c ∈ s
    · obtain ⟨m, hm, hlt, hnot, hsplit⟩ := Index_sep_of_mem c s hc
      have hlen : (s.drop (m + 1)).length ≤ n := by
        simp only [List.length_drop]
        omega
      have hcount : s.count c = (s.drop (m + 1)).count c + 1 := by
        conv_lhs => rw [hsplit]
        simp [List.count_append, List.count_eq_zero_of_not_mem hnot]
      simp only [countLoop, hm, List.length_singleton]
      rw [ih _ hlen, hcount]
    · simp [countLoop, Index_sep_of_not_mem c s hc, List.count_eq_zero_of_not_mem hc]

theorem Count_sep (c : Char) (s : Str) : Count s [c] = s.count c := by
  simp [Count, countLoop_sep c s.length s (Nat.le_refl _)]

theorem genSplitLoop_sep (c : Char) : ∀ (n : Nat) (s : Str), s.count c ≤ n →
    genSplitLoop [c] n s = cutAt c s := by
  intro n
  induction n with
  | zero =>
    intro s hs
    have hc : c ∉ s := List.count_eq_zero.mp (Nat.le_zero.mp hs)
    simp [genSplitLoop, cutAt_of_not_mem c s hc]
  | succ n ih =>
    intro s hs
    by_cases hc : c ∈ s
    · obtain ⟨m, hm, hlt, hnot, hsplit⟩ := Index_sep_of_mem c s hc
      have hcount : s.count c = (s.drop (m + 1)).count c + 1 := by
        conv_lhs => rw [hsplit]
        simp [List.count_append, List.count_eq_zero_of_not_mem hnot]
      have hcut : cutAt c s = s.take m :: cutAt c (s.drop (m + 1)) := by
        conv_lhs => rw [hsplit]
        exact cutAt_append_sep c _ _ hnot
      simp only [genSplitLoop, hm, List.length_singleton]
      rw [ih _ (by omega), hcut]
    · simp [genSplitLoop, Index_sep_of_not_mem c s hc, cutAt_of_not_mem c s hc]

/-- Go `strings.Split` at a one-character separator computes the reference splitting. -/
theorem Split_sep (c : Char) (s : Str) : Split s [c] = cutAt c s := by
  simp [Split, Count_sep, genSplitLoop_sep c (s.count c) s (Nat.le_refl _)]

/-! ## Joining and scanning -/

theorem Join_cons_cons (a b : Str) (rest : List Str) (sep : Str) :
    Join (a :: b :: rest) sep = a ++ sep ++ Join (b :: rest) sep := rfl

theorem Join_eq_intercalate (parts : List Str) (sep : Str) :
    Join parts sep = sep.intercalate parts := by
  induction parts with
  | nil => rfl
  | cons a rest ih =>
    cases rest with
    | nil => simp [Join, List.intercalate]
    | cons b rest =>
      rw [Join_cons_cons, ih]
      simp [List.intercalate, List.intersperse]

theorem cutAt_Join (c : Char) (parts : List Str) (hne : parts ≠ [])
    (h : ∀ p ∈ parts, c ∉ p) : cutAt c (Join parts [c]) = parts := by
  induction parts with
  | nil => exact absurd rfl hne
  | cons a rest ih =>
    have ha : c ∉ a := h a (by simp)
    cases rest with
    | nil => simpa [Join] using cutAt_of_not_mem c a ha
    | cons b rest =>
      have hrest : ∀ p ∈ b :: rest, c ∉ p := fun p hp => h p (List.mem_cons_of_mem _ hp)
      rw [Join_cons_cons, List.append_assoc, List.singleton_append,
        cutAt_append_sep c a _ ha, ih (by simp) hrest]

theorem count_Join (c : Char) (parts : List Str) :
    (Join parts [c]).count c = (parts.length - 1) + (parts.map (List.count c)).sum := by
  induction parts with
  | nil => rfl
  | cons a rest ih =>
    cases rest with
    | nil => simp [Join]
    | cons b rest =>
      rw [Join_cons_cons, List.count_append, List.count_append, ih]
      simp
      omega

theorem blankIndices_cons (p : Str) (rest : List Str) :
    blankIndices (p :: rest) =
      (if p = [] then [0] else []) ++ (blankIndices rest).map (· + 1) := by
  unfold blankIndices
  rw [List.length_cons, List.range_succ_eq_map, List.filter_cons, List.filter_map]
  by_cases hp : p = [] <;> simp [hp, Function.comp_def]

theorem scanEmptyParts_eq : ∀ (parts : List Str) (index : Nat) (emptyPart : Bool)
    (emptyParts : List Nat),
    scanEmptyParts parts index (emptyPart, emptyParts) =
      (emptyPart || parts.any (fun p => decide (p = [])),
        emptyParts ++ (blankIndices parts).map (· + index)) := by
  intro parts
  induction parts with
  | nil => intro index emptyPart emptyParts; simp [scanEmptyParts, blankIndices]
  | cons p rest ih =>
    intro index emptyPart emptyParts
    by_cases hp : p = []
    · simp [scanEmptyParts, hp, ih, blankIndices_cons, Function.comp_def, Nat.add_comm,
        Nat.add_left_comm]
    · simp [scanEmptyParts, hp, ih, blankIndices_cons, Function.comp_def, Nat.add_comm,
        Nat.add_left_comm]

theorem scanEmptyParts_zero (parts : List Str) :
    scanEmptyParts parts 0 (false, []) =
      (parts.any (fun p => decide (p = [])), blankIndices parts) := by
  simp [scanEmptyParts_eq]

/-! ## What the two codec functions compute -/

theorem any_empty_iff (parts : List Str) :
    parts.any (fun p => decide (p = [])) = true ↔ [] ∈ parts := by
  simp [List.any_eq_true]

theorem FlattenResourceId_eq (idParts : List Str) (partCount : Int) (allowEmptyPart : Bool) :
    FlattenResourceId idParts partCount allowEmptyPart =
      if (idParts.length : Int) ≤ 1 then .error (.moreThanOnePart idParts)
      else if (idParts.length : Int) ≠ partCount then .error (.partCount idParts partCount)
      else if allowEmptyPart = false ∧ [] ∈ idParts then
        .error (.blankParts idParts (blankIndices idParts))
      else .ok (Join idParts ResourceIdSeparator) := by
  unfold FlattenResourceId
  rw [scanEmptyParts_zero]
  by_cases h1 : (idParts.length : Int) ≤ 1
  · simp [h1]
  · by_cases h2 : (idParts.length : Int) ≠ partCount
    · simp [h1, h2]
    · by_cases h3 : [] ∈ idParts
      · cases allowEmptyPart <;> simp [h1, h2, h3, (any_empty_iff idParts).mpr h3]
      · have h4 : ¬ (idParts.any (fun p => decide (p = [])) = true) :=
          fun h => h3 ((any_empty_iff idParts).mp h)
        cases allowEmptyPart <;> simp [h1, h2, h3, h4]

theorem ExpandResourceId_eq (id : Str) (partCount : Int) (allowEmptyPart : Bool) :
    ExpandResourceId id partCount allowEmptyPart =
      if ((Split id ResourceIdSeparator).length : Int) ≤ 1 then
        .error (.moreThanOnePart (Split id ResourceIdSeparator))
      else if ((Split id ResourceIdSeparator).length : Int) ≠ partCount then
        .error (.partCount id partCount ResourceIdSeparator)
      else if allowEmptyPart = false ∧ [] ∈ Split id ResourceIdSeparator then
        .error (.blankParts id (blankIndices (Split id ResourceIdSeparator)))
      else .ok (Split id ResourceIdSeparator) := by
  unfold ExpandResourceId
  simp only []
  generalize Split id ResourceIdSeparator = idParts
  rw [scanEmptyParts_zero]
  by_cases h1 : (idParts.length : Int) ≤ 1
  · simp [h1]
  · by_cases h2 : (idParts.length : Int) ≠ partCount
    · simp [h1, h2]
    · by_cases h3 : [] ∈ idParts
      · cases allowEmptyPart <;> simp [h1, h2, h3, (any_empty_iff idParts).mpr h3]
      · have h4 : ¬ (idParts.any (fun p => decide (p = [])) = true) :=
          fun h => h3 ((any_empty_iff idParts).mp h)
        cases allowEmptyPart <;> simp [h1, h2, h3, h4]

theorem blankIndices_pairwise (parts : List Str) :
    (blankIndices parts).Pairwise (· < ·) :=
  List.Pairwise.filter _ (List.pairwise_lt_range parts.length)

theorem mem_blankIndices (parts : List Str) (i : Nat) :
    i ∈ blankIndices parts ↔ parts[i]? = some [] := by
  unfold blankIndices
  simp only [List.mem_filter, List.mem_range, decide_eq_true_eq]
  constructor
  · exact fun h => h.2
  · intro h
    refine ⟨?_, h⟩
    by_contra hlt
    rw [List.getElem?_eq_none (Nat.le_of_not_lt hlt)] at h
    exact absurd h (by simp)

/-! ## The composite-identifier codec: claims -/

/-- C1, as stated, fails: the parts `"a,b"` and `"c"` are two non-empty parts, flattening them
with `partCount = 2` succeeds with `"a,b,c"`, and expanding `"a,b,c"` with `partCount = 2` is
an error, because the identifier now splits into three parts. -/
theorem roundtrip_fails_for_part_with_separator :
    ((["a,b".toList, "c".toList] : List Str).length : Int) = 2 ∧
    [] ∉ (["a,b".toList, "c".toList] : List Str) ∧
    FlattenResourceId ["a,b".toList, "c".toList] 2 false = .ok "a,b,c".toList ∧
    ExpandResourceId "a,b,c".toList 2 false =
      .error (.partCount "a,b,c".toList 2 ResourceIdSeparator) := by
  refine ⟨by decide, by decide, by decide, by decide⟩

/-- C1, amended: for every list `parts` with `len(parts) == N > 1`, no empty entry and no
entry that contains the separator `,`, `FlattenResourceId(parts, N, false)` succeeds with
some `id` and `ExpandResourceId(id, N, false)` succeeds and returns exactly `parts`. -/
theorem expand_flatten_roundtrip (parts : List Str) (N : Int)
    (hlen : (parts.length : Int) = N) (hN : 1 < N) (hne : [] ∉ parts)
    (hsep : ∀ p ∈ parts, ',' ∉ p) :
    ∃ id, FlattenResourceId parts N false = .ok id ∧
      ExpandResourceId id N false = .ok parts := by
  have h1 : ¬ (parts.length : Int) ≤ 1 := by omega
  have hnil : parts ≠ [] := by
    intro h
    rw [h] at h1
    simp at h1
  have hsplit : Split (Join parts ResourceIdSeparator) ResourceIdSeparator = parts := by
    simp only [ResourceIdSeparator]
    rw [Split_sep, cutAt_Join ',' parts hnil hsep]
  refine ⟨Join parts ResourceIdSeparator, ?_, ?_⟩
  · rw [FlattenResourceId_eq]
    simp [hlen, hN, hne]
  · rw [ExpandResourceId_eq, hsplit]
    simp [hlen, hN, hne]

/-- Witness of `expand_flatten_roundtrip`: the parts `"a"` and `"b"`. -/
theorem expand_flatten_roundtrip_witness :
    ((["a".toList, "b".toList] : List Str).length : Int) = 2 ∧ (1 : Int) < 2 ∧
    [] ∉ (["a".toList, "b".toList] : List Str) ∧
    ∃ id, FlattenResourceId ["a".toList, "b".toList] 2 false = .ok id ∧
      ExpandResourceId id 2 false = .ok ["a".toList, "b".toList] :=
  ⟨by decide, by decide, by decide,
    expand_flatten_roundtrip ["a".toList, "b".toList] 2 (by decide) (by decide) (by decide)
      (by decide)⟩

/-- C2: `FlattenResourceId(parts, partCount, allowEmptyPart)` returns an error exactly when
`len(parts) <= 1`, or `len(parts) != partCount`, or `allowEmptyPart` is false and some part is
the empty string; in every other case it succeeds. -/
theorem FlattenResourceId_error_iff (parts : List Str) (partCount : Int)
    (allowEmptyPart : Bool) :
    ((∃ e, FlattenResourceId parts partCount allowEmptyPart = .error e) ↔
      ((parts.length : Int) ≤ 1 ∨ (parts.length : Int) ≠ partCount ∨
        (allowEmptyPart = false ∧ [] ∈ parts))) ∧
    ((∃ id, FlattenResourceId parts partCount allowEmptyPart = .ok id) ↔
      ¬ ((parts.length : Int) ≤ 1 ∨ (parts.length : Int) ≠ partCount ∨
        (allowEmptyPart = false ∧ [] ∈ parts))) := by
  rw [FlattenResourceId_eq]
  by_cases h1 : (parts.length : Int) ≤ 1
  · simp [h1]
  · by_cases h2 : (parts.length : Int) ≠ partCount
    · simp [h1, h2]
    · by_cases h3 : allowEmptyPart = false ∧ [] ∈ parts
      · simp [h1, h2, h3]
      · rw [if_neg h1, if_neg h2, if_neg h3]
        simp [h1, h2, h3]

/-- C3: whenever `FlattenResourceId(parts, partCount, allowEmptyPart)` succeeds, the returned
string is the parts in their given order joined by the fixed single-comma separator: it
equals `strings.Join(parts, ",")`, that is the concatenation of the parts with one `,`
between neighbours, and contains at least `len(parts) - 1` commas. -/
theorem FlattenResourceId_ok_eq_join (parts : List Str) (partCount : Int)
    (allowEmptyPart : Bool) (id : Str)
    (h : FlattenResourceId parts partCount allowEmptyPart = .ok id) :
    ResourceIdSeparator = [','] ∧ id = Join parts [','] ∧
    id = (parts.intersperse [',']).flatten ∧
    id.count ',' = (parts.length - 1) + (parts.map (List.count ',')).sum ∧
    parts.length - 1 ≤ id.count ',' := by
  rw [FlattenResourceId_eq] at h
  have hid : id = Join parts [','] := by
    split at h
    · cases h
    · split at h
      · cases h
      · split at h
        · cases h
        · simp only [ResourceIdSeparator, Except.ok.injEq] at h
          exact h.symm
  subst hid
  refine ⟨rfl, rfl, ?_, count_Join ',' parts, ?_⟩
  · rw [Join_eq_intercalate]
    rfl
  · rw [count_Join]
    omega

/-- Witness of `FlattenResourceId_ok_eq_join`: `"a"`, `""`, `"c"` with empty parts allowed
gives `"a,,c"`. -/
theorem FlattenResourceId_ok_eq_join_witness :
    FlattenResourceId ["a".toList, [], "c".toList] 3 true = .ok "a,,c".toList ∧
    "a,,c".toList = Join ["a".toList, [], "c".toList] [','] ∧
    3 - 1 ≤ "a,,c".toList.count ',' :=
  ⟨by decide,
    (FlattenResourceId_ok_eq_join ["a".toList, [], "c".toList] 3 true "a,,c".toList
      (by decide)).2.1,
    by decide⟩

/-- C4: `ExpandResourceId` applies the same validation as `FlattenResourceId`:
`ExpandResourceId(id, partCount, allowEmptyPart)` returns an error exactly when
`FlattenResourceId(split(id, ","), partCount, allowEmptyPart)` returns an error, that is when
the comma-split of `id` has at most one part, or a number of parts different from
`partCount`, or (`allowEmptyPart` false) an empty part. -/
theorem ExpandResourceId_error_iff (id : Str) (partCount : Int) (allowEmptyPart : Bool) :
    ((∃ e, ExpandResourceId id partCount allowEmptyPart = .error e) ↔
      (∃ e, FlattenResourceId (Split id [',']) partCount allowEmptyPart = .error e)) ∧
    ((∃ e, ExpandResourceId id partCount allowEmptyPart = .error e) ↔
      (((Split id [',']).length : Int) ≤ 1 ∨ ((Split id [',']).length : Int) ≠ partCount ∨
        (allowEmptyPart = false ∧ [] ∈ Split id [',']))) := by
  rw [ExpandResourceId_eq, FlattenResourceId_eq]
  simp only [ResourceIdSeparator]
  generalize Split id [','] = parts
  by_cases h1 : (parts.length : Int) ≤ 1
  · simp [h1]
  · by_cases h2 : (parts.length : Int) ≠ partCount
    · simp [h1, h2]
    · by_cases h3 : allowEmptyPart = false ∧ [] ∈ parts
      · simp [h1, h2, h3]
      · rw [if_neg h1, if_neg h2, if_neg h3, if_neg h1, if_neg h2, if_neg h3]
        simp [h1, h2, h3]

/-- C5: whenever `ExpandResourceId(id, partCount, allowEmptyPart)` succeeds, the returned
list is the split of `id` on `","`, it has exactly `partCount` elements with
`partCount > 1`, no element contains a comma, and when `allowEmptyPart` is false no element
is empty. -/
theorem ExpandResourceId_ok_spec (id : Str) (partCount : Int) (allowEmptyPart : Bool)
    (parts : List Str) (h : ExpandResourceId id partCount allowEmptyPart = .ok parts) :
    parts = Split id [','] ∧ (parts.length : Int) = partCount ∧ 1 < partCount ∧
    (∀ p ∈ parts, ',' ∉ p) ∧ (allowEmptyPart = false → ∀ p ∈ parts, p ≠ []) := by
  rw [ExpandResourceId_eq] at h
  simp only [ResourceIdSeparator] at h
  split at h
  · cases h
  · rename_i h1
    split at h
    · cases h
    · rename_i h2
      split at h
      · cases h
      · rename_i h3
        simp only [Except.ok.injEq] at h
        subst h
        have hlen : ((Split id [',']).length : Int) = partCount := not_not.mp h2
        refine ⟨rfl, hlen, by omega, ?_, ?_⟩
        · rw [Split_sep]
          exact not_mem_of_mem_cutAt ',' id
        · intro hallow p hp hnil
          exact h3 ⟨hallow, hnil ▸ hp⟩

/-- Witness of `ExpandResourceId_ok_spec`: `"a,b"` expands to `"a"` and `"b"`. -/
theorem ExpandResourceId_ok_spec_witness :
    ExpandResourceId "a,b".toList 2 false = .ok ["a".toList, "b".toList] ∧
    ["a".toList, "b".toList] = Split "a,b".toList [','] ∧
    ((["a".toList, "b".toList] : List Str).length : Int) = 2 :=
  ⟨by decide,
    (ExpandResourceId_ok_spec "a,b".toList 2 false ["a".toList, "b".toList] (by decide)).1,
    (ExpandResourceId_ok_spec "a,b".toList 2 false ["a".toList, "b".toList] (by decide)).2.1⟩

/-- C6: when `FlattenResourceId` or `ExpandResourceId` fails because empty parts are
disallowed but present (the count checks pass, `allowEmptyPart` is false and some part is
`""`), the error carries the offending input (the parts, respectively the id) and the list
of blank indices; that list is strictly ascending and holds exactly the 0-based indices `i`
with `parts[i] == ""`. -/
theorem blank_parts_error_spec (parts : List Str) (id : Str) (partCount : Int) :
    ((1 < (parts.length : Int) → (parts.length : Int) = partCount → [] ∈ parts →
      ∃ emptyParts, FlattenResourceId parts partCount false =
          .error (.blankParts parts emptyParts) ∧
        emptyParts = blankIndices parts ∧
        emptyParts.Pairwise (· < ·) ∧ ∀ i, i ∈ emptyParts ↔ parts[i]? = some [])) ∧
    ((1 < ((Split id [',']).length : Int) → ((Split id [',']).length : Int) = partCount →
      [] ∈ Split id [','] →
      ∃ emptyParts, ExpandResourceId id partCount false =
          .error (.blankParts id emptyParts) ∧
        emptyParts = blankIndices (Split id [',']) ∧
        emptyParts.Pairwise (· < ·) ∧ ∀ i, i ∈ emptyParts ↔ (Split id [','])[i]? = some [])) := by
  constructor
  · intro h1 h2 h3
    refine ⟨blankIndices parts, ?_, rfl, blankIndices_pairwise parts, mem_blankIndices parts⟩
    have h4 : 1 < partCount := h2 ▸ h1
    rw [FlattenResourceId_eq]
    simp [h2, h3, h4]
  · intro h1 h2 h3
    refine ⟨blankIndices (Split id [',']), ?_, rfl, blankIndices_pairwise _,
      mem_blankIndices _⟩
    have h4 : 1 < partCount := h2 ▸ h1
    rw [ExpandResourceId_eq]
    simp only [ResourceIdSeparator]
    simp [h2, h3, h4]

/-- Witness of `blank_parts_error_spec`: for the parts `"a"`, `""`, `"c"` and for the id
`"a,,c"` the reported list of blank indices is `[1]`. -/
theorem blank_parts_error_spec_witness :
    (∃ emptyParts, FlattenResourceId ["a".toList, [], "c".toList] 3 false =
        .error (.blankParts ["a".toList, [], "c".toList] emptyParts) ∧
      emptyParts = [1]) ∧
    (∃ emptyParts, ExpandResourceId "a,,c".toList 3 false =
        .error (.blankParts "a,,c".toList emptyParts) ∧
      emptyParts = [1]) := by
  have h := blank_parts_error_spec ["a".toList, [], "c".toList] "a,,c".toList 3
  obtain ⟨e1, he1, hl1, _⟩ := h.1 (by decide) (by decide) (by decide)
  obtain ⟨e2, he2, hl2, _⟩ := h.2 (by decide) (by decide) (by decide)
  exact ⟨⟨e1, he1, hl1.trans (by decide)⟩, ⟨e2, he2, hl2.trans (by decide)⟩⟩

/-- C7: empty-part detection treats only the exact empty string as blank.  For every `parts`
with `len(parts) == N > 1` in which every part is non-empty (parts made only of whitespace
included), `FlattenResourceId(parts, N, false)` succeeds; and `ExpandResourceId` with
`allowEmptyPart` false accepts every id whose comma-separated parts, `N > 1` of them, are
non-empty and consist of whitespace only. -/
theorem only_empty_string_is_blank (parts : List Str) (id : Str) (N : Int) :
    ((parts.length : Int) = N → 1 < N → [] ∉ parts →
      FlattenResourceId parts N false = .ok (Join parts [','])) ∧
    (((Split id [',']).length : Int) = N → 1 < N →
      (∀ p ∈ Split id [','], p ≠ [] ∧ ∀ c ∈ p, c.isWhitespace = true) →
      ExpandResourceId id N false = .ok (Split id [','])) := by
  constructor
  · intro h1 h2 h3
    rw [FlattenResourceId_eq]
    simp [h1, h2, h3, ResourceIdSeparator]
  · intro h1 h2 h3
    have h4 : [] ∉ Split id [','] := fun hmem => (h3 [] hmem).1 rfl
    rw [ExpandResourceId_eq]
    simp only [ResourceIdSeparator]
    simp [h1, h2, h4]

/-- Witness of `only_empty_string_is_blank`: the parts `" "` and a tab are accepted by
`FlattenResourceId`, and the id `" ,\t"` is accepted by `ExpandResourceId`. -/
theorem only_empty_string_is_blank_witness :
    FlattenResourceId [" ".toList, "\t".toList] 2 false = .ok " ,\t".toList ∧
    ExpandResourceId " ,\t".toList 2 false = .ok [" ".toList, "\t".toList] :=
  ⟨(only_empty_string_is_blank [" ".toList, "\t".toList] " ,\t".toList 2).1
      (by decide) (by decide) (by decide),
    (only_empty_string_is_blank [" ".toList, "\t".toList] " ,\t".toList 2).2
      (by decide) (by decide) (by decide)⟩

/-! ## Maps: lookups after the helper loops -/

theorem lookup_mapValues {A B : Type} (f : A → B) (m : GoMap A) (k : Str) :
    (m.mapValues f).lookup k = (m.lookup k).map f := by
  obtain ⟨l, hl⟩ := m
  simp only [GoMap.mapValues, AList.lookup]
  clear hl
  induction l with
  | nil => rfl
  | cons e rest ih =>
    obtain ⟨k1, v⟩ := e
    by_cases hk : k = k1
    · subst hk
      simp [List.dlookup_cons_eq]
    · have h1 := List.dlookup_cons_ne rest (⟨k1, v⟩ : Sigma fun _ : Str => A) hk
      have h2 := List.dlookup_cons_ne (rest.map (fun e => (⟨e.1, f e.2⟩ : Sigma fun _ : Str => B)))
        (⟨k1, f v⟩ : Sigma fun _ : Str => B) hk
      rw [h1, List.map_cons, h2, ih]

theorem lookup_toAny (m : GoMap Str) (k : Str) :
    (m.toAny.lookup k).bind GoValue.assertString = m.lookup k := by
  rw [GoMap.toAny, lookup_mapValues]
  cases m.lookup k <;> rfl

theorem mem_toAny_entries (m : GoMap Str) (e : Sigma fun _ : Str => GoValue)
    (he : e ∈ m.toAny.entries) : ∃ s, e.2 = GoValue.string s := by
  simp only [GoMap.toAny, GoMap.mapValues, List.mem_map] at he
  obtain ⟨e0, _, rfl⟩ := he
  exact ⟨e0.2, rfl⟩

theorem applyLoop_all {A B : Type} (f : A → Option B) :
    ∀ (l : List (Sigma fun _ : Str => A)) (out out' : GoMap B),
      applyLoop f l out = some out' → ∀ e ∈ l, ∃ b, f e.2 = some b := by
  intro l
  induction l with
  | nil => intro _ _ _ e he; simp at he
  | cons e0 rest ih =>
    intro out out' h e he
    obtain ⟨k0, v0⟩ := e0
    simp only [applyLoop] at h
    cases hf : f v0 with
    | none => simp [hf] at h
    | some b =>
      simp only [hf] at h
      rcases List.mem_cons.mp he with rfl | hmem
      · exact ⟨b, hf⟩
      · exact ih _ _ h e hmem

theorem applyLoop_isSome {A B : Type} (f : A → Option B) :
    ∀ (l : List (Sigma fun _ : Str => A)) (out : GoMap B),
      (∀ e ∈ l, ∃ b, f e.2 = some b) → ∃ out', applyLoop f l out = some out' := by
  intro l
  induction l with
  | nil => intro out _; exact ⟨out, rfl⟩
  | cons e0 rest ih =>
    intro out h
    obtain ⟨k0, v0⟩ := e0
    obtain ⟨b, hb⟩ := h ⟨k0, v0⟩ (by simp)
    obtain ⟨out', hout⟩ := ih (out.insert k0 b) (fun e he => h e (List.mem_cons_of_mem _ he))
    exact ⟨out', by simp [applyLoop, hb, hout]⟩

theorem applyLoop_lookup {A B : Type} (f : A → Option B) :
    ∀ (l : List (Sigma fun _ : Str => A)) (out out' : GoMap B), l.NodupKeys →
      applyLoop f l out = some out' →
      ∀ k, out'.lookup k = (l.dlookup k).elim (out.lookup k) f := by
  intro l
  induction l with
  | nil =>
    intro out out' _ h k
    simp only [applyLoop, Option.some.injEq] at h
    simp [h]
  | cons e0 rest ih =>
    intro out out' hnd h k
    obtain ⟨k0, v0⟩ := e0
    rw [List.nodupKeys_cons] at hnd
    simp only [applyLoop] at h
    cases hf : f v0 with
    | none => simp [hf] at h
    | some b =>
      simp only [hf] at h
      rw [ih _ _ hnd.2 h k]
      by_cases hk : k = k0
      · subst hk
        have hnone : rest.dlookup k = none := List.dlookup_eq_none.mpr hnd.1
        simp [hnone, List.dlookup_cons_eq, hf]
      · have h1 := List.dlookup_cons_ne rest (⟨k0, v0⟩ : Sigma fun _ : Str => A) hk
        rw [h1, AList.lookup_insert_ne hk]

/-! ## Maps: the loop of `DiffStringValueMaps` -/

theorem diffStringValueMapsStep_some (st st1 : Diff3 Str) (k0 : Str) (v : GoValue)
    (h : diffStringValueMapsStep st k0 v = some st1) : ∃ s, v = GoValue.string s := by
  cases v with
  | string s => exact ⟨s, rfl⟩
  | nil => simp [diffStringValueMapsStep, GoValue.assertString] at h
  | int n => simp [diffStringValueMapsStep, GoValue.assertString] at h
  | bool b => simp [diffStringValueMapsStep, GoValue.assertString] at h

theorem diffStringValueMapsStep_string (st : Diff3 Str) (k0 v : Str) :
    ∃ st1, diffStringValueMapsStep st k0 (GoValue.string v) = some st1 ∧
      ∀ k, st1.at k = if k = k0 then valueDiffAt (some v) (st.at k) else st.at k := by
  obtain ⟨add, remove, unchanged⟩ := st
  cases hadd : add.lookup k0 with
  | none =>
    refine ⟨(add, remove.insert k0 v, unchanged), ?_, ?_⟩
    · simp [diffStringValueMapsStep, GoValue.assertString, GoMap.index, hadd]
    · intro k
      by_cases hk : k = k0
      · subst hk
        simp [Diff3.at, valueDiffAt, hadd]
      · simp [Diff3.at, hk, AList.lookup_insert_ne hk]
  | some old =>
    by_cases hov : old = v
    · subst hov
      refine ⟨(add.erase k0, remove, unchanged.insert k0 old), ?_, ?_⟩
      · simp [diffStringValueMapsStep, GoValue.assertString, GoMap.index, hadd]
      · intro k
        by_cases hk : k = k0
        · subst hk
          simp [Diff3.at, valueDiffAt, hadd]
        · simp [Diff3.at, hk, AList.lookup_insert_ne hk, AList.lookup_erase_ne hk]
    · refine ⟨(add, remove.insert k0 v, unchanged), ?_, ?_⟩
      · simp [diffStringValueMapsStep, GoValue.assertString, GoMap.index, hadd, hov]
      · intro k
        by_cases hk : k = k0
        · subst hk
          simp [Diff3.at, valueDiffAt, hadd, hov]
        · simp [Diff3.at, hk, AList.lookup_insert_ne hk]

theorem diffStringValueMapsLoop_all :
    ∀ (l : List (Sigma fun _ : Str => GoValue)) (st st' : Diff3 Str),
      diffStringValueMapsLoop l st = some st' → ∀ e ∈ l, ∃ s, e.2 = GoValue.string s := by
  intro l
  induction l with
  | nil => intro _ _ _ e he; simp at he
  | cons e0 rest ih =>
    intro st st' h e he
    obtain ⟨k0, v0⟩ := e0
    simp only [diffStringValueMapsLoop] at h
    cases hstep : diffStringValueMapsStep st k0 v0 with
    | none => simp [hstep] at h
    | some st1 =>
      simp only [hstep] at h
      rcases List.mem_cons.mp he with rfl | hmem
      · exact diffStringValueMapsStep_some st st1 k0 v0 hstep
      · exact ih _ _ h e hmem

theorem diffStringValueMapsLoop_isSome :
    ∀ (l : List (Sigma fun _ : Str => GoValue)) (st : Diff3 Str),
      (∀ e ∈ l, ∃ s, e.2 = GoValue.string s) →
      ∃ st', diffStringValueMapsLoop l st = some st' := by
  intro l
  induction l with
  | nil => intro st _; exact ⟨st, rfl⟩
  | cons e0 rest ih =>
    intro st h
    obtain ⟨k0, v0⟩ := e0
    obtain ⟨s, hs⟩ := h ⟨k0, v0⟩ (by simp)
    simp only at hs
    subst hs
    obtain ⟨st1, hst1, _⟩ := diffStringValueMapsStep_string st k0 s
    obtain ⟨st', hst'⟩ := ih st1 (fun e he => h e (List.mem_cons_of_mem _ he))
    exact ⟨st', by simp [diffStringValueMapsLoop, hst1, hst']⟩

theorem diffStringValueMapsLoop_at :
    ∀ (l : List (Sigma fun _ : Str => GoValue)) (st st' : Diff3 Str), l.NodupKeys →
      diffStringValueMapsLoop l st = some st' →
      ∀ k, st'.at k = valueDiffAt ((l.dlookup k).bind GoValue.assertString) (st.at k) := by
  intro l
  induction l with
  | nil =>
    intro st st' _ h k
    simp only [diffStringValueMapsLoop, Option.some.injEq] at h
    simp [h, valueDiffAt]
  | cons e0 rest ih =>
    intro st st' hnd h k
    obtain ⟨k0, v0⟩ := e0
    rw [List.nodupKeys_cons] at hnd
    simp only [diffStringValueMapsLoop] at h
    cases hstep : diffStringValueMapsStep st k0 v0 with
    | none => simp [hstep] at h
    | some st1 =>
      simp only [hstep] at h
      obtain ⟨s, rfl⟩ := diffStringValueMapsStep_some st st1 k0 v0 hstep
      obtain ⟨st2, hst2, hat⟩ := diffStringValueMapsStep_string st k0 s
      have hst : st2 = st1 := Option.some.inj (hst2.symm.trans hstep)
      subst hst
      rw [ih _ _ hnd.2 h k, hat k]
      by_cases hk : k = k0
      · subst hk
        have hnone : rest.dlookup k = none := List.dlookup_eq_none.mpr hnd.1
        simp [hnone, List.dlookup_cons_eq, GoValue.assertString, valueDiffAt]
      · have h1 := List.dlookup_cons_ne rest (⟨k0, GoValue.string s⟩ : Sigma fun _ : Str => GoValue) hk
        rw [h1, if_neg hk]

theorem ExpandStringValueMap_lookup (m : GoMap GoValue) (add : GoMap Str)
    (h : ExpandStringValueMap m = some add) (k : Str) :
    add.lookup k = (m.lookup k).bind GoValue.assertString := by
  rw [applyLoop_lookup _ m.entries ∅ add m.nodupKeys h k]
  simp only [AList.lookup, AList.lookup_empty]
  cases List.dlookup k m.entries <;> rfl

theorem DiffStringValueMaps_at (oldMap newMap : GoMap GoValue) (st : Diff3 Str)
    (h : DiffStringValueMaps oldMap newMap = some st) (k : Str) :
    st.at k = valueDiffAt ((oldMap.lookup k).bind GoValue.assertString)
      ((newMap.lookup k).bind GoValue.assertString, none, none) := by
  unfold DiffStringValueMaps at h
  cases hadd : ExpandStringValueMap newMap with
  | none => simp [hadd] at h
  | some add =>
    simp only [hadd] at h
    rw [diffStringValueMapsLoop_at _ _ _ oldMap.nodupKeys h k]
    have hl := ExpandStringValueMap_lookup newMap add hadd k
    simp only [Diff3.at, hl, AList.lookup_empty]
    rfl

theorem DiffStringValueMaps_toAny_isSome (old new : GoMap Str) :
    ∃ st, DiffStringValueMaps old.toAny new.toAny = some st := by
  obtain ⟨add, hadd⟩ := applyLoop_isSome (fun v => GoValue.assertString v) new.toAny.entries ∅
    (fun e he => by
      obtain ⟨s, hs⟩ := mem_toAny_entries new e he
      exact ⟨s, by rw [hs]; rfl⟩)
  obtain ⟨st, hst⟩ := diffStringValueMapsLoop_isSome old.toAny.entries (add, ∅, ∅)
    (mem_toAny_entries old)
  refine ⟨st, ?_⟩
  have hadd2 : ExpandStringValueMap new.toAny = some add := hadd
  simp [DiffStringValueMaps, hadd2, hst]

/-- On maps with string values `DiffStringValueMaps` returns, and under every key the three
results are given by `valueDiffAt`. -/
theorem DiffStringValueMaps_toAny (old new : GoMap Str) :
    ∃ add remove unchanged,
      DiffStringValueMaps old.toAny new.toAny = some (add, remove, unchanged) ∧
      ∀ k, (add.lookup k, remove.lookup k, unchanged.lookup k) =
        valueDiffAt (old.lookup k) (new.lookup k, none, none) := by
  obtain ⟨⟨add, remove, unchanged⟩, hst⟩ := DiffStringValueMaps_toAny_isSome old new
  refine ⟨add, remove, unchanged, hst, fun k => ?_⟩
  have h := DiffStringValueMaps_at _ _ _ hst k
  rw [lookup_toAny, lookup_toAny] at h
  exact h

theorem not_mem_iff_lookup {V : Type} (m : GoMap V) (k : Str) :
    k ∉ m ↔ m.lookup k = none := AList.lookup_eq_none.symm

theorem mem_iff_lookup {V : Type} (m : GoMap V) (k : Str) :
    k ∈ m ↔ ∃ v, m.lookup k = some v := by
  rw [← AList.lookup_isSome, Option.isSome_iff_exists]

/-! ## Maps: the loop of `DiffStringMaps` -/

theorem diffStringMapsStep_some (st st1 : Diff3 StringPtr) (k0 : Str) (v : GoValue)
    (h : diffStringMapsStep st k0 v = some st1) : ∃ s, v = GoValue.string s := by
  cases v with
  | string s => exact ⟨s, rfl⟩
  | nil => simp [diffStringMapsStep, GoValue.assertString] at h
  | int n => simp [diffStringMapsStep, GoValue.assertString] at h
  | bool b => simp [diffStringMapsStep, GoValue.assertString] at h

theorem diffStringMapsStep_string (st : Diff3 StringPtr) (k0 v : Str) :
    ∃ st1, diffStringMapsStep st k0 (GoValue.string v) = some st1 ∧
      ∀ k, st1.at k = if k = k0 then ptrDiffAt (some v) (st.at k) else st.at k := by
  obtain ⟨add, remove, unchanged⟩ := st
  cases hadd : add.lookup k0 with
  | none =>
    refine ⟨(add, remove.insert k0 (some v), unchanged), ?_, ?_⟩
    · simp [diffStringMapsStep, GoValue.assertString, GoMap.index, hadd, aws.String]
    · intro k
      by_cases hk : k = k0
      · subst hk
        simp [Diff3.at, ptrDiffAt, hadd]
      · simp [Diff3.at, hk, AList.lookup_insert_ne hk]
  | some old =>
    by_cases hov : aws.StringValue old = v
    · refine ⟨(add.erase k0, remove, unchanged.insert k0 (some v)), ?_, ?_⟩
      · simp [diffStringMapsStep, GoValue.assertString, GoMap.index, hadd, hov, aws.String]
      · intro k
        by_cases hk : k = k0
        · subst hk
          simp [Diff3.at, ptrDiffAt, hadd, hov]
        · simp [Diff3.at, hk, AList.lookup_insert_ne hk, AList.lookup_erase_ne hk]
    · refine ⟨(add, remove.insert k0 (some v), unchanged), ?_, ?_⟩
      · simp [diffStringMapsStep, GoValue.assertString, GoMap.index, hadd, hov, aws.String]
      · intro k
        by_cases hk : k = k0
        · subst hk
          simp [Diff3.at, ptrDiffAt, hadd, hov]
        · simp [Diff3.at, hk, AList.lookup_insert_ne hk]

theorem diffStringMapsLoop_all :
    ∀ (l : List (Sigma fun _ : Str => GoValue)) (st st' : Diff3 StringPtr),
      diffStringMapsLoop l st = some st' → ∀ e ∈ l, ∃ s, e.2 = GoValue.string s := by
  intro l
  induction l with
  | nil => intro _ _ _ e he; simp at he
  | cons e0 rest ih =>
    intro st st' h e he
    obtain ⟨k0, v0⟩ := e0
    simp only [diffStringMapsLoop] at h
    cases hstep : diffStringMapsStep st k0 v0 with
    | none => simp [hstep] at h
    | some st1 =>
      simp only [hstep] at h
      rcases List.mem_cons.mp he with rfl | hmem
      · exact diffStringMapsStep_some st st1 k0 v0 hstep
      · exact ih _ _ h e hmem

theorem diffStringMapsLoop_isSome :
    ∀ (l : List (Sigma fun _ : Str => GoValue)) (st : Diff3 StringPtr),
      (∀ e ∈ l, ∃ s, e.2 = GoValue.string s) →
      ∃ st', diffStringMapsLoop l st = some st' := by
  intro l
  induction l with
  | nil => intro st _; exact ⟨st, rfl⟩
  | cons e0 rest ih =>
    intro st h
    obtain ⟨k0, v0⟩ := e0
    obtain ⟨s, hs⟩ := h ⟨k0, v0⟩ (by simp)
    simp only at hs
    subst hs
    obtain ⟨st1, hst1, _⟩ := diffStringMapsStep_string st k0 s
    obtain ⟨st', hst'⟩ := ih st1 (fun e he => h e (List.mem_cons_of_mem _ he))
    exact ⟨st', by simp [diffStringMapsLoop, hst1, hst']⟩

theorem diffStringMapsLoop_at :
    ∀ (l : List (Sigma fun _ : Str => GoValue)) (st st' : Diff3 StringPtr), l.NodupKeys →
      diffStringMapsLoop l st = some st' →
      ∀ k, st'.at k = ptrDiffAt ((l.dlookup k).bind GoValue.assertString) (st.at k) := by
  intro l
  induction l with
  | nil =>
    intro st st' _ h k
    simp only [diffStringMapsLoop, Option.some.injEq] at h
    simp [h, ptrDiffAt]
  | cons e0 rest ih =>
    intro st st' hnd h k
    obtain ⟨k0, v0⟩ := e0
    rw [List.nodupKeys_cons] at hnd
    simp only [diffStringMapsLoop] at h
    cases hstep : diffStringMapsStep st k0 v0 with
    | none => simp [hstep] at h
    | some st1 =>
      simp only [hstep] at h
      obtain ⟨s, rfl⟩ := diffStringMapsStep_some st st1 k0 v0 hstep
      obtain ⟨st2, hst2, hat⟩ := diffStringMapsStep_string st k0 s
      have hst : st2 = st1 := Option.some.inj (hst2.symm.trans hstep)
      subst hst
      rw [ih _ _ hnd.2 h k, hat k]
      by_cases hk : k = k0
      · subst hk
        have hnone : rest.dlookup k = none := List.dlookup_eq_none.mpr hnd.1
        simp [hnone, List.dlookup_cons_eq, GoValue.assertString, ptrDiffAt]
      · have h1 := List.dlookup_cons_ne rest (⟨k0, GoValue.string s⟩ : Sigma fun _ : Str => GoValue) hk
        rw [h1, if_neg hk]

theorem ExpandStringMap_lookup (m : GoMap GoValue) (add : GoMap StringPtr)
    (h : ExpandStringMap m = some add) (k : Str) :
    add.lookup k = ((m.lookup k).bind GoValue.assertString).map aws.String := by
  rw [applyLoop_lookup _ m.entries ∅ add m.nodupKeys h k]
  simp only [AList.lookup, AList.lookup_empty]
  cases List.dlookup k m.entries <;> rfl

theorem DiffStringMaps_at (oldMap newMap : GoMap GoValue) (st : Diff3 StringPtr)
    (h : DiffStringMaps oldMap newMap = some st) (k : Str) :
    st.at k = ptrDiffAt ((oldMap.lookup k).bind GoValue.assertString)
      (((newMap.lookup k).bind GoValue.assertString).map aws.String, none, none) := by
  unfold DiffStringMaps at h
  cases hadd : ExpandStringMap newMap with
  | none => simp [hadd] at h
  | some add =>
    simp only [hadd] at h
    rw [diffStringMapsLoop_at _ _ _ oldMap.nodupKeys h k]
    have hl := ExpandStringMap_lookup newMap add hadd k
    simp only [Diff3.at, hl, AList.lookup_empty]
    rfl

/-- A diff that returns was given string values only. -/
theorem DiffStringValueMaps_strings (oldMap newMap : GoMap GoValue) (st : Diff3 Str)
    (h : DiffStringValueMaps oldMap newMap = some st) (k : Str) (v : GoValue) :
    (oldMap.lookup k = some v → ∃ s, v = GoValue.string s) ∧
    (newMap.lookup k = some v → ∃ s, v = GoValue.string s) := by
  unfold DiffStringValueMaps at h
  cases hadd : ExpandStringValueMap newMap with
  | none => simp [hadd] at h
  | some add =>
    simp only [hadd] at h
    constructor
    · intro hv
      exact diffStringValueMapsLoop_all _ _ _ h ⟨k, v⟩ (AList.mem_lookup_iff.mp hv)
    · intro hv
      obtain ⟨b, hb⟩ := applyLoop_all _ _ _ _ hadd ⟨k, v⟩ (AList.mem_lookup_iff.mp hv)
      cases v with
      | string s => exact ⟨s, rfl⟩
      | nil => simp [GoValue.assertString] at hb
      | int n => simp [GoValue.assertString] at hb
      | bool b => simp [GoValue.assertString] at hb

/-- A diff that returns was given string values only. -/
theorem DiffStringMaps_strings (oldMap newMap : GoMap GoValue) (st : Diff3 StringPtr)
    (h : DiffStringMaps oldMap newMap = some st) (k : Str) (v : GoValue) :
    (oldMap.lookup k = some v → ∃ s, v = GoValue.string s) ∧
    (newMap.lookup k = some v → ∃ s, v = GoValue.string s) := by
  unfold DiffStringMaps at h
  cases hadd : ExpandStringMap newMap with
  | none => simp [hadd] at h
  | some add =>
    simp only [hadd] at h
    constructor
    · intro hv
      exact diffStringMapsLoop_all _ _ _ h ⟨k, v⟩ (AList.mem_lookup_iff.mp hv)
    · intro hv
      obtain ⟨b, hb⟩ := applyLoop_all _ _ _ _ hadd ⟨k, v⟩ (AList.mem_lookup_iff.mp hv)
      cases v with
      | string s => exact ⟨s, rfl⟩
      | nil => simp [GoValue.assertString] at hb
      | int n => simp [GoValue.assertString] at hb
      | bool b => simp [GoValue.assertString] at hb

/-! ## The map differ: claims -/

/-- C8: for every old and new mapping with string values, `DiffStringValueMaps(old, new)`
returns `(add, remove, unchanged)` such that for every key `k`: if `k` is only in new then
`add[k] = new[k]` and `k` is in neither remove nor unchanged; if `k` is only in old then
`remove[k] = old[k]` and `k` is in neither add nor unchanged; if `k` is in both with
`old[k] = new[k]` then `unchanged[k] = old[k]` and `k` is in neither add nor remove; if `k`
is in both with `old[k] != new[k]` then `remove[k] = old[k]`, `add[k] = new[k]` and `k` is not
in unchanged; and a key in neither input is in none of the outputs. -/
theorem DiffStringValueMaps_spec (old new : GoMap Str) :
    ∃ add remove unchanged,
      DiffStringValueMaps old.toAny new.toAny = some (add, remove, unchanged) ∧
      ∀ k,
        (k ∉ old → k ∈ new →
          add.lookup k = new.lookup k ∧ k ∉ remove ∧ k ∉ unchanged) ∧
        (k ∈ old → k ∉ new →
          remove.lookup k = old.lookup k ∧ k ∉ add ∧ k ∉ unchanged) ∧
        (k ∈ old → k ∈ new → old.lookup k = new.lookup k →
          unchanged.lookup k = old.lookup k ∧ k ∉ add ∧ k ∉ remove) ∧
        (k ∈ old → k ∈ new → old.lookup k ≠ new.lookup k →
          remove.lookup k = old.lookup k ∧ add.lookup k = new.lookup k ∧ k ∉ unchanged) ∧
        (k ∉ old → k ∉ new → k ∉ add ∧ k ∉ remove ∧ k ∉ unchanged) := by
  obtain ⟨add, remove, unchanged, hdiff, hat⟩ := DiffStringValueMaps_toAny old new
  refine ⟨add, remove, unchanged, hdiff, fun k => ?_⟩
  have h := hat k
  simp only [not_mem_iff_lookup, mem_iff_lookup]
  cases ho : old.lookup k with
  | none =>
    simp only [ho, valueDiffAt, Prod.mk.injEq] at h
    obtain ⟨ha, hr, hu⟩ := h
    simp [ha, hr, hu]
  | some vo =>
    cases hn : new.lookup k with
    | none =>
      simp only [ho, hn, valueDiffAt, if_false, Prod.mk.injEq, reduceCtorEq] at h
      obtain ⟨ha, hr, hu⟩ := h
      simp [ha, hr, hu]
    | some vn =>
      by_cases hv : vn = vo
      · subst hv
        simp only [ho, hn, valueDiffAt, if_true, Prod.mk.injEq] at h
        obtain ⟨ha, hr, hu⟩ := h
        simp [ha, hr, hu]
      · have hv2 : ¬ (some vn = some vo) := fun e => hv (Option.some.inj e)
        simp only [ho, hn, valueDiffAt, if_neg hv2, Prod.mk.injEq] at h
        obtain ⟨ha, hr, hu⟩ := h
        have hv3 : ¬ vo = vn := fun e => hv e.symm
        simp [ha, hr, hu, hv3]

/-- Witness of `DiffStringValueMaps_spec`: for old `{"x":"1","y":"2"}` and new
`{"y":"2","z":"3"}` the key `"z"`, which is only in new, ends in add with the value `"3"`. -/
theorem DiffStringValueMaps_spec_witness :
    ∃ add remove unchanged,
      DiffStringValueMaps
        (GoMap.ofList [("x".toList, "1".toList), ("y".toList, "2".toList)]).toAny
        (GoMap.ofList [("y".toList, "2".toList), ("z".toList, "3".toList)]).toAny =
          some (add, remove, unchanged) ∧
      add.lookup "z".toList = some "3".toList ∧ "z".toList ∉ remove ∧
      "z".toList ∉ unchanged := by
  obtain ⟨add, remove, unchanged, hdiff, hk⟩ := DiffStringValueMaps_spec
    (GoMap.ofList [("x".toList, "1".toList), ("y".toList, "2".toList)])
    (GoMap.ofList [("y".toList, "2".toList), ("z".toList, "3".toList)])
  exact ⟨add, remove, unchanged, hdiff, (hk "z".toList).1 (by decide) (by decide)⟩

/-- C10: for every old and new mapping with string values, every key of old appears in
exactly one of remove and unchanged (with its old value), remove and unchanged contain no
key outside old, and every key of new that is not in unchanged appears in add (with its new
value). -/
theorem DiffStringValueMaps_old_new_keys (old new : GoMap Str) :
    ∃ add remove unchanged,
      DiffStringValueMaps old.toAny new.toAny = some (add, remove, unchanged) ∧
      (∀ k v, old.lookup k = some v →
        (remove.lookup k = some v ∧ k ∉ unchanged) ∨
        (unchanged.lookup k = some v ∧ k ∉ remove)) ∧
      (∀ k, k ∈ remove ∨ k ∈ unchanged → k ∈ old) ∧
      (∀ k v, new.lookup k = some v → k ∉ unchanged → add.lookup k = some v) := by
  obtain ⟨add, remove, unchanged, hdiff, hat⟩ := DiffStringValueMaps_toAny old new
  refine ⟨add, remove, unchanged, hdiff, ?_, ?_, ?_⟩
  · intro k v ho
    have h := hat k
    simp only [not_mem_iff_lookup]
    by_cases hv : new.lookup k = some v
    · simp only [ho, hv, valueDiffAt, if_true, Prod.mk.injEq] at h
      exact Or.inr ⟨h.2.2, h.2.1⟩
    · simp only [ho, valueDiffAt, if_neg hv, Prod.mk.injEq] at h
      exact Or.inl ⟨h.2.1, h.2.2⟩
  · intro k hk
    have h := hat k
    rw [mem_iff_lookup, mem_iff_lookup] at hk
    rw [mem_iff_lookup]
    cases ho : old.lookup k with
    | some v => exact ⟨v, rfl⟩
    | none =>
      simp only [ho, valueDiffAt, Prod.mk.injEq] at h
      rcases hk with ⟨v, hv⟩ | ⟨v, hv⟩
      · rw [h.2.1] at hv
        cases hv
      · rw [h.2.2] at hv
        cases hv
  · intro k v hn hu
    have h := hat k
    rw [not_mem_iff_lookup] at hu
    cases ho : old.lookup k with
    | none =>
      simp only [ho, valueDiffAt, Prod.mk.injEq] at h
      rw [h.1, hn]
    | some vo =>
      by_cases hv : new.lookup k = some vo
      · simp only [ho, hv, valueDiffAt, if_true, Prod.mk.injEq] at h
        rw [h.2.2] at hu
        cases hu
      · simp only [ho, valueDiffAt, if_neg hv, Prod.mk.injEq] at h
        rw [h.1, hn]

/-- Witness of `DiffStringValueMaps_old_new_keys`: for old `{"a":"1"}` and new `{"a":"2"}`
the key `"a"` of old is in remove with the value `"1"`, and, not being in unchanged, in add
with the value `"2"`. -/
theorem DiffStringValueMaps_old_new_keys_witness :
    ∃ add remove unchanged,
      DiffStringValueMaps (GoMap.ofList [("a".toList, "1".toList)]).toAny
        (GoMap.ofList [("a".toList, "2".toList)]).toAny = some (add, remove, unchanged) ∧
      ((remove.lookup "a".toList = some "1".toList ∧ "a".toList ∉ unchanged) ∨
        (unchanged.lookup "a".toList = some "1".toList ∧ "a".toList ∉ remove)) := by
  obtain ⟨add, remove, unchanged, hdiff, hold, _, _⟩ := DiffStringValueMaps_old_new_keys
    (GoMap.ofList [("a".toList, "1".toList)]) (GoMap.ofList [("a".toList, "2".toList)])
  exact ⟨add, remove, unchanged, hdiff, hold "a".toList "1".toList (by rfl)⟩

/-- C9, as stated, fails: for old `{"a":"1"}` and new `{"a":"2"}` the key `"a"` is returned
both in add (with `"2"`) and in remove (with `"1"`). -/
theorem diff_add_remove_share_key :
    ∃ add remove unchanged,
      DiffStringValueMaps (GoMap.ofList [("a".toList, "1".toList)]).toAny
        (GoMap.ofList [("a".toList, "2".toList)]).toAny = some (add, remove, unchanged) ∧
      add.lookup "a".toList = some "2".toList ∧ remove.lookup "a".toList = some "1".toList ∧
      "a".toList ∈ add ∧ "a".toList ∈ remove :=
  ⟨GoMap.ofList [("a".toList, "2".toList)], GoMap.ofList [("a".toList, "1".toList)], ∅,
    by rfl, by rfl, by rfl, by decide, by decide⟩

/-- C9, amended: for every old and new mapping, of the three mappings returned by the map
differ (`DiffStringValueMaps` and `DiffStringMaps` alike) unchanged shares no key with add and
no key with remove, and a key occurs in both add and remove exactly when it is a key of both
old and new with different values. -/
theorem diff_results_overlap (oldMap newMap : GoMap GoValue) :
    (∀ add remove unchanged,
      DiffStringValueMaps oldMap newMap = some (add, remove, unchanged) →
      (∀ k, k ∈ unchanged → k ∉ add ∧ k ∉ remove) ∧
      (∀ k, (k ∈ add ∧ k ∈ remove) ↔
        ∃ vo vn, oldMap.lookup k = some vo ∧ newMap.lookup k = some vn ∧ vo ≠ vn)) ∧
    (∀ add remove unchanged,
      DiffStringMaps oldMap newMap = some (add, remove, unchanged) →
      (∀ k, k ∈ unchanged → k ∉ add ∧ k ∉ remove) ∧
      (∀ k, (k ∈ add ∧ k ∈ remove) ↔
        ∃ vo vn, oldMap.lookup k = some vo ∧ newMap.lookup k = some vn ∧ vo ≠ vn)) := by
  constructor
  · intro add remove unchanged hdiff
    have key : ∀ k, (k ∈ unchanged → k ∉ add ∧ k ∉ remove) ∧
        ((k ∈ add ∧ k ∈ remove) ↔
          ∃ vo vn, oldMap.lookup k = some vo ∧ newMap.lookup k = some vn ∧ vo ≠ vn) := by
      intro k
      have hat := DiffStringValueMaps_at _ _ _ hdiff k
      have hstr := DiffStringValueMaps_strings _ _ _ hdiff k
      simp only [Diff3.at] at hat
      simp only [not_mem_iff_lookup, mem_iff_lookup]
      cases ho : oldMap.lookup k with
      | none =>
        simp only [ho, Option.bind, valueDiffAt, Prod.mk.injEq] at hat
        obtain ⟨ha, hr, hu⟩ := hat
        simp [ha, hr, hu]
      | some vo =>
        obtain ⟨so, rfl⟩ := (hstr vo).1 ho
        cases hn : newMap.lookup k with
        | none =>
          simp only [ho, hn, Option.bind, GoValue.assertString, valueDiffAt, if_false,
            Prod.mk.injEq, reduceCtorEq] at hat
          obtain ⟨ha, hr, hu⟩ := hat
          simp [ha, hr, hu]
        | some vn =>
          obtain ⟨sn, rfl⟩ := (hstr vn).2 hn
          by_cases hv : sn = so
          · subst hv
            simp only [ho, hn, Option.bind, GoValue.assertString, valueDiffAt, if_true,
              Prod.mk.injEq] at hat
            obtain ⟨ha, hr, hu⟩ := hat
            simp [ha, hr, hu]
          · have hv2 : ¬ (some sn = some so) := fun e => hv (Option.some.inj e)
            simp only [ho, hn, Option.bind, GoValue.assertString, valueDiffAt, if_neg hv2,
              Prod.mk.injEq] at hat
            obtain ⟨ha, hr, hu⟩ := hat
            have hv3 : ¬ so = sn := fun e => hv e.symm
            simp [ha, hr, hu, hv3]
    exact ⟨fun k => (key k).1, fun k => (key k).2⟩
  · intro add remove unchanged hdiff
    have key : ∀ k, (k ∈ unchanged → k ∉ add ∧ k ∉ remove) ∧
        ((k ∈ add ∧ k ∈ remove) ↔
          ∃ vo vn, oldMap.lookup k = some vo ∧ newMap.lookup k = some vn ∧ vo ≠ vn) := by
      intro k
      have hat := DiffStringMaps_at _ _ _ hdiff k
      have hstr := DiffStringMaps_strings _ _ _ hdiff k
      simp only [Diff3.at] at hat
      simp only [not_mem_iff_lookup, mem_iff_lookup]
      cases ho : oldMap.lookup k with
      | none =>
        simp only [ho, Option.bind, ptrDiffAt, Prod.mk.injEq] at hat
        obtain ⟨ha, hr, hu⟩ := hat
        simp [ha, hr, hu]
      | some vo =>
        obtain ⟨so, rfl⟩ := (hstr vo).1 ho
        cases hn : newMap.lookup k with
        | none =>
          simp only [ho, hn, Option.bind, Option.map, GoValue.assertString, ptrDiffAt,
            Prod.mk.injEq] at hat
          obtain ⟨ha, hr, hu⟩ := hat
          simp [ha, hr, hu]
        | some vn =>
          obtain ⟨sn, rfl⟩ := (hstr vn).2 hn
          by_cases hv : sn = so
          · subst hv
            simp only [ho, hn, Option.bind, Option.map, GoValue.assertString, ptrDiffAt,
              aws.String, aws.StringValue, Option.getD, if_true, Prod.mk.injEq] at hat
            obtain ⟨ha, hr, hu⟩ := hat
            simp [ha, hr, hu]
          · simp only [ho, hn, Option.bind, Option.map, GoValue.assertString, ptrDiffAt,
              aws.String, aws.StringValue, Option.getD, if_neg hv, Prod.mk.injEq] at hat
            obtain ⟨ha, hr, hu⟩ := hat
            have hv3 : ¬ so = sn := fun e => hv e.symm
            simp [ha, hr, hu, hv3]
    exact ⟨fun k => (key k).1, fun k => (key k).2⟩

/-- Witness of `diff_results_overlap`: for old `{"x":"1","y":"2"}` and new
`{"y":"2","z":"3"}` both differs return, and the unchanged key `"y"` is in neither add nor
remove. -/
theorem diff_results_overlap_witness :
    (∃ add remove unchanged,
      DiffStringValueMaps
        (GoMap.ofList [("x".toList, "1".toList), ("y".toList, "2".toList)]).toAny
        (GoMap.ofList [("y".toList, "2".toList), ("z".toList, "3".toList)]).toAny =
          some (add, remove, unchanged) ∧
      "y".toList ∈ unchanged ∧ "y".toList ∉ add ∧ "y".toList ∉ remove) ∧
    (∃ add remove unchanged,
      DiffStringMaps
        (GoMap.ofList [("x".toList, "1".toList), ("y".toList, "2".toList)]).toAny
        (GoMap.ofList [("y".toList, "2".toList), ("z".toList, "3".toList)]).toAny =
          some (add, remove, unchanged) ∧
      "y".toList ∈ unchanged ∧ "y".toList ∉ add ∧ "y".toList ∉ remove) :=
  ⟨⟨GoMap.ofList [("z".toList, "3".toList)], GoMap.ofList [("x".toList, "1".toList)],
      GoMap.ofList [("y".toList, "2".toList)], by rfl, by decide,
      ((diff_results_overlap
        (GoMap.ofList [("x".toList, "1".toList), ("y".toList, "2".toList)]).toAny
        (GoMap.ofList [("y".toList, "2".toList), ("z".toList, "3".toList)]).toAny).1
        _ _ _ (by rfl)).1 "y".toList (by decide)⟩,
    ⟨GoMap.ofList [("z".toList, some "3".toList)], GoMap.ofList [("x".toList, some "1".toList)],
      GoMap.ofList [("y".toList, some "2".toList)], by rfl, by decide,
      ((diff_results_overlap
        (GoMap.ofList [("x".toList, "1".toList), ("y".toList, "2".toList)]).toAny
        (GoMap.ofList [("y".toList, "2".toList), ("z".toList, "3".toList)]).toAny).2
        _ _ _ (by rfl)).1 "y".toList (by decide)⟩⟩

/-! ## The map differ: failure, reconciliation -/

theorem mem_entries_string_of_lookup (m : GoMap GoValue)
    (h : ∀ k v, m.lookup k = some v → ∃ s, v = GoValue.string s) :
    ∀ e ∈ m.entries, ∃ s, e.2 = GoValue.string s := by
  intro e he
  obtain ⟨k, v⟩ := e
  exact h k v (AList.mem_lookup_iff.mpr he)

theorem DiffStringValueMaps_isSome (oldMap newMap : GoMap GoValue)
    (hold : ∀ e ∈ oldMap.entries, ∃ s, e.2 = GoValue.string s)
    (hnew : ∀ e ∈ newMap.entries, ∃ s, e.2 = GoValue.string s) :
    ∃ st, DiffStringValueMaps oldMap newMap = some st := by
  obtain ⟨add, hadd⟩ := applyLoop_isSome (fun v => GoValue.assertString v) newMap.entries ∅
    (fun e he => by
      obtain ⟨s, hs⟩ := hnew e he
      exact ⟨s, by rw [hs]; rfl⟩)
  obtain ⟨st, hst⟩ := diffStringValueMapsLoop_isSome oldMap.entries (add, ∅, ∅) hold
  refine ⟨st, ?_⟩
  have hadd2 : ExpandStringValueMap newMap = some add := hadd
  simp [DiffStringValueMaps, hadd2, hst]

theorem DiffStringMaps_isSome (oldMap newMap : GoMap GoValue)
    (hold : ∀ e ∈ oldMap.entries, ∃ s, e.2 = GoValue.string s)
    (hnew : ∀ e ∈ newMap.entries, ∃ s, e.2 = GoValue.string s) :
    ∃ st, DiffStringMaps oldMap newMap = some st := by
  obtain ⟨add, hadd⟩ := applyLoop_isSome
    (fun v => (GoValue.assertString v).map aws.String) newMap.entries ∅
    (fun e he => by
      obtain ⟨s, hs⟩ := hnew e he
      exact ⟨aws.String s, by rw [hs]; rfl⟩)
  obtain ⟨st, hst⟩ := diffStringMapsLoop_isSome oldMap.entries (add, ∅, ∅) hold
  refine ⟨st, ?_⟩
  have hadd2 : ExpandStringMap newMap = some add := hadd
  simp [DiffStringMaps, hadd2, hst]

/-- C11, as stated, fails: a value that is not a string makes the type assertion
`v.(string)` panic, in the old map as well as in the new map, in both differs. -/
theorem diff_panics_on_non_string_value :
    DiffStringValueMaps (GoMap.ofList [("a".toList, GoValue.int 1)]) ∅ = none ∧
    DiffStringValueMaps ∅ (GoMap.ofList [("a".toList, GoValue.int 1)]) = none ∧
    DiffStringMaps (GoMap.ofList [("a".toList, GoValue.int 1)]) ∅ = none ∧
    DiffStringMaps ∅ (GoMap.ofList [("a".toList, GoValue.int 1)]) = none :=
  ⟨by rfl, by rfl, by rfl, by rfl⟩

/-- C11, amended: for every pair `oldMap`, `newMap` of type `map[string]interface{}`,
`DiffStringValueMaps` and `DiffStringMaps` return their three result mappings without
panicking exactly when every value of both maps is a string. -/
theorem diff_returns_iff_string_values (oldMap newMap : GoMap GoValue) :
    ((∃ add remove unchanged,
        DiffStringValueMaps oldMap newMap = some (add, remove, unchanged)) ↔
      ((∀ k v, oldMap.lookup k = some v → ∃ s, v = GoValue.string s) ∧
        (∀ k v, newMap.lookup k = some v → ∃ s, v = GoValue.string s))) ∧
    ((∃ add remove unchanged,
        DiffStringMaps oldMap newMap = some (add, remove, unchanged)) ↔
      ((∀ k v, oldMap.lookup k = some v → ∃ s, v = GoValue.string s) ∧
        (∀ k v, newMap.lookup k = some v → ∃ s, v = GoValue.string s))) := by
  constructor
  · constructor
    · rintro ⟨add, remove, unchanged, h⟩
      exact ⟨fun k v => (DiffStringValueMaps_strings _ _ _ h k v).1,
        fun k v => (DiffStringValueMaps_strings _ _ _ h k v).2⟩
    · rintro ⟨hold, hnew⟩
      obtain ⟨⟨add, remove, unchanged⟩, h⟩ := DiffStringValueMaps_isSome oldMap newMap
        (mem_entries_string_of_lookup _ hold) (mem_entries_string_of_lookup _ hnew)
      exact ⟨add, remove, unchanged, h⟩
  · constructor
    · rintro ⟨add, remove, unchanged, h⟩
      exact ⟨fun k v => (DiffStringMaps_strings _ _ _ h k v).1,
        fun k v => (DiffStringMaps_strings _ _ _ h k v).2⟩
    · rintro ⟨hold, hnew⟩
      obtain ⟨⟨add, remove, unchanged⟩, h⟩ := DiffStringMaps_isSome oldMap newMap
        (mem_entries_string_of_lookup _ hold) (mem_entries_string_of_lookup _ hnew)
      exact ⟨add, remove, unchanged, h⟩

/-- Witness of `diff_returns_iff_string_values`: old `{"a":"1"}` and new `{"a":"2"}` have
string values only, and both differs return. -/
theorem diff_returns_iff_string_values_witness :
    (∃ add remove unchanged,
      DiffStringValueMaps (GoMap.ofList [("a".toList, GoValue.string "1".toList)])
        (GoMap.ofList [("a".toList, GoValue.string "2".toList)]) =
          some (add, remove, unchanged)) ∧
    (∃ add remove unchanged,
      DiffStringMaps (GoMap.ofList [("a".toList, GoValue.string "1".toList)])
        (GoMap.ofList [("a".toList, GoValue.string "2".toList)]) =
          some (add, remove, unchanged)) :=
  ⟨(diff_returns_iff_string_values (GoMap.ofList [("a".toList, GoValue.string "1".toList)])
      (GoMap.ofList [("a".toList, GoValue.string "2".toList)])).1.mpr
      ⟨fun k v h => by
          by_cases hk : k = "a".toList
          · subst hk
            exact ⟨"1".toList, (Option.some.inj h).symm⟩
          · rw [GoMap.ofList, GoMap.ofList, AList.lookup_insert_ne hk] at h
            simp at h,
        fun k v h => by
          by_cases hk : k = "a".toList
          · subst hk
            exact ⟨"2".toList, (Option.some.inj h).symm⟩
          · rw [GoMap.ofList, GoMap.ofList, AList.lookup_insert_ne hk] at h
            simp at h⟩,
    (diff_returns_iff_string_values (GoMap.ofList [("a".toList, GoValue.string "1".toList)])
      (GoMap.ofList [("a".toList, GoValue.string "2".toList)])).2.mpr
      ⟨fun k v h => by
          by_cases hk : k = "a".toList
          · subst hk
            exact ⟨"1".toList, (Option.some.inj h).symm⟩
          · rw [GoMap.ofList, GoMap.ofList, AList.lookup_insert_ne hk] at h
            simp at h,
        fun k v h => by
          by_cases hk : k = "a".toList
          · subst hk
            exact ⟨"2".toList, (Option.some.inj h).symm⟩
          · rw [GoMap.ofList, GoMap.ofList, AList.lookup_insert_ne hk] at h
            simp at h⟩⟩

theorem lookup_deleteKeys {V : Type} (ks : List Str) :
    ∀ (m : GoMap V) (k : Str),
      (m.deleteKeys ks).lookup k = if k ∈ ks then none else m.lookup k := by
  induction ks with
  | nil => intro m k; simp [GoMap.deleteKeys]
  | cons k0 rest ih =>
    intro m k
    have hstep : m.deleteKeys (k0 :: rest) = GoMap.deleteKeys (m.erase k0) rest := rfl
    rw [hstep, ih]
    by_cases hk : k = k0
    · subst hk
      simp [AList.lookup_erase]
    · simp [hk, AList.lookup_erase_ne hk]

theorem lookup_setEntries {V : Type} (es : List (Sigma fun _ : Str => V)) :
    ∀ (m : GoMap V) (k : Str), es.NodupKeys →
      (m.setEntries es).lookup k = (es.dlookup k).elim (m.lookup k) some := by
  induction es with
  | nil => intro m k _; simp [GoMap.setEntries]
  | cons e0 rest ih =>
    intro m k hnd
    obtain ⟨k0, v0⟩ := e0
    rw [List.nodupKeys_cons] at hnd
    have hstep : m.setEntries (⟨k0, v0⟩ :: rest) = GoMap.setEntries (m.insert k0 v0) rest := rfl
    rw [hstep, ih _ _ hnd.2]
    by_cases hk : k = k0
    · subst hk
      have hnone : rest.dlookup k = none := List.dlookup_eq_none.mpr hnd.1
      simp [hnone, List.dlookup_cons_eq]
    · have h1 := List.dlookup_cons_ne rest (⟨k0, v0⟩ : Sigma fun _ : Str => V) hk
      rw [h1, AList.lookup_insert_ne hk]

theorem perm_of_lookup_eq {V : Type} (m₁ m₂ : GoMap V)
    (h : ∀ k, m₁.lookup k = m₂.lookup k) : m₁.entries.Perm m₂.entries := by
  apply List.lookup_ext m₁.nodupKeys m₂.nodupKeys
  intro k v
  have hk := h k
  simp only [AList.lookup] at hk
  rw [hk]

theorem lookup_union {V : Type} (m₁ m₂ : GoMap V) (k : Str) :
    (m₁ ∪ m₂).lookup k = (m₁.lookup k).elim (m₂.lookup k) some := by
  cases h : m₁.lookup k with
  | none =>
    rw [AList.lookup_union_right ((not_mem_iff_lookup m₁ k).mpr h)]
    rfl
  | some v =>
    rw [AList.lookup_union_left ((mem_iff_lookup m₁ k).mpr ⟨v, h⟩), h]
    rfl

theorem lookup_reconcile (old add remove : GoMap Str) (k : Str) :
    (reconcile old add remove).lookup k =
      (add.lookup k).elim (if k ∈ remove then none else old.lookup k) some := by
  unfold reconcile
  rw [lookup_setEntries _ _ _ add.nodupKeys, lookup_deleteKeys]
  simp only [AList.lookup, AList.mem_keys]

/-- C12: the keys and values "to create" and "to destroy" reconcile old into new.  For every
old and new mapping with string values and `(add, remove, unchanged) =
DiffStringValueMaps(old, new)`, deleting every key of remove from old and then setting every
entry of add yields exactly new (the same value under every key, hence the same entries);
equivalently unchanged together with add equals new and unchanged together with remove
equals old. -/
theorem DiffStringValueMaps_reconciles (old new : GoMap Str) :
    ∃ add remove unchanged,
      DiffStringValueMaps old.toAny new.toAny = some (add, remove, unchanged) ∧
      (∀ k, (reconcile old add remove).lookup k = new.lookup k) ∧
      (reconcile old add remove).entries.Perm new.entries ∧
      (∀ k, (unchanged ∪ add).lookup k = new.lookup k) ∧
      (unchanged ∪ add).entries.Perm new.entries ∧
      (∀ k, (unchanged ∪ remove).lookup k = old.lookup k) ∧
      (unchanged ∪ remove).entries.Perm old.entries := by
  obtain ⟨add, remove, unchanged, hdiff, hat⟩ := DiffStringValueMaps_toAny old new
  have key : ∀ k, (reconcile old add remove).lookup k = new.lookup k ∧
      (unchanged ∪ add).lookup k = new.lookup k ∧
      (unchanged ∪ remove).lookup k = old.lookup k := by
    intro k
    have h := hat k
    rw [lookup_reconcile, lookup_union, lookup_union]
    cases ho : old.lookup k with
    | none =>
      simp only [ho, valueDiffAt, Prod.mk.injEq] at h
      obtain ⟨ha, hr, hu⟩ := h
      have hmem : k ∉ remove := (not_mem_iff_lookup remove k).mpr hr
      rw [if_neg hmem, ha, hr, hu]
      cases new.lookup k <;> simp
    | some vo =>
      by_cases hv : new.lookup k = some vo
      · simp only [ho, hv, valueDiffAt, if_true, Prod.mk.injEq] at h
        obtain ⟨ha, hr, hu⟩ := h
        have hmem : k ∉ remove := (not_mem_iff_lookup remove k).mpr hr
        rw [if_neg hmem, ha, hr, hu, hv]
        simp
      · simp only [ho, valueDiffAt, if_neg hv, Prod.mk.injEq] at h
        obtain ⟨ha, hr, hu⟩ := h
        have hmem : k ∈ remove := (mem_iff_lookup remove k).mpr ⟨vo, hr⟩
        rw [if_pos hmem, ha, hr, hu]
        cases new.lookup k <;> simp
  exact ⟨add, remove, unchanged, hdiff, fun k => (key k).1,
    perm_of_lookup_eq _ _ (fun k => (key k).1), fun k => (key k).2.1,
    perm_of_lookup_eq _ _ (fun k => (key k).2.1), fun k => (key k).2.2,
    perm_of_lookup_eq _ _ (fun k => (key k).2.2)⟩

/-! ## The differs on the store: which map objects are written -/

theorem Store.set_frame (σ : Store) (m : Nat) (o : MapObj) :
    (σ.set m o).length = σ.length ∧ ∀ i, i ≠ m → (σ.set m o)[i]? = σ[i]? :=
  ⟨List.length_set σ m o, fun _ hi => List.getElem?_set_ne (Ne.symm hi)⟩

theorem Store.setString_frame (σ σ' : Store) (m : Nat) (k v : Str)
    (h : σ.setString m k v = some σ') :
    σ'.length = σ.length ∧ ∀ i, i ≠ m → σ'[i]? = σ[i]? := by
  unfold Store.setString at h
  split at h
  · cases h
    exact Store.set_frame σ m _
  · cases h

theorem Store.deleteString_frame (σ σ' : Store) (m : Nat) (k : Str)
    (h : σ.deleteString m k = some σ') :
    σ'.length = σ.length ∧ ∀ i, i ≠ m → σ'[i]? = σ[i]? := by
  unfold Store.deleteString at h
  split at h
  · cases h
    exact Store.set_frame σ m _
  · cases h

theorem Store.setPtr_frame (σ σ' : Store) (m : Nat) (k : Str) (v : StringPtr)
    (h : σ.setPtr m k v = some σ') :
    σ'.length = σ.length ∧ ∀ i, i ≠ m → σ'[i]? = σ[i]? := by
  unfold Store.setPtr at h
  split at h
  · cases h
    exact Store.set_frame σ m _
  · cases h

theorem Store.deletePtr_frame (σ σ' : Store) (m : Nat) (k : Str)
    (h : σ.deletePtr m k = some σ') :
    σ'.length = σ.length ∧ ∀ i, i ≠ m → σ'[i]? = σ[i]? := by
  unfold Store.deletePtr at h
  split at h
  · cases h
    exact Store.set_frame σ m _
  · cases h

theorem storeDiffStringValueMapsStep_frame (σ σ' : Store) (add remove unchanged : Nat)
    (k : Str) (v : GoValue)
    (h : storeDiffStringValueMapsStep σ add remove unchanged k v = some σ') :
    σ'.length = σ.length ∧
      ∀ i, i ≠ add → i ≠ remove → i ≠ unchanged → σ'[i]? = σ[i]? := by
  unfold storeDiffStringValueMapsStep at h
  split at h
  · cases h
  · split at h
    · simp only at h
      split at h
      · have hf := Store.setString_frame _ _ _ _ _ h
        exact ⟨hf.1, fun i _ hr _ => hf.2 i hr⟩
      · split at h
        · split at h
          · cases h
          · rename_i σ₁ h₁
            have hf₁ := Store.setString_frame _ _ _ _ _ h₁
            have hf₂ := Store.deleteString_frame _ _ _ _ h
            exact ⟨hf₂.1.trans hf₁.1,
              fun i ha _ hu => (hf₂.2 i ha).trans (hf₁.2 i hu)⟩
        · cases h
          exact ⟨rfl, fun _ _ _ _ => rfl⟩
    · cases h

theorem storeDiffStringValueMapsLoop_frame (add remove unchanged : Nat) :
    ∀ (l : List (Sigma fun _ : Str => GoValue)) (σ σ' : Store),
      storeDiffStringValueMapsLoop add remove unchanged l σ = some σ' →
      σ'.length = σ.length ∧
        ∀ i, i ≠ add → i ≠ remove → i ≠ unchanged → σ'[i]? = σ[i]? := by
  intro l
  induction l with
  | nil =>
    intro σ σ' h
    simp only [storeDiffStringValueMapsLoop, Option.some.injEq] at h
    subst h
    exact ⟨rfl, fun _ _ _ _ => rfl⟩
  | cons e rest ih =>
    intro σ σ' h
    obtain ⟨k, v⟩ := e
    simp only [storeDiffStringValueMapsLoop] at h
    cases hstep : storeDiffStringValueMapsStep σ add remove unchanged k v with
    | none => simp [hstep] at h
    | some σ₁ =>
      simp only [hstep] at h
      have hf₁ := storeDiffStringValueMapsStep_frame _ _ _ _ _ _ _ hstep
      have hf₂ := ih _ _ h
      exact ⟨hf₂.1.trans hf₁.1,
        fun i ha hr hu => (hf₂.2 i ha hr hu).trans (hf₁.2 i ha hr hu)⟩

theorem storeDiffStringMapsStep_frame (σ σ' : Store) (add remove unchanged : Nat)
    (k : Str) (v : GoValue)
    (h : storeDiffStringMapsStep σ add remove unchanged k v = some σ') :
    σ'.length = σ.length ∧
      ∀ i, i ≠ add → i ≠ remove → i ≠ unchanged → σ'[i]? = σ[i]? := by
  unfold storeDiffStringMapsStep at h
  split at h
  · cases h
  · split at h
    · simp only at h
      split at h
      · have hf := Store.setPtr_frame _ _ _ _ _ h
        exact ⟨hf.1, fun i _ hr _ => hf.2 i hr⟩
      · split at h
        · split at h
          · cases h
          · rename_i σ₁ h₁
            have hf₁ := Store.setPtr_frame _ _ _ _ _ h₁
            have hf₂ := Store.deletePtr_frame _ _ _ _ h
            exact ⟨hf₂.1.trans hf₁.1,
              fun i ha _ hu => (hf₂.2 i ha).trans (hf₁.2 i hu)⟩
        · cases h
          exact ⟨rfl, fun _ _ _ _ => rfl⟩
    · cases h

theorem storeDiffStringMapsLoop_frame (add remove unchanged : Nat) :
    ∀ (l : List (Sigma fun _ : Str => GoValue)) (σ σ' : Store),
      storeDiffStringMapsLoop add remove unchanged l σ = some σ' →
      σ'.length = σ.length ∧
        ∀ i, i ≠ add → i ≠ remove → i ≠ unchanged → σ'[i]? = σ[i]? := by
  intro l
  induction l with
  | nil =>
    intro σ σ' h
    simp only [storeDiffStringMapsLoop, Option.some.injEq] at h
    subst h
    exact ⟨rfl, fun _ _ _ _ => rfl⟩
  | cons e rest ih =>
    intro σ σ' h
    obtain ⟨k, v⟩ := e
    simp only [storeDiffStringMapsLoop] at h
    cases hstep : storeDiffStringMapsStep σ add remove unchanged k v with
    | none => simp [hstep] at h
    | some σ₁ =>
      simp only [hstep] at h
      have hf₁ := storeDiffStringMapsStep_frame _ _ _ _ _ _ _ hstep
      have hf₂ := ih _ _ h
      exact ⟨hf₂.1.trans hf₁.1,
        fun i ha hr hu => (hf₂.2 i ha hr hu).trans (hf₁.2 i ha hr hu)⟩

theorem Store.lt_length_of_getElem? (σ : Store) (i : Nat) (o : MapObj)
    (h : σ[i]? = some o) : i < σ.length := by
  by_contra hlt
  rw [List.getElem?_eq_none (Nat.le_of_not_lt hlt)] at h
  cases h

theorem Store.alloc3_old (σ : Store) (x y z : MapObj) (i : Nat) (hi : i < σ.length) :
    (((σ.alloc x).1.alloc y).1.alloc z).1[i]? = σ[i]? := by
  simp only [Store.alloc]
  rw [List.getElem?_append_left (by simp; omega), List.getElem?_append_left (by simp; omega),
    List.getElem?_append_left hi]

theorem Store.alloc3_new (σ : Store) (x y z : MapObj) :
    (((σ.alloc x).1.alloc y).1.alloc z).1[σ.length]? = some x ∧
    (((σ.alloc x).1.alloc y).1.alloc z).1[σ.length + 1]? = some y ∧
    (((σ.alloc x).1.alloc y).1.alloc z).1[σ.length + 2]? = some z := by
  simp only [Store.alloc, List.append_assoc, List.singleton_append]
  refine ⟨?_, ?_, ?_⟩
  · rw [List.getElem?_append_right (Nat.le_refl _)]
    simp
  · rw [List.getElem?_append_right (by omega)]
    simp
  · rw [List.getElem?_append_right (by omega)]
    simp

theorem Store.alloc3_any (σ : Store) (x y z : MapObj) (o : Nat) (m : GoMap GoValue)
    (hx : ∀ m', x ≠ MapObj.ofAny m') (hy : ∀ m', y ≠ MapObj.ofAny m')
    (hz : ∀ m', z ≠ MapObj.ofAny m')
    (h : (((σ.alloc x).1.alloc y).1.alloc z).1[o]? = some (MapObj.ofAny m)) :
    o < σ.length := by
  by_contra hlt
  have hle : σ.length ≤ o := Nat.le_of_not_lt hlt
  simp only [Store.alloc, List.append_assoc, List.singleton_append] at h
  rw [List.getElem?_append_right hle] at h
  generalize o - σ.length = d at h
  match d, h with
  | 0, h =>
    simp at h
    exact hx m h
  | 1, h =>
    simp at h
    exact hy m h
  | 2, h =>
    simp at h
    exact hz m h
  | n + 3, h =>
    simp at h

theorem storeDiffStringValueMaps_frame (σ σ' : Store) (oldMap newMap add remove unchanged : Nat)
    (h : storeDiffStringValueMaps σ oldMap newMap = some (σ', add, remove, unchanged)) :
    oldMap < σ.length ∧ newMap < σ.length ∧ (∀ i, i < σ.length → σ'[i]? = σ[i]?) ∧
      add = σ.length ∧ remove = σ.length + 1 ∧ unchanged = σ.length + 2 := by
  unfold storeDiffStringValueMaps at h
  cases hexp : σ.expandStringValueMap newMap with
  | none => simp [hexp] at h
  | some p =>
    obtain ⟨σ₁, a⟩ := p
    simp only [hexp] at h
    unfold Store.expandStringValueMap at hexp
    split at hexp
    · rename_i newM hnew
      split at hexp
      · cases hexp
      · rename_i r hr
        simp only [Option.some.injEq, Prod.mk.injEq] at hexp
        obtain ⟨rfl, rfl⟩ := hexp
        split at h
        · rename_i oldM hold
          split at h
          · cases h
          · rename_i σ₄ hloop
            simp only [Option.some.injEq, Prod.mk.injEq] at h
            obtain ⟨rfl, rfl, rfl, rfl⟩ := h
            have hf := storeDiffStringValueMapsLoop_frame _ _ _ _ _ _ hloop
            refine ⟨Store.alloc3_any σ _ _ _ oldMap oldM (by simp) (by simp) (by simp) hold,
              Store.lt_length_of_getElem? σ newMap _ hnew, ?_, ?_, ?_, ?_⟩
            · intro i hi
              rw [hf.2 i (by simp [Store.alloc]; omega) (by simp [Store.alloc]; omega)
                (by simp [Store.alloc]; omega)]
              exact Store.alloc3_old σ _ _ _ i hi
            · simp [Store.alloc]
            · simp [Store.alloc]
            · simp [Store.alloc]
        · cases h
    · cases hexp

theorem storeDiffStringMaps_frame (σ σ' : Store) (oldMap newMap add remove unchanged : Nat)
    (h : storeDiffStringMaps σ oldMap newMap = some (σ', add, remove, unchanged)) :
    oldMap < σ.length ∧ newMap < σ.length ∧ (∀ i, i < σ.length → σ'[i]? = σ[i]?) ∧
      add = σ.length ∧ remove = σ.length + 1 ∧ unchanged = σ.length + 2 := by
  unfold storeDiffStringMaps at h
  cases hexp : σ.expandStringMap newMap with
  | none => simp [hexp] at h
  | some p =>
    obtain ⟨σ₁, a⟩ := p
    simp only [hexp] at h
    unfold Store.expandStringMap at hexp
    split at hexp
    · rename_i newM hnew
      split at hexp
      · cases hexp
      · rename_i r hr
        simp only [Option.some.injEq, Prod.mk.injEq] at hexp
        obtain ⟨rfl, rfl⟩ := hexp
        split at h
        · rename_i oldM hold
          split at h
          · cases h
          · rename_i σ₄ hloop
            simp only [Option.some.injEq, Prod.mk.injEq] at h
            obtain ⟨rfl, rfl, rfl, rfl⟩ := h
            have hf := storeDiffStringMapsLoop_frame _ _ _ _ _ _ hloop
            refine ⟨Store.alloc3_any σ _ _ _ oldMap oldM (by simp) (by simp) (by simp) hold,
              Store.lt_length_of_getElem? σ newMap _ hnew, ?_, ?_, ?_, ?_⟩
            · intro i hi
              rw [hf.2 i (by simp [Store.alloc]; omega) (by simp [Store.alloc]; omega)
                (by simp [Store.alloc]; omega)]
              exact Store.alloc3_old σ _ _ _ i hi
            · simp [Store.alloc]
            · simp [Store.alloc]
            · simp [Store.alloc]
        · cases h
    · cases hexp

/-! ## The differs on the store compute what the pure differs compute -/

theorem Store.getElem?_set_same (σ : Store) (m : Nat) (x o : MapObj) (h : σ[m]? = some x) :
    (σ.set m o)[m]? = some o :=
  List.getElem?_set_self (Store.lt_length_of_getElem? σ m x h)

theorem storeDiffStringValueMapsStep_sim (σ : Store) (a r u : Nat) (A R U : GoMap Str)
    (k : Str) (v : GoValue) (har : a ≠ r) (hau : a ≠ u) (hru : r ≠ u)
    (hA : σ[a]? = some (MapObj.ofString A)) (hR : σ[r]? = some (MapObj.ofString R))
    (hU : σ[u]? = some (MapObj.ofString U)) :
    (diffStringValueMapsStep (A, R, U) k v = none →
      storeDiffStringValueMapsStep σ a r u k v = none) ∧
    (∀ A' R' U', diffStringValueMapsStep (A, R, U) k v = some (A', R', U') →
      ∃ σ', storeDiffStringValueMapsStep σ a r u k v = some σ' ∧
        σ'[a]? = some (MapObj.ofString A') ∧ σ'[r]? = some (MapObj.ofString R') ∧
        σ'[u]? = some (MapObj.ofString U')) := by
  unfold diffStringValueMapsStep storeDiffStringValueMapsStep
  cases hv : v.assertString with
  | none => simp
  | some s =>
    simp only [hA]
    cases hl : A.lookup k with
    | none =>
      simp only [GoMap.index, hl, Bool.not_false, Bool.true_or, if_true, Store.setString, hR]
      refine ⟨fun h => Option.noConfusion h, ?_⟩
      intro A' R' U' h
      simp only [Option.some.injEq, Prod.mk.injEq] at h
      obtain ⟨rfl, rfl, rfl⟩ := h
      refine ⟨_, rfl, ?_, Store.getElem?_set_same σ r _ _ hR, ?_⟩
      · rw [List.getElem?_set_ne (Ne.symm har), hA]
      · rw [List.getElem?_set_ne hru, hU]
    | some old =>
      by_cases hov : old = s
      · subst hov
        simp only [GoMap.index, hl, Bool.not_true, Bool.false_or, ne_eq, not_true_eq_false,
          decide_False, Bool.false_eq_true, if_false, if_true, Store.setString, hU,
          Store.deleteString]
        have hA2 : (σ.set u (MapObj.ofString (U.insert k old)))[a]? =
            some (MapObj.ofString A) := by
          rw [List.getElem?_set_ne (Ne.symm hau), hA]
        simp only [hA2]
        refine ⟨fun h => Option.noConfusion h, ?_⟩
        intro A' R' U' h
        simp only [Option.some.injEq, Prod.mk.injEq] at h
        obtain ⟨rfl, rfl, rfl⟩ := h
        refine ⟨_, rfl, Store.getElem?_set_same _ a _ _ hA2, ?_, ?_⟩
        · rw [List.getElem?_set_ne har, List.getElem?_set_ne (Ne.symm hru), hR]
        · rw [List.getElem?_set_ne hau]
          exact Store.getElem?_set_same σ u _ _ hU
      · simp only [GoMap.index, hl, Bool.not_true, Bool.false_or, ne_eq, hov,
          not_false_eq_true, decide_True, if_true, Store.setString, hR]
        refine ⟨fun h => Option.noConfusion h, ?_⟩
        intro A' R' U' h
        simp only [Option.some.injEq, Prod.mk.injEq] at h
        obtain ⟨rfl, rfl, rfl⟩ := h
        refine ⟨_, rfl, ?_, Store.getElem?_set_same σ r _ _ hR, ?_⟩
        · rw [List.getElem?_set_ne (Ne.symm har), hA]
        · rw [List.getElem?_set_ne hru, hU]

theorem storeDiffStringValueMapsLoop_sim (a r u : Nat) (har : a ≠ r) (hau : a ≠ u)
    (hru : r ≠ u) :
    ∀ (l : List (Sigma fun _ : Str => GoValue)) (σ : Store) (A R U : GoMap Str),
      σ[a]? = some (MapObj.ofString A) → σ[r]? = some (MapObj.ofString R) →
      σ[u]? = some (MapObj.ofString U) →
      (diffStringValueMapsLoop l (A, R, U) = none →
        storeDiffStringValueMapsLoop a r u l σ = none) ∧
      (∀ A' R' U', diffStringValueMapsLoop l (A, R, U) = some (A', R', U') →
        ∃ σ', storeDiffStringValueMapsLoop a r u l σ = some σ' ∧
          σ'[a]? = some (MapObj.ofString A') ∧ σ'[r]? = some (MapObj.ofString R') ∧
          σ'[u]? = some (MapObj.ofString U')) := by
  intro l
  induction l with
  | nil =>
    intro σ A R U hA hR hU
    refine ⟨fun h => Option.noConfusion h, ?_⟩
    intro A' R' U' h
    simp only [diffStringValueMapsLoop, Option.some.injEq, Prod.mk.injEq] at h
    obtain ⟨rfl, rfl, rfl⟩ := h
    exact ⟨σ, rfl, hA, hR, hU⟩
  | cons e rest ih =>
    intro σ A R U hA hR hU
    obtain ⟨k, v⟩ := e
    have hsim := storeDiffStringValueMapsStep_sim σ a r u A R U k v har hau hru hA hR hU
    simp only [diffStringValueMapsLoop, storeDiffStringValueMapsLoop]
    cases hstep : diffStringValueMapsStep (A, R, U) k v with
    | none =>
      simp [hsim.1 hstep]
    | some st₁ =>
      obtain ⟨A₁, R₁, U₁⟩ := st₁
      obtain ⟨σ₁, hσ₁, hA₁, hR₁, hU₁⟩ := hsim.2 A₁ R₁ U₁ hstep
      simp only [hσ₁]
      exact ih σ₁ A₁ R₁ U₁ hA₁ hR₁ hU₁

/-- `DiffStringValueMaps` on the store panics when the pure function does, and otherwise
returns three new addresses that hold the maps the pure function returns. -/
theorem storeDiffStringValueMaps_sim (σ : Store) (oldMap newMap : Nat)
    (oldM newM : GoMap GoValue) (hold : σ[oldMap]? = some (MapObj.ofAny oldM))
    (hnew : σ[newMap]? = some (MapObj.ofAny newM)) :
    (DiffStringValueMaps oldM newM = none → storeDiffStringValueMaps σ oldMap newMap = none) ∧
    (∀ A R U, DiffStringValueMaps oldM newM = some (A, R, U) →
      ∃ σ', storeDiffStringValueMaps σ oldMap newMap =
          some (σ', σ.length, σ.length + 1, σ.length + 2) ∧
        σ'[σ.length]? = some (MapObj.ofString A) ∧
        σ'[σ.length + 1]? = some (MapObj.ofString R) ∧
        σ'[σ.length + 2]? = some (MapObj.ofString U)) := by
  unfold DiffStringValueMaps storeDiffStringValueMaps Store.expandStringValueMap
  simp only [hnew]
  cases hexp : ExpandStringValueMap newM with
  | none => simp
  | some add =>
    have hold₃ : (((σ.alloc (MapObj.ofString add)).1.alloc (MapObj.ofString ∅)).1.alloc
        (MapObj.ofString ∅)).1[oldMap]? = some (MapObj.ofAny oldM) := by
      rw [Store.alloc3_old σ _ _ _ oldMap (Store.lt_length_of_getElem? σ _ _ hold), hold]
    simp only [hold₃]
    have hsim := storeDiffStringValueMapsLoop_sim σ.length (σ.length + 1) (σ.length + 2)
      (by omega) (by omega) (by omega) oldM.entries
      (((σ.alloc (MapObj.ofString add)).1.alloc (MapObj.ofString ∅)).1.alloc
        (MapObj.ofString ∅)).1 add ∅ ∅
      (Store.alloc3_new σ _ _ _).1 (Store.alloc3_new σ _ _ _).2.1
      (Store.alloc3_new σ _ _ _).2.2
    have ha : (σ.alloc (MapObj.ofString add)).2 = σ.length := rfl
    have hr : ((σ.alloc (MapObj.ofString add)).1.alloc (MapObj.ofString ∅)).2 =
        σ.length + 1 := by simp [Store.alloc]
    have hu : (((σ.alloc (MapObj.ofString add)).1.alloc (MapObj.ofString ∅)).1.alloc
        (MapObj.ofString ∅)).2 = σ.length + 2 := by simp [Store.alloc]
    simp only [ha, hr, hu]
    constructor
    · intro h
      simp [hsim.1 h]
    · intro A R U h
      obtain ⟨σ', hσ', hcells⟩ := hsim.2 A R U h
      exact ⟨σ', by simp [hσ'], hcells⟩

theorem storeDiffStringMapsStep_sim (σ : Store) (a r u : Nat) (A R U : GoMap StringPtr)
    (k : Str) (v : GoValue) (har : a ≠ r) (hau : a ≠ u) (hru : r ≠ u)
    (hA : σ[a]? = some (MapObj.ofPtr A)) (hR : σ[r]? = some (MapObj.ofPtr R))
    (hU : σ[u]? = some (MapObj.ofPtr U)) :
    (diffStringMapsStep (A, R, U) k v = none →
      storeDiffStringMapsStep σ a r u k v = none) ∧
    (∀ A' R' U', diffStringMapsStep (A, R, U) k v = some (A', R', U') →
      ∃ σ', storeDiffStringMapsStep σ a r u k v = some σ' ∧
        σ'[a]? = some (MapObj.ofPtr A') ∧ σ'[r]? = some (MapObj.ofPtr R') ∧
        σ'[u]? = some (MapObj.ofPtr U')) := by
  unfold diffStringMapsStep storeDiffStringMapsStep
  cases hv : v.assertString with
  | none => simp
  | some s =>
    simp only [hA]
    cases hl : A.lookup k with
    | none =>
      simp only [GoMap.index, hl, Bool.not_false, Bool.true_or, if_true, Store.setPtr, hR]
      refine ⟨fun h => Option.noConfusion h, ?_⟩
      intro A' R' U' h
      simp only [Option.some.injEq, Prod.mk.injEq] at h
      obtain ⟨rfl, rfl, rfl⟩ := h
      refine ⟨_, rfl, ?_, Store.getElem?_set_same σ r _ _ hR, ?_⟩
      · rw [List.getElem?_set_ne (Ne.symm har), hA]
      · rw [List.getElem?_set_ne hru, hU]
    | some old =>
      by_cases hov : aws.StringValue old = s
      · simp only [GoMap.index, hl, Bool.not_true, Bool.false_or, ne_eq, hov,
          not_true_eq_false, decide_False, Bool.false_eq_true, if_false, if_true,
          Store.setPtr, hU, Store.deletePtr]
        have hA2 : (σ.set u (MapObj.ofPtr (U.insert k (aws.String s))))[a]? =
            some (MapObj.ofPtr A) := by
          rw [List.getElem?_set_ne (Ne.symm hau), hA]
        simp only [hA2]
        refine ⟨fun h => Option.noConfusion h, ?_⟩
        intro A' R' U' h
        simp only [Option.some.injEq, Prod.mk.injEq] at h
        obtain ⟨rfl, rfl, rfl⟩ := h
        refine ⟨_, rfl, Store.getElem?_set_same _ a _ _ hA2, ?_, ?_⟩
        · rw [List.getElem?_set_ne har, List.getElem?_set_ne (Ne.symm hru), hR]
        · rw [List.getElem?_set_ne hau]
          exact Store.getElem?_set_same σ u _ _ hU
      · simp only [GoMap.index, hl, Bool.not_true, Bool.false_or, ne_eq, hov,
          not_false_eq_true, decide_True, if_true, Store.setPtr, hR]
        refine ⟨fun h => Option.noConfusion h, ?_⟩
        intro A' R' U' h
        simp only [Option.some.injEq, Prod.mk.injEq] at h
        obtain ⟨rfl, rfl, rfl⟩ := h
        refine ⟨_, rfl, ?_, Store.getElem?_set_same σ r _ _ hR, ?_⟩
        · rw [List.getElem?_set_ne (Ne.symm har), hA]
        · rw [List.getElem?_set_ne hru, hU]

theorem storeDiffStringMapsLoop_sim (a r u : Nat) (har : a ≠ r) (hau : a ≠ u)
    (hru : r ≠ u) :
    ∀ (l : List (Sigma fun _ : Str => GoValue)) (σ : Store) (A R U : GoMap StringPtr),
      σ[a]? = some (MapObj.ofPtr A) → σ[r]? = some (MapObj.ofPtr R) →
      σ[u]? = some (MapObj.ofPtr U) →
      (diffStringMapsLoop l (A, R, U) = none →
        storeDiffStringMapsLoop a r u l σ = none) ∧
      (∀ A' R' U', diffStringMapsLoop l (A, R, U) = some (A', R', U') →
        ∃ σ', storeDiffStringMapsLoop a r u l σ = some σ' ∧
          σ'[a]? = some (MapObj.ofPtr A') ∧ σ'[r]? = some (MapObj.ofPtr R') ∧
          σ'[u]? = some (MapObj.ofPtr U')) := by
  intro l
  induction l with
  | nil =>
    intro σ A R U hA hR hU
    refine ⟨fun h => Option.noConfusion h, ?_⟩
    intro A' R' U' h
    simp only [diffStringMapsLoop, Option.some.injEq, Prod.mk.injEq] at h
    obtain ⟨rfl, rfl, rfl⟩ := h
    exact ⟨σ, rfl, hA, hR, hU⟩
  | cons e rest ih =>
    intro σ A R U hA hR hU
    obtain ⟨k, v⟩ := e
    have hsim := storeDiffStringMapsStep_sim σ a r u A R U k v har hau hru hA hR hU
    simp only [diffStringMapsLoop, storeDiffStringMapsLoop]
    cases hstep : diffStringMapsStep (A, R, U) k v with
    | none =>
      simp [hsim.1 hstep]
    | some st₁ =>
      obtain ⟨A₁, R₁, U₁⟩ := st₁
      obtain ⟨σ₁, hσ₁, hA₁, hR₁, hU₁⟩ := hsim.2 A₁ R₁ U₁ hstep
      simp only [hσ₁]
      exact ih σ₁ A₁ R₁ U₁ hA₁ hR₁ hU₁

/-- `DiffStringMaps` on the store panics when the pure function does, and otherwise returns
three new addresses that hold the maps the pure function returns. -/
theorem storeDiffStringMaps_sim (σ : Store) (oldMap newMap : Nat)
    (oldM newM : GoMap GoValue) (hold : σ[oldMap]? = some (MapObj.ofAny oldM))
    (hnew : σ[newMap]? = some (MapObj.ofAny newM)) :
    (DiffStringMaps oldM newM = none → storeDiffStringMaps σ oldMap newMap = none) ∧
    (∀ A R U, DiffStringMaps oldM newM = some (A, R, U) →
      ∃ σ', storeDiffStringMaps σ oldMap newMap =
          some (σ', σ.length, σ.length + 1, σ.length + 2) ∧
        σ'[σ.length]? = some (MapObj.ofPtr A) ∧
        σ'[σ.length + 1]? = some (MapObj.ofPtr R) ∧
        σ'[σ.length + 2]? = some (MapObj.ofPtr U)) := by
  unfold DiffStringMaps storeDiffStringMaps Store.expandStringMap
  simp only [hnew]
  cases hexp : ExpandStringMap newM with
  | none => simp
  | some add =>
    have hold₃ : (((σ.alloc (MapObj.ofPtr add)).1.alloc (MapObj.ofPtr ∅)).1.alloc
        (MapObj.ofPtr ∅)).1[oldMap]? = some (MapObj.ofAny oldM) := by
      rw [Store.alloc3_old σ _ _ _ oldMap (Store.lt_length_of_getElem? σ _ _ hold), hold]
    simp only [hold₃]
    have hsim := storeDiffStringMapsLoop_sim σ.length (σ.length + 1) (σ.length + 2)
      (by omega) (by omega) (by omega) oldM.entries
      (((σ.alloc (MapObj.ofPtr add)).1.alloc (MapObj.ofPtr ∅)).1.alloc
        (MapObj.ofPtr ∅)).1 add ∅ ∅
      (Store.alloc3_new σ _ _ _).1 (Store.alloc3_new σ _ _ _).2.1
      (Store.alloc3_new σ _ _ _).2.2
    have ha : (σ.alloc (MapObj.ofPtr add)).2 = σ.length := rfl
    have hr : ((σ.alloc (MapObj.ofPtr add)).1.alloc (MapObj.ofPtr ∅)).2 =
        σ.length + 1 := by simp [Store.alloc]
    have hu : (((σ.alloc (MapObj.ofPtr add)).1.alloc (MapObj.ofPtr ∅)).1.alloc
        (MapObj.ofPtr ∅)).2 = σ.length + 2 := by simp [Store.alloc]
    simp only [ha, hr, hu]
    constructor
    · intro h
      simp [hsim.1 h]
    · intro A R U h
      obtain ⟨σ', hσ', hcells⟩ := hsim.2 A R U h
      exact ⟨σ', by simp [hσ'], hcells⟩

/-- C13: `DiffStringMaps` and `DiffStringValueMaps` do not mutate their inputs.  On a store
in which `oldMap` and `newMap` are the addresses of two `map[string]interface{}` objects,
whenever the differ returns (and it returns whenever the pure function does, at three new
addresses holding the same three results), the objects at `oldMap`, at `newMap` and at every
other address that existed before the call are exactly what they were: all writes, the
deletions of unchanged keys included, go to the three new maps. -/
theorem differs_do_not_mutate_inputs (σ : Store) (oldMap newMap : Nat)
    (oldM newM : GoMap GoValue) (hold : σ[oldMap]? = some (MapObj.ofAny oldM))
    (hnew : σ[newMap]? = some (MapObj.ofAny newM)) :
    (∀ σ' add remove unchanged,
      storeDiffStringValueMaps σ oldMap newMap = some (σ', add, remove, unchanged) →
      σ'[oldMap]? = some (MapObj.ofAny oldM) ∧ σ'[newMap]? = some (MapObj.ofAny newM) ∧
      (∀ i, i < σ.length → σ'[i]? = σ[i]?) ∧
      σ.length ≤ add ∧ σ.length ≤ remove ∧ σ.length ≤ unchanged) ∧
    (∀ A R U, DiffStringValueMaps oldM newM = some (A, R, U) →
      ∃ σ' add remove unchanged,
        storeDiffStringValueMaps σ oldMap newMap = some (σ', add, remove, unchanged) ∧
        σ'[add]? = some (MapObj.ofString A) ∧ σ'[remove]? = some (MapObj.ofString R) ∧
        σ'[unchanged]? = some (MapObj.ofString U)) ∧
    (∀ σ' add remove unchanged,
      storeDiffStringMaps σ oldMap newMap = some (σ', add, remove, unchanged) →
      σ'[oldMap]? = some (MapObj.ofAny oldM) ∧ σ'[newMap]? = some (MapObj.ofAny newM) ∧
      (∀ i, i < σ.length → σ'[i]? = σ[i]?) ∧
      σ.length ≤ add ∧ σ.length ≤ remove ∧ σ.length ≤ unchanged) ∧
    (∀ A R U, DiffStringMaps oldM newM = some (A, R, U) →
      ∃ σ' add remove unchanged,
        storeDiffStringMaps σ oldMap newMap = some (σ', add, remove, unchanged) ∧
        σ'[add]? = some (MapObj.ofPtr A) ∧ σ'[remove]? = some (MapObj.ofPtr R) ∧
        σ'[unchanged]? = some (MapObj.ofPtr U)) := by
  refine ⟨?_, ?_, ?_, ?_⟩
  · intro σ' add remove unchanged h
    obtain ⟨ho, hn, hframe, ha, hr, hu⟩ := storeDiffStringValueMaps_frame _ _ _ _ _ _ _ h
    exact ⟨(hframe oldMap ho).trans hold, (hframe newMap hn).trans hnew, hframe,
      by omega, by omega, by omega⟩
  · intro A R U h
    obtain ⟨σ', hσ', hcells⟩ := (storeDiffStringValueMaps_sim σ oldMap newMap oldM newM
      hold hnew).2 A R U h
    exact ⟨σ', _, _, _, hσ', hcells⟩
  · intro σ' add remove unchanged h
    obtain ⟨ho, hn, hframe, ha, hr, hu⟩ := storeDiffStringMaps_frame _ _ _ _ _ _ _ h
    exact ⟨(hframe oldMap ho).trans hold, (hframe newMap hn).trans hnew, hframe,
      by omega, by omega, by omega⟩
  · intro A R U h
    obtain ⟨σ', hσ', hcells⟩ := (storeDiffStringMaps_sim σ oldMap newMap oldM newM
      hold hnew).2 A R U h
    exact ⟨σ', _, _, _, hσ', hcells⟩

/-- Witness of `differs_do_not_mutate_inputs`: in a store that holds old `{"x":"1","y":"2"}`
at address 0 and new `{"y":"2","z":"3"}` at address 1, both differs return (the key `"y"`
is deleted from add), and afterwards the addresses 0 and 1 still hold old and new. -/
theorem differs_do_not_mutate_inputs_witness :
    (∃ σ' add remove unchanged,
      storeDiffStringValueMaps
        [MapObj.ofAny
            (GoMap.ofList [("x".toList, "1".toList), ("y".toList, "2".toList)]).toAny,
          MapObj.ofAny
            (GoMap.ofList [("y".toList, "2".toList), ("z".toList, "3".toList)]).toAny]
        0 1 = some (σ', add, remove, unchanged) ∧
      σ'[0]? = some (MapObj.ofAny
        (GoMap.ofList [("x".toList, "1".toList), ("y".toList, "2".toList)]).toAny) ∧
      σ'[1]? = some (MapObj.ofAny
        (GoMap.ofList [("y".toList, "2".toList), ("z".toList, "3".toList)]).toAny) ∧
      σ'[add]? = some (MapObj.ofString (GoMap.ofList [("z".toList, "3".toList)]))) ∧
    (∃ σ' add remove unchanged,
      storeDiffStringMaps
        [MapObj.ofAny
            (GoMap.ofList [("x".toList, "1".toList), ("y".toList, "2".toList)]).toAny,
          MapObj.ofAny
            (GoMap.ofList [("y".toList, "2".toList), ("z".toList, "3".toList)]).toAny]
        0 1 = some (σ', add, remove, unchanged) ∧
      σ'[0]? = some (MapObj.ofAny
        (GoMap.ofList [("x".toList, "1".toList), ("y".toList, "2".toList)]).toAny) ∧
      σ'[1]? = some (MapObj.ofAny
        (GoMap.ofList [("y".toList, "2".toList), ("z".toList, "3".toList)]).toAny) ∧
      σ'[add]? = some (MapObj.ofPtr (GoMap.ofList [("z".toList, some "3".toList)]))) := by
  have h := differs_do_not_mutate_inputs
    [MapObj.ofAny (GoMap.ofList [("x".toList, "1".toList), ("y".toList, "2".toList)]).toAny,
      MapObj.ofAny (GoMap.ofList [("y".toList, "2".toList), ("z".toList, "3".toList)]).toAny]
    0 1 (GoMap.ofList [("x".toList, "1".toList), ("y".toList, "2".toList)]).toAny
    (GoMap.ofList [("y".toList, "2".toList), ("z".toList, "3".toList)]).toAny rfl rfl
  obtain ⟨h1, h2, h3, h4⟩ := h
  constructor
  · obtain ⟨σ', a, r, u, hσ', ha, _, _⟩ := h2 (GoMap.ofList [("z".toList, "3".toList)])
      (GoMap.ofList [("x".toList, "1".toList)]) (GoMap.ofList [("y".toList, "2".toList)])
      (by rfl)
    have hf := h1 σ' a r u hσ'
    exact ⟨σ', a, r, u, hσ', hf.1, hf.2.1, ha⟩
  · obtain ⟨σ', a, r, u, hσ', ha, _, _⟩ := h4 (GoMap.ofList [("z".toList, some "3".toList)])
      (GoMap.ofList [("x".toList, some "1".toList)])
      (GoMap.ofList [("y".toList, some "2".toList)]) (by rfl)
    have hf := h3 σ' a r u hσ'
    exact ⟨σ', a, r, u, hσ', hf.1, hf.2.1, ha⟩

/-! ## Part count -/

/-- C14: for every string `id`, `ResourceIdPartCount(id)` is the number of parts of `id`
separated by `","`, that is one more than the number of commas in `id` (so it is at least 1,
also for the empty string), and `ExpandResourceId(id, n, true)` succeeds exactly when
`n == ResourceIdPartCount(id)` and `n > 1`. -/
theorem ResourceIdPartCount_spec (id : Str) (n : Int) :
    ResourceIdPartCount id = ((Split id [',']).length : Int) ∧
    ResourceIdPartCount id = (id.count ',' : Int) + 1 ∧
    1 ≤ ResourceIdPartCount id ∧
    ResourceIdPartCount [] = 1 ∧
    ((∃ parts, ExpandResourceId id n true = .ok parts) ↔
      (n = ResourceIdPartCount id ∧ 1 < n)) := by
  have hcount : ResourceIdPartCount id = (id.count ',' : Int) + 1 := by
    simp only [ResourceIdPartCount, ResourceIdSeparator]
    rw [Split_sep, cutAt_length]
    push_cast
    rfl
  refine ⟨rfl, hcount, by rw [hcount]; omega, by decide, ?_⟩
  rw [ExpandResourceId_eq]
  have hlen : ((Split id ResourceIdSeparator).length : Int) = ResourceIdPartCount id := rfl
  rw [hlen]
  by_cases h1 : ResourceIdPartCount id ≤ 1
  · simp only [if_pos h1]
    constructor
    · rintro ⟨parts, h⟩
      cases h
    · rintro ⟨rfl, h2⟩
      omega
  · by_cases h2 : ResourceIdPartCount id ≠ n
    · simp only [if_neg h1, if_pos h2]
      constructor
      · rintro ⟨parts, h⟩
        cases h
      · rintro ⟨rfl, _⟩
        exact absurd rfl h2
    · have h3 : ResourceIdPartCount id = n := not_not.mp h2
      simp only [if_neg h1, if_neg h2]
      have h4 : ¬ ((true : Bool) = false ∧ [] ∈ Split id ResourceIdSeparator) := by simp
      rw [if_neg h4]
      constructor
      · intro _
        exact ⟨h3.symm, by omega⟩
      · intro _
        exact ⟨_, rfl⟩

/-! ## Lists of configured values: claims -/

theorem expandStringyValueListLoop_eq : ∀ (l : List GoValue) (vs : List Str),
    expandStringyValueListLoop l vs =
      vs ++ (l.filter GoValue.isNonEmptyString).map GoValue.stringOrEmpty := by
  intro l
  induction l with
  | nil => intro vs; simp [expandStringyValueListLoop]
  | cons v rest ih =>
    intro vs
    cases v with
    | string s =>
      cases s with
      | nil =>
        simp [expandStringyValueListLoop, GoValue.checkString, GoValue.isNonEmptyString, ih]
      | cons c t =>
        simp [expandStringyValueListLoop, GoValue.checkString, GoValue.isNonEmptyString,
          GoValue.stringOrEmpty, ih]
    | nil => simp [expandStringyValueListLoop, GoValue.checkString,
        GoValue.isNonEmptyString, ih]
    | int n => simp [expandStringyValueListLoop, GoValue.checkString,
        GoValue.isNonEmptyString, ih]
    | bool b => simp [expandStringyValueListLoop, GoValue.checkString,
        GoValue.isNonEmptyString, ih]

theorem expandStringListLoop_eq : ∀ (l : List GoValue) (vs : List StringPtr),
    expandStringListLoop l vs =
      vs ++ (l.filter GoValue.isNonEmptyString).map (fun v => some v.stringOrEmpty) := by
  intro l
  induction l with
  | nil => intro vs; simp [expandStringListLoop]
  | cons v rest ih =>
    intro vs
    cases v with
    | string s =>
      cases s with
      | nil =>
        simp [expandStringListLoop, GoValue.checkString, GoValue.isNonEmptyString, ih]
      | cons c t =>
        simp [expandStringListLoop, GoValue.checkString, GoValue.isNonEmptyString,
          GoValue.stringOrEmpty, aws.String, ih]
    | nil => simp [expandStringListLoop, GoValue.checkString,
        GoValue.isNonEmptyString, ih]
    | int n => simp [expandStringListLoop, GoValue.checkString,
        GoValue.isNonEmptyString, ih]
    | bool b => simp [expandStringListLoop, GoValue.checkString,
        GoValue.isNonEmptyString, ih]

theorem string_stringOrEmpty_of_isNonEmptyString (v : GoValue)
    (h : v.isNonEmptyString = true) :
    GoValue.string v.stringOrEmpty = v ∧ v.stringOrEmpty ≠ [] := by
  cases v with
  | string s =>
    refine ⟨rfl, ?_⟩
    intro hs
    simp only [GoValue.stringOrEmpty] at hs
    subst hs
    simp [GoValue.isNonEmptyString] at h
  | nil => simp [GoValue.isNonEmptyString] at h
  | int n => simp [GoValue.isNonEmptyString] at h
  | bool b => simp [GoValue.isNonEmptyString] at h

theorem map_string_filter (l : List GoValue) :
    ((l.filter GoValue.isNonEmptyString).map GoValue.stringOrEmpty).map GoValue.string =
      l.filter GoValue.isNonEmptyString := by
  rw [List.map_map]
  conv_rhs => rw [← List.map_id (l.filter GoValue.isNonEmptyString)]
  apply List.map_congr_left
  intro v hv
  exact (string_stringOrEmpty_of_isNonEmptyString v (List.mem_filter.mp hv).2).1

/-- C15: `ExpandStringList` and `ExpandStringValueList` skip empty strings.  For every input
list the result is exactly the sequence, in input order, of the elements that are non-empty
strings (nil and values of other types are skipped as well); `ExpandStringList` returns
pointers to these strings.  So the result is never longer than the input and contains no
empty string. -/
theorem ExpandStringList_skips_empty (configured : List GoValue) :
    (ExpandStringValueList configured).map GoValue.string =
      configured.filter GoValue.isNonEmptyString ∧
    ExpandStringList configured = (ExpandStringValueList configured).map aws.String ∧
    (ExpandStringValueList configured).length ≤ configured.length ∧
    (ExpandStringList configured).length ≤ configured.length ∧
    [] ∉ ExpandStringValueList configured ∧
    aws.String [] ∉ ExpandStringList configured ∧
    none ∉ ExpandStringList configured := by
  have hv : ExpandStringValueList configured =
      (configured.filter GoValue.isNonEmptyString).map GoValue.stringOrEmpty := by
    simp [ExpandStringValueList, ExpandStringyValueList, expandStringyValueListLoop_eq]
  have hp : ExpandStringList configured =
      (configured.filter GoValue.isNonEmptyString).map (fun v => some v.stringOrEmpty) := by
    simp [ExpandStringList, expandStringListLoop_eq]
  have hempty : [] ∉ ExpandStringValueList configured := by
    rw [hv]
    intro hmem
    obtain ⟨v, hvmem, hve⟩ := List.mem_map.mp hmem
    exact (string_stringOrEmpty_of_isNonEmptyString v (List.mem_filter.mp hvmem).2).2 hve
  have hpv : ExpandStringList configured = (ExpandStringValueList configured).map aws.String := by
    rw [hp, hv, List.map_map]
    rfl
  refine ⟨?_, hpv, ?_, ?_, hempty, ?_, ?_⟩
  · rw [hv]
    exact map_string_filter configured
  · rw [hv, List.length_map]
    exact List.length_filter_le _ _
  · rw [hp, List.length_map]
    exact List.length_filter_le _ _
  · rw [hpv]
    intro hmem
    obtain ⟨s, hs, hse⟩ := List.mem_map.mp hmem
    simp only [aws.String, Option.some.injEq] at hse
    exact hempty (hse ▸ hs)
  · rw [hpv]
    intro hmem
    obtain ⟨s, _, hse⟩ := List.mem_map.mp hmem
    simp [aws.String] at hse

theorem expandStringyValueListEmptyLoop_eq : ∀ (l : List GoValue) (vs : List Str),
    expandStringyValueListEmptyLoop l vs = vs ++ l.map GoValue.stringOrEmpty := by
  intro l
  induction l with
  | nil => intro vs; simp [expandStringyValueListEmptyLoop]
  | cons v rest ih =>
    intro vs
    cases v <;>
      simp [expandStringyValueListEmptyLoop, GoValue.checkString, GoValue.stringOrEmpty, ih]

theorem expandStringListEmptyLoop_eq : ∀ (l : List GoValue) (vs : List StringPtr),
    expandStringListEmptyLoop l vs = vs ++ l.map (fun v => aws.String v.stringOrEmpty) := by
  intro l
  induction l with
  | nil => intro vs; simp [expandStringListEmptyLoop]
  | cons v rest ih =>
    intro vs
    cases v <;>
      simp [expandStringListEmptyLoop, GoValue.checkString, GoValue.stringOrEmpty, ih]

/-- C16: `ExpandStringListEmpty` and `ExpandStringValueListEmpty` add an empty element for
every nil or uncastable input.  For every input list the result has the same length as the
input, and its i-th element is (a pointer to) the i-th input when that is a string, and (a
pointer to) the empty string otherwise. -/
theorem ExpandStringListEmpty_spec (configured : List GoValue) :
    (ExpandStringValueListEmpty configured).length = configured.length ∧
    (ExpandStringListEmpty configured).length = configured.length ∧
    (∀ (i : Nat) (s : Str), configured[i]? = some (GoValue.string s) →
      (ExpandStringValueListEmpty configured)[i]? = some s ∧
      (ExpandStringListEmpty configured)[i]? = some (aws.String s)) ∧
    (∀ (i : Nat) (v : GoValue), configured[i]? = some v → (∀ s, v ≠ GoValue.string s) →
      (ExpandStringValueListEmpty configured)[i]? = some [] ∧
      (ExpandStringListEmpty configured)[i]? = some (aws.String [])) := by
  have hv : ExpandStringValueListEmpty configured = configured.map GoValue.stringOrEmpty := by
    simp [ExpandStringValueListEmpty, ExpandStringyValueListEmpty,
      expandStringyValueListEmptyLoop_eq]
  have hp : ExpandStringListEmpty configured =
      configured.map (fun v => aws.String v.stringOrEmpty) := by
    simp [ExpandStringListEmpty, expandStringListEmptyLoop_eq]
  refine ⟨by rw [hv, List.length_map], by rw [hp, List.length_map], ?_, ?_⟩
  · intro i s hi
    rw [hv, hp, List.getElem?_map, List.getElem?_map, hi]
    exact ⟨rfl, rfl⟩
  · intro i v hi hns
    rw [hv, hp, List.getElem?_map, List.getElem?_map, hi]
    cases v with
    | string s => exact absurd rfl (hns s)
    | nil => exact ⟨rfl, rfl⟩
    | int n => exact ⟨rfl, rfl⟩
    | bool b => exact ⟨rfl, rfl⟩

/-- Witness of `ExpandStringListEmpty_spec`: in `["a", nil, 3]` position 0 holds the string
`"a"` and position 1 holds nil, so the result holds `"a"` at 0 and `""` at 1. -/
theorem ExpandStringListEmpty_spec_witness :
    ((ExpandStringValueListEmpty
        [GoValue.string "a".toList, GoValue.nil, GoValue.int 3])[0]? = some "a".toList ∧
      (ExpandStringListEmpty
        [GoValue.string "a".toList, GoValue.nil, GoValue.int 3])[0]? =
          some (aws.String "a".toList)) ∧
    ((ExpandStringValueListEmpty
        [GoValue.string "a".toList, GoValue.nil, GoValue.int 3])[1]? = some [] ∧
      (ExpandStringListEmpty
        [GoValue.string "a".toList, GoValue.nil, GoValue.int 3])[1]? =
          some (aws.String [])) :=
  ⟨(ExpandStringListEmpty_spec [GoValue.string "a".toList, GoValue.nil, GoValue.int 3]).2.2.1
      0 "a".toList rfl,
    (ExpandStringListEmpty_spec [GoValue.string "a".toList, GoValue.nil, GoValue.int 3]).2.2.2
      1 GoValue.nil rfl (fun _ h => GoValue.noConfusion h)⟩

/-! ## Scalar conversions: claims -/

/-- C17: `StringToBoolValue` converts only the string "true" to true: for every string
pointer `v`, `StringToBoolValue(v)` is true exactly when `v` is non-nil and points to the
exact string `"true"`; nil, `""`, `"TRUE"`, `"1"` and `"false"` give false. -/
theorem StringToBoolValue_true_iff (v : StringPtr) :
    (StringToBoolValue v = true ↔ v = some "true".toList) ∧
    StringToBoolValue none = false ∧
    StringToBoolValue (some []) = false ∧
    StringToBoolValue (some "TRUE".toList) = false ∧
    StringToBoolValue (some "1".toList) = false ∧
    StringToBoolValue (some "false".toList) = false := by
  refine ⟨?_, by decide, by decide, by decide, by decide, by decide⟩
  cases v with
  | none =>
    constructor
    · intro h
      exact absurd h (by decide)
    · intro h
      cases h
  | some s =>
    simp only [StringToBoolValue, aws.StringValue, Option.getD, FormatBool, if_true,
      decide_eq_true_eq, Option.some.injEq]

/-- C18, at the failing input: for the digit string `"9223372036854775808"` (one more than
the largest `int`) `strconv.Atoi` reports a range error together with the largest `int`, and
`StringToIntValue`, which drops the error, returns `9223372036854775807`, not `0`; likewise
`-9223372036854775808` for `"-9223372036854775809"`. -/
theorem StringToIntValue_out_of_range :
    (Atoi "9223372036854775808".toList).2 = some NumError.errRange ∧
    StringToIntValue (some "9223372036854775808".toList) = 9223372036854775807 ∧
    (Atoi "-9223372036854775809".toList).2 = some NumError.errRange ∧
    StringToIntValue (some "-9223372036854775809".toList) = -9223372036854775808 := by
  refine ⟨by decide, by decide, by decide, by decide⟩

/-- C19, at the failing input: for the digit string `"9223372036854775808"`
`strconv.ParseInt(v, 0, 64)` reports a range error together with the largest `int64`, and
`StringValueToInt64Value` (and with it `StringValueToInt64`), which drops the error, returns
`9223372036854775807`, not `0`. -/
theorem StringValueToInt64Value_out_of_range :
    (ParseInt "9223372036854775808".toList 0 64).2 = some NumError.errRange ∧
    StringValueToInt64Value "9223372036854775808".toList = 9223372036854775807 ∧
    StringValueToInt64 "9223372036854775808".toList = some 9223372036854775807 := by
  refine ⟨by decide, by decide, by decide⟩

/-- C20, at the failing input: for the list that holds one pointer to `1.5`,
`FlattenFloat64List` returns the list that holds the `int` `1`: every element is converted
with `int(...)`, which discards the fraction. -/
theorem FlattenFloat64List_truncates :
    FlattenFloat64List [some (Float64.finite 3 (-1))] = [GoValue.int 1] := by
  decide

/-- What does hold of `strconv.ParseInt` when the error is dropped: with every error other
than a range error the value is `0`. -/
theorem ParseInt_zero_of_error (s : Str) (base bitSize : Nat) (e : NumError)
    (h : (ParseInt s base bitSize).2 = some e) (he : e ≠ NumError.errRange) :
    (ParseInt s base bitSize).1 = 0 := by
  unfold ParseInt at h ⊢
  simp only at h ⊢
  split_ifs at h ⊢
  all_goals first
    | rfl
    | (simp only [Option.some.injEq] at h; exact absurd h.symm he)

/-- What does hold of `strconv.Atoi` when the error is dropped: with every error other than
a range error the value is `0`. -/
theorem Atoi_zero_of_error (s : Str) (e : NumError)
    (h : (Atoi s).2 = some e) (he : e ≠ NumError.errRange) : (Atoi s).1 = 0 := by
  unfold Atoi at h ⊢
  by_cases hfast : 0 < byteLen s ∧ byteLen s < 19
  · rw [if_pos hfast] at h ⊢
    simp only at h ⊢
    split
    · rfl
    · rename_i digits hb
      simp only [hb] at h
      split
      · rfl
      · rename_i n hn
        simp only [hn] at h
        cases h
  · rw [if_neg hfast] at h ⊢
    exact ParseInt_zero_of_error s 10 0 e h he

/-! ## Sets: claims -/

theorem mapSetKey_any {T : Type} [GoComparable T] (hlaw : GoComparable.Lawful T)
    (m : List T) (w : T) (hw : GoComparable.hashable w = true) :
    ∃ m₁, mapSetKey m w = some m₁ ∧
      ∀ v, m₁.any (fun k => GoComparable.eq k v) =
        (m.any (fun k => GoComparable.eq k v) || GoComparable.eq w v) := by
  by_cases hin : m.any (fun k => GoComparable.eq k w) = true
  · refine ⟨m, by simp [mapSetKey, hw, hin], ?_⟩
    intro v
    cases hwv : GoComparable.eq w v with
    | false => simp
    | true =>
      obtain ⟨k, hk, hkw⟩ := List.any_eq_true.mp hin
      have hkv : GoComparable.eq k v = true := hlaw.2 k w v hkw hwv
      have : m.any (fun k => GoComparable.eq k v) = true :=
        List.any_eq_true.mpr ⟨k, hk, hkv⟩
      simp [this]
  · refine ⟨m ++ [w], by simp [mapSetKey, hw, hin], ?_⟩
    intro v
    simp [List.any_append]

theorem memberMapLoop_spec {T : Type} [GoComparable T] (hlaw : GoComparable.Lawful T) :
    ∀ (ns m : List T), (∀ v ∈ ns, GoComparable.hashable v = true) →
      ∃ m', memberMapLoop ns m = some m' ∧
        ∀ v, m'.any (fun k => GoComparable.eq k v) =
          (m.any (fun k => GoComparable.eq k v) ||
            ns.any (fun k => GoComparable.eq k v)) := by
  intro ns
  induction ns with
  | nil =>
    intro m _
    exact ⟨m, rfl, fun v => by simp⟩
  | cons w rest ih =>
    intro m hall
    obtain ⟨m₁, hm₁, hany₁⟩ := mapSetKey_any hlaw m w (hall w (by simp))
    obtain ⟨m', hm', hany'⟩ := ih m₁ (fun v hv => hall v (List.mem_cons_of_mem _ hv))
    refine ⟨m', by simp [memberMapLoop, hm₁, hm'], ?_⟩
    intro v
    rw [hany' v, hany₁ v, List.any_cons, Bool.or_assoc]

theorem memberMapLoop_none {T : Type} [GoComparable T] :
    ∀ (ns m : List T), (∃ v ∈ ns, GoComparable.hashable v = false) →
      memberMapLoop ns m = none := by
  intro ns
  induction ns with
  | nil =>
    rintro m ⟨v, hv, _⟩
    simp at hv
  | cons w rest ih =>
    rintro m ⟨v, hv, hh⟩
    by_cases hw : GoComparable.hashable w = true
    · have hv' : v ∈ rest := by
        rcases List.mem_cons.mp hv with rfl | h
        · rw [hw] at hh
          cases hh
        · exact h
      simp only [memberMapLoop, mapSetKey, hw, if_true]
      exact ih _ ⟨v, hv', hh⟩
    · simp [memberMapLoop, mapSetKey, hw]

theorem differenceLoop_spec {T : Type} [GoComparable T] (m : List T) :
    ∀ (s result : List T), (∀ v ∈ s, GoComparable.hashable v = true) →
      differenceLoop m s result =
        some (result ++ s.filter (fun v => !m.any (fun k => GoComparable.eq k v))) := by
  intro s
  induction s with
  | nil => intro result _; simp [differenceLoop]
  | cons w rest ih =>
    intro result hall
    have hw := hall w (by simp)
    have hrest : ∀ v ∈ rest, GoComparable.hashable v = true :=
      fun v hv => hall v (List.mem_cons_of_mem _ hv)
    cases hin : m.any (fun k => GoComparable.eq k w) with
    | true => simp [differenceLoop, mapHasKey, hw, hin, ih _ hrest]
    | false => simp [differenceLoop, mapHasKey, hw, hin, ih _ hrest]

theorem differenceLoop_none {T : Type} [GoComparable T] (m : List T) :
    ∀ (s result : List T), (∃ v ∈ s, GoComparable.hashable v = false) →
      differenceLoop m s result = none := by
  intro s
  induction s with
  | nil =>
    rintro result ⟨v, hv, _⟩
    simp at hv
  | cons w rest ih =>
    rintro result ⟨v, hv, hh⟩
    by_cases hw : GoComparable.hashable w = true
    · have hv' : v ∈ rest := by
        rcases List.mem_cons.mp hv with rfl | h
        · rw [hw] at hh
          cases hh
        · exact h
      cases hin : m.any (fun k => GoComparable.eq k w) with
      | true => simp [differenceLoop, mapHasKey, hw, hin, ih _ ⟨v, hv', hh⟩]
      | false => simp [differenceLoop, mapHasKey, hw, hin, ih _ ⟨v, hv', hh⟩]
    · simp [differenceLoop, mapHasKey, hw]

theorem Set.Difference_eq {T : Type} [GoComparable T] (hlaw : GoComparable.Lawful T)
    (s ns : Set T) (hns : ∀ v ∈ ns, GoComparable.hashable v = true)
    (hs : ∀ v ∈ s, GoComparable.hashable v = true) :
    s.Difference ns =
      some (s.filter (fun v => !ns.any (fun w => GoComparable.eq w v))) := by
  obtain ⟨m, hm, hany⟩ := memberMapLoop_spec hlaw ns [] hns
  simp only [Set.Difference, hm]
  rw [differenceLoop_spec m s [] hs]
  simp [hany]

theorem Set.Difference_none {T : Type} [GoComparable T] (hlaw : GoComparable.Lawful T)
    (s ns : Set T) (h : ∃ v ∈ ns ++ s, GoComparable.hashable v = false) :
    s.Difference ns = none := by
  obtain ⟨v, hv, hh⟩ := h
  by_cases hns : ∀ w ∈ ns, GoComparable.hashable w = true
  · obtain ⟨m, hm, _⟩ := memberMapLoop_spec hlaw ns [] hns
    have hvs : v ∈ s := by
      rcases List.mem_append.mp hv with h | h
      · rw [hns v h] at hh
        cases hh
      · exact h
    simp only [Set.Difference, hm]
    exact differenceLoop_none m s [] ⟨v, hvs, hh⟩
  · have hex : ∃ w ∈ ns, GoComparable.hashable w = false := by
      by_contra hcon
      apply hns
      intro w hw
      cases hq : GoComparable.hashable w with
      | true => rfl
      | false => exact absurd ⟨w, hw, hq⟩ hcon
    simp [Set.Difference, memberMapLoop_none ns [] hex]

theorem string_goComparable_lawful : GoComparable.Lawful Str := by
  refine ⟨?_, ?_⟩
  · intro a b
    show decide (a = b) = decide (b = a)
    simp only [eq_comm]
  · intro a b c hab hbc
    have h1 : a = b := of_decide_eq_true hab
    have h2 : b = c := of_decide_eq_true hbc
    exact decide_eq_true (h1.trans h2)

theorem anyElem_goComparable_lawful : GoComparable.Lawful AnyElem := by
  refine ⟨?_, ?_⟩
  · intro a b
    show decide (a = b) = decide (b = a)
    simp only [eq_comm]
  · intro a b c hab hbc
    have h1 : a = b := of_decide_eq_true hab
    have h2 : b = c := of_decide_eq_true hbc
    exact decide_eq_true (h1.trans h2)

theorem Float64.goEq_finite_iff (m₁ e₁ m₂ e₂ : Int) :
    Float64.goEq (Float64.finite m₁ e₁) (Float64.finite m₂ e₂) = true ↔
      (m₁ : ℚ) * 2 ^ e₁ = (m₂ : ℚ) * 2 ^ e₂ := by
  simp only [Float64.goEq, decide_eq_true_eq]
  have hab : ((e₁ - e₂).toNat : ℤ) + e₂ = ((e₂ - e₁).toNat : ℤ) + e₁ := by omega
  have h1 : (2 : ℚ) ^ e₁ = 2 ^ ((e₁ - e₂).toNat : ℤ) * 2 ^ (e₁ - ((e₁ - e₂).toNat : ℤ)) := by
    rw [← zpow_add₀ (two_ne_zero)]
    congr 1
    ring
  have h2 : (2 : ℚ) ^ e₂ = 2 ^ ((e₂ - e₁).toNat : ℤ) * 2 ^ (e₁ - ((e₁ - e₂).toNat : ℤ)) := by
    rw [← zpow_add₀ (two_ne_zero)]
    congr 1
    omega
  rw [h1, h2, ← mul_assoc, ← mul_assoc, zpow_natCast, zpow_natCast]
  constructor
  · intro h
    have hq : ((m₁ * 2 ^ (e₁ - e₂).toNat : ℤ) : ℚ) = ((m₂ * 2 ^ (e₂ - e₁).toNat : ℤ) : ℚ) := by
      rw [h]
    push_cast at hq
    rw [hq]
  · intro h
    have hq := mul_right_cancel₀ (zpow_ne_zero _ (two_ne_zero)) h
    exact_mod_cast hq

theorem float64_goComparable_lawful : GoComparable.Lawful Float64 := by
  refine ⟨?_, ?_⟩
  · intro a b
    show Float64.goEq a b = Float64.goEq b a
    cases a <;> cases b <;> simp only [Float64.goEq, eq_comm]
  · intro a b c hab hbc
    change Float64.goEq a b = true at hab
    change Float64.goEq b c = true at hbc
    show Float64.goEq a c = true
    cases a <;> cases b <;> cases c <;>
      first
        | (simp only [Float64.goEq, Bool.false_eq_true] at hab; done)
        | (simp only [Float64.goEq, Bool.false_eq_true] at hbc; done)
        | (rw [Float64.goEq_finite_iff] at hab hbc ⊢; exact hab.trans hbc)
        | (simp only [Float64.goEq, decide_eq_true_eq] at hab hbc ⊢; exact hab.trans hbc)

/-- C21, as stated, fails.  For `Set[float64]`, NaN is equal to nothing, so it is never
found in the map and `s.Difference(s)` for `s = [NaN]` is `[NaN]`, not empty.  For `Set[any]`
with an element that holds a slice, `m[v]` panics and there is no result at all, whether the
element is in `s` or in `ns`. -/
theorem Set.Difference_self_keeps_NaN :
    Set.Difference [Float64.nan] [Float64.nan] = some [Float64.nan] ∧
    Set.Difference [AnyElem.slice [1]] [] = none ∧
    Set.Difference [] [AnyElem.slice [1]] = none := by
  refine ⟨by decide, by decide, by decide⟩

/-- C21, amended: for every Set `s` and `ns` whose elements can all be hashed,
`s.Difference(ns)` is the sub-sequence of `s`, in the order of `s` and keeping its
duplicates, of exactly those elements of `s` that are `==` to no element of `ns`; hence
`s.Difference(empty) = s`, no element of the result is `==` to an element of `ns`, and
`s.Difference(s)` holds the elements of `s` that are not `==` to themselves, so that it is
empty when `==` is reflexive on `s` (no NaN).  When an element of `s` or `ns` cannot be
hashed, and only then, `Difference` panics. -/
theorem Set.Difference_spec {T : Type} [GoComparable T] (hlaw : GoComparable.Lawful T)
    (s ns : Set T) :
    ((∃ r, s.Difference ns = some r) ↔ ∀ v ∈ ns ++ s, GoComparable.hashable v = true) ∧
    ((∀ v ∈ ns ++ s, GoComparable.hashable v = true) →
      s.Difference ns =
        some (s.filter (fun v => !ns.any (fun w => GoComparable.eq w v)))) ∧
    (∀ r, s.Difference ns = some r →
      r.Sublist s ∧
      (∀ v, v ∈ r ↔ v ∈ s ∧ ∀ w ∈ ns, GoComparable.eq w v = false)) ∧
    ((∀ v ∈ s, GoComparable.hashable v = true) →
      s.Difference [] = some s ∧
      s.Difference s = some (s.filter (fun v => !GoComparable.eq v v))) ∧
    ((∀ v ∈ s, GoComparable.hashable v = true ∧ GoComparable.eq v v = true) →
      s.Difference s = some []) := by
  have hsome : (∀ v ∈ ns ++ s, GoComparable.hashable v = true) →
      s.Difference ns =
        some (s.filter (fun v => !ns.any (fun w => GoComparable.eq w v))) := by
    intro hall
    exact Set.Difference_eq hlaw s ns (fun v hv => hall v (List.mem_append_left _ hv))
      (fun v hv => hall v (List.mem_append_right _ hv))
  have hall_of_some : ∀ r, s.Difference ns = some r →
      ∀ v ∈ ns ++ s, GoComparable.hashable v = true := by
    intro r hr v hv
    cases hq : GoComparable.hashable v with
    | true => rfl
    | false =>
      rw [Set.Difference_none hlaw s ns ⟨v, hv, hq⟩] at hr
      cases hr
  have hself : (∀ v ∈ s, GoComparable.hashable v = true) →
      s.Difference s = some (s.filter (fun v => !GoComparable.eq v v)) := by
    intro hall
    rw [Set.Difference_eq hlaw s s hall hall]
    congr 1
    apply List.filter_congr
    intro v hv
    congr 1
    cases hvv : GoComparable.eq v v with
    | true => exact List.any_eq_true.mpr ⟨v, hv, hvv⟩
    | false =>
      cases hany : s.any (fun w => GoComparable.eq w v) with
      | false => rfl
      | true =>
        obtain ⟨w, _, hwv⟩ := List.any_eq_true.mp hany
        have hvw : GoComparable.eq v w = true := by rw [hlaw.1 v w]; exact hwv
        rw [hlaw.2 v w v hvw hwv] at hvv
        cases hvv
  refine ⟨⟨fun ⟨r, hr⟩ => hall_of_some r hr, fun hall => ⟨_, hsome hall⟩⟩, hsome, ?_, ?_, ?_⟩
  · intro r hr
    have heq := hsome (hall_of_some r hr)
    rw [hr] at heq
    have hr' := Option.some.inj heq
    subst hr'
    refine ⟨List.filter_sublist s, ?_⟩
    intro v
    simp [List.mem_filter]
  · intro hall
    refine ⟨?_, hself hall⟩
    rw [Set.Difference_eq hlaw s [] (by simp) hall]
    simp
  · intro hall
    rw [hself (fun v hv => (hall v hv).1)]
    congr 1
    rw [List.filter_eq_nil_iff]
    intro v hv
    simp [(hall v hv).2]

/-- Witness of `Set.Difference_spec`: for the strings `s = ["a","b","a","c"]` and
`ns = ["b"]` the result is `["a","a","c"]`, and `s.Difference(s)` is empty. -/
theorem Set.Difference_spec_witness :
    Set.Difference ["a".toList, "b".toList, "a".toList, "c".toList] ["b".toList] =
      some ["a".toList, "a".toList, "c".toList] ∧
    Set.Difference ["a".toList, "b".toList, "a".toList, "c".toList]
      ["a".toList, "b".toList, "a".toList, "c".toList] = some [] :=
  ⟨(Set.Difference_spec string_goComparable_lawful
      ["a".toList, "b".toList, "a".toList, "c".toList] ["b".toList]).2.1
      (by decide),
    (Set.Difference_spec string_goComparable_lawful
      ["a".toList, "b".toList, "a".toList, "c".toList] ["b".toList]).2.2.2.2
      (by decide)⟩

/-! ## IoT logging options: claims -/

theorem GoError.asInvalidRequestException_iff (err : GoError) :
    err.asInvalidRequestException = true ↔ err.IsInvalidRequestException := by
  induction err with
  | invalidRequestException message =>
    simp only [GoError.asInvalidRequestException, true_iff]
    exact ⟨_, by simp [GoError.chain], message, rfl⟩
  | other typeName message =>
    simp only [GoError.asInvalidRequestException, Bool.false_eq_true, false_iff]
    rintro ⟨e, he, m, hm⟩
    simp only [GoError.chain, List.mem_singleton] at he
    rw [he] at hm
    cases hm
  | wrapped typeName inner ih =>
    simp only [GoError.asInvalidRequestException]
    rw [ih]
    constructor
    · rintro ⟨e, he, m, hm⟩
      exact ⟨e, by simp [GoError.chain, he], m, hm⟩
    · rintro ⟨e, he, m, hm⟩
      simp only [GoError.chain, List.mem_cons] at he
      rcases he with he | he
      · rw [he] at hm
        cases hm
      · exact ⟨e, he, m, hm⟩

theorem resourceLoggingOptionsRead_Id (d : ResourceData) (conn : IoTClient) :
    (resourceLoggingOptionsRead d conn).2.1.Id = d.Id := by
  unfold resourceLoggingOptionsRead
  split <;> rfl

theorem Retry_of_none (retries : Nat) (f : RetryFunc) (conn : IoTClient)
    (h : (f conn).1 = none) : Retry retries f conn = (none, (f conn).2) := by
  cases hf : f conn with
  | mk r conn' =>
    rw [hf] at h
    simp only at h
    subst h
    cases retries <;> simp [Retry, hf]

theorem Retry_of_nonRetryable (retries : Nat) (f : RetryFunc) (conn : IoTClient)
    (err : GoError) (h : (f conn).1 = some (RetryError.nonRetryable err)) :
    Retry retries f conn = (some err, (f conn).2) := by
  cases hf : f conn with
  | mk r conn' =>
    rw [hf] at h
    simp only at h
    subst h
    cases retries <;> simp [Retry, hf]

theorem Retry_of_retryable (retries : Nat) (f : RetryFunc) (conn : IoTClient)
    (err : GoError) (h : (f conn).1 = some (RetryError.retryable err)) :
    Retry (retries + 1) f conn = Retry retries f (f conn).2 ∧
    Retry 0 f conn = (some err, (f conn).2) := by
  cases hf : f conn with
  | mk r conn' =>
    rw [hf] at h
    simp only at h
    subst h
    simp [Retry, hf]

/-- C22: `resourceLoggingOptionsPut` retries only on the specific transient error.  Inside
the retried function a failed `SetV2LoggingOptions` call is classified retryable exactly
when its error is an `InvalidRequestException`, every other error is classified
non-retryable, and a successful call makes the function return nil, which ends the bounded
retry with no error (a non-retryable error ends it with that error, a retryable one leads
to another attempt while attempts are left).  The resource ID is set, to the region, only if
the retry ended without error: whatever the retrier, if it returns nil the ID is the region
afterwards, and if it returns an error the ID is what it was and the error is reported. -/
theorem resourceLoggingOptionsPut_retries_only_on_invalid_request (retry : Retrier)
    (retries : Nat) (region : Str) (d : ResourceData) (conn : IoTClient)
    (input : SetV2LoggingOptionsInput) :
    (∀ err, (conn.SetV2LoggingOptions input).1 = some err →
      ((resourceLoggingOptionsPutRetryFunc input conn).1 = some (RetryError.retryable err) ↔
        err.IsInvalidRequestException) ∧
      ((resourceLoggingOptionsPutRetryFunc input conn).1 =
          some (RetryError.nonRetryable err) ↔
        ¬ err.IsInvalidRequestException)) ∧
    ((conn.SetV2LoggingOptions input).1 = none →
      (resourceLoggingOptionsPutRetryFunc input conn).1 = none ∧
      (Retry retries (resourceLoggingOptionsPutRetryFunc input) conn).1 = none) ∧
    (∀ err, (conn.SetV2LoggingOptions input).1 = some err →
      ¬ err.IsInvalidRequestException →
      Retry retries (resourceLoggingOptionsPutRetryFunc input) conn =
        (some err, (conn.SetV2LoggingOptions input).2)) ∧
    (∀ err, (conn.SetV2LoggingOptions input).1 = some err →
      err.IsInvalidRequestException →
      Retry (retries + 1) (resourceLoggingOptionsPutRetryFunc input) conn =
        Retry retries (resourceLoggingOptionsPutRetryFunc input)
          (conn.SetV2LoggingOptions input).2) ∧
    ((retry (resourceLoggingOptionsPutRetryFunc (resourceLoggingOptionsPutInput d)) conn).1 =
        none →
      (resourceLoggingOptionsPut retry region d conn).2.1.Id = region) ∧
    (∀ err,
      (retry (resourceLoggingOptionsPutRetryFunc (resourceLoggingOptionsPutInput d)) conn).1 =
        some err →
      (resourceLoggingOptionsPut retry region d conn).2.1.Id = d.Id ∧
      (resourceLoggingOptionsPut retry region d conn).1 =
        [Diagnostic.settingLoggingOptions err]) := by
  have hf : ∀ err, (conn.SetV2LoggingOptions input).1 = some err →
      resourceLoggingOptionsPutRetryFunc input conn =
        (if err.asInvalidRequestException then some (RetryError.retryable err)
          else some (RetryError.nonRetryable err), (conn.SetV2LoggingOptions input).2) := by
    intro err herr
    unfold resourceLoggingOptionsPutRetryFunc
    cases hcall : conn.SetV2LoggingOptions input with
    | mk e conn' =>
      rw [hcall] at herr
      simp only at herr
      subst herr
      simp only
      split <;> rfl
  have hnone : (conn.SetV2LoggingOptions input).1 = none →
      resourceLoggingOptionsPutRetryFunc input conn =
        (none, (conn.SetV2LoggingOptions input).2) := by
    intro herr
    unfold resourceLoggingOptionsPutRetryFunc
    cases hcall : conn.SetV2LoggingOptions input with
    | mk e conn' =>
      rw [hcall] at herr
      simp only at herr
      subst herr
      rfl
  refine ⟨?_, ?_, ?_, ?_, ?_, ?_⟩
  · intro err herr
    rw [hf err herr, ← GoError.asInvalidRequestException_iff]
    cases err.asInvalidRequestException <;> simp
  · intro herr
    have h := hnone herr
    exact ⟨by rw [h], by rw [Retry_of_none retries _ conn (by rw [h])]⟩
  · intro err herr hnot
    have hb : err.asInvalidRequestException = false := by
      cases hq : err.asInvalidRequestException with
      | false => rfl
      | true => exact absurd ((GoError.asInvalidRequestException_iff err).mp hq) hnot
    have h := hf err herr
    rw [hb] at h
    rw [Retry_of_nonRetryable retries _ conn err (by rw [h]; rfl), h]
  · intro err herr hyes
    have hb := (GoError.asInvalidRequestException_iff err).mpr hyes
    have h := hf err herr
    rw [hb] at h
    rw [(Retry_of_retryable retries _ conn err (by rw [h]; rfl)).1, h]
  · intro hret
    cases hr : retry (resourceLoggingOptionsPutRetryFunc (resourceLoggingOptionsPutInput d))
        conn with
    | mk e conn' =>
      rw [hr] at hret
      simp only at hret
      subst hret
      simp only [resourceLoggingOptionsPut, hr]
      rw [resourceLoggingOptionsRead_Id]
  · intro err hret
    cases hr : retry (resourceLoggingOptionsPutRetryFunc (resourceLoggingOptionsPutInput d))
        conn with
    | mk e conn' =>
      rw [hr] at hret
      simp only at hret
      subst hret
      simp only [resourceLoggingOptionsPut, hr]
      exact ⟨trivial, trivial⟩

/-- Witness of `resourceLoggingOptionsPut_retries_only_on_invalid_request`: when the service
answers the first call with a wrapped `InvalidRequestException` and the second with
success, the bounded retry ends without error and the ID becomes the region `"us-east-1"`;
when it answers with an error of another type, the ID stays `""` and the error is
reported. -/
theorem resourceLoggingOptionsPut_retries_only_on_invalid_request_witness :
    (resourceLoggingOptionsPut (Retry 3) "us-east-1".toList exampleResourceData
      exampleClientInvalidRequestThenOk).2.1.Id = "us-east-1".toList ∧
    ((resourceLoggingOptionsPut (Retry 3) "us-east-1".toList exampleResourceData
      exampleClientThrottled).2.1.Id = [] ∧
    (resourceLoggingOptionsPut (Retry 3) "us-east-1".toList exampleResourceData
      exampleClientThrottled).1 =
      [Diagnostic.settingLoggingOptions
        (GoError.other "ThrottlingException".toList "slow down".toList)]) :=
  ⟨(resourceLoggingOptionsPut_retries_only_on_invalid_request (Retry 3) 3 "us-east-1".toList
      exampleResourceData exampleClientInvalidRequestThenOk
      (resourceLoggingOptionsPutInput exampleResourceData)).2.2.2.2.1 (by decide),
    (resourceLoggingOptionsPut_retries_only_on_invalid_request (Retry 3) 3 "us-east-1".toList
      exampleResourceData exampleClientThrottled
      (resourceLoggingOptionsPutInput exampleResourceData)).2.2.2.2.2
      (GoError.other "ThrottlingException".toList "slow down".toList) (by decide)⟩

end Flex
